import Mathlib

/-!
Shallow embedding of the repository's two hash structures and proofs about
them.

* `Trie`/`Row` model `src/infinite_hash_table.py` (`InfiniteHashTable`):
  a fixed 27-slot table per node whose slots are empty, a leaf
  (`Nodes(key, value)`) or a child table at the next level.  Keys are the
  lists of character codes of the Python strings (`ord` of each character).
* The `DKT` section further below models `src/double_key_table.py`
  (`DoubleKeyTable`), with the inner `LinearProbeTable` modelled from the
  spec (its source `data_structures/hash_table.py` is not part of the
  sources).

Recursive operations that the Python code performs by unbounded recursion or
`while` loops take an explicit fuel argument; exhausting the fuel yields a
distinguished result, and theorems about completed operations quantify over
the fuel.
-/

set_option maxRecDepth 10000

namespace IHT

mutual
inductive Trie : Type where
  | node (level : Nat) (row : Row)
  deriving DecidableEq
inductive Row : Type where
  | nil : Row
  | empp (rest : Row) : Row
  | leaf (key : List Nat) (val : Nat) (rest : Row) : Row
  | child (t : Trie) (rest : Row) : Row
  deriving DecidableEq
end

/-- View of one slot of a `Row`: `None`, a `Nodes(key, value)` or a child
`InfiniteHashTable` in the Python source. -/
inductive SlotV : Type where
  | empty : SlotV
  | leafV (key : List Nat) (val : Nat) : SlotV
  | childV (t : Trie) : SlotV
  deriving DecidableEq

def rowOf : Trie → Row
  | .node _ row => row

def levelOf : Trie → Nat
  | .node lv _ => lv

/-- `InfiniteHashTable.hash`: `ord(key[level]) % (TABLE_SIZE-1)` when
`level < len(key)`, else `TABLE_SIZE-1` (with `TABLE_SIZE = 27`). -/
def hashL (lv : Nat) (k : List Nat) : Nat :=
  match k.get? lv with
  | some c => c % 26
  | none => 26

def rowGet : Row → Nat → SlotV
  | .nil, _ => .empty
  | .empp _, 0 => .empty
  | .leaf k v _, 0 => .leafV k v
  | .child t _, 0 => .childV t
  | .empp r, j+1 => rowGet r j
  | .leaf _ _ r, j+1 => rowGet r j
  | .child _ r, j+1 => rowGet r j

def consS : SlotV → Row → Row
  | .empty, r => .empp r
  | .leafV k v, r => .leaf k v r
  | .childV t, r => .child t r

def rowSet : Row → Nat → SlotV → Row
  | .nil, _, _ => .nil
  | .empp r, 0, s => consS s r
  | .leaf _ _ r, 0, s => consS s r
  | .child _ r, 0, s => consS s r
  | .empp r, j+1, s => .empp (rowSet r j s)
  | .leaf k v r, j+1, s => .leaf k v (rowSet r j s)
  | .child t r, j+1, s => .child t (rowSet r j s)

def rowLen : Row → Nat
  | .nil => 0
  | .empp r => rowLen r + 1
  | .leaf _ _ r => rowLen r + 1
  | .child _ r => rowLen r + 1

def emptyRow : Nat → Row
  | 0 => .nil
  | n+1 => .empp (emptyRow n)

/-- A fresh `InfiniteHashTable(level)`: 27 empty slots. -/
def emptyTrie (lv : Nat) : Trie := .node lv (emptyRow 27)

mutual
/-- `InfiniteHashTable.__len__`: recursive count of all leaves. -/
def sizeT : Trie → Nat
  | .node _ row => sizeR row
def sizeR : Row → Nat
  | .nil => 0
  | .empp rest => sizeR rest
  | .leaf _ _ rest => 1 + sizeR rest
  | .child t rest => sizeT t + sizeR rest
end

def svSize : SlotV → Nat
  | .empty => 0
  | .leafV _ _ => 1
  | .childV t => sizeT t

/-- `InfiniteHashTable.lookforlastobject`: walk the whole table and keep the
last slot that is not `None`. -/
def lastR : Row → SlotV
  | .nil => .empty
  | .empp rest => lastR rest
  | .leaf k v rest =>
    match lastR rest with
    | .empty => .leafV k v
    | x => x
  | .child t rest =>
    match lastR rest with
    | .empty => .childV t
    | x => x

def lastT (t : Trie) : SlotV := lastR (rowOf t)

/-- `InfiniteHashTable.__getitem__`.  Note the source returns
`element.value` for a leaf without comparing the stored key with the
requested one. -/
def getF : Nat → Trie → List Nat → Except Unit Nat
  | 0, _, _ => .error ()
  | f+1, .node lv row, k =>
    match rowGet row (hashL lv k) with
    | .empty => .error ()
    | .leafV _ v => .ok v
    | .childV c => getF f c k

/-- `InfiniteHashTable.__contains__`: try `__getitem__`, catching
`KeyError`. -/
def containsF (f : Nat) (t : Trie) (k : List Nat) : Bool :=
  (getF f t k).isOk

/-- `InfiniteHashTable.__setitem__`.  The collision branch always builds a
child table from the old leaf and the new pair; there is no branch for a
leaf holding an equal key.  `none` means the recursion did not finish
within the given fuel. -/
def setF : Nat → Trie → List Nat → Nat → Option Trie
  | 0, _, _, _ => none
  | f+1, .node lv row, k, v =>
    match rowGet row (hashL lv k) with
    | .empty => some (.node lv (rowSet row (hashL lv k) (.leafV k v)))
    | .childV c =>
      (setF f c k v).map (fun c2 => .node lv (rowSet row (hashL lv k) (.childV c2)))
    | .leafV k0 v0 =>
      (setF f (emptyTrie (lv+1)) k0 v0).bind (fun e1 =>
        (setF f e1 k v).map (fun e2 => .node lv (rowSet row (hashL lv k) (.childV e2))))

/-- `InfiniteHashTable.__delitem__`.  Note the leaf branch clears the slot
without comparing the stored key with the requested one, and the child
branch collapses a child of size 0 or 1 after the recursive delete. -/
def delF : Nat → Trie → List Nat → Except Unit Trie
  | 0, _, _ => .error ()
  | f+1, .node lv row, k =>
    match rowGet row (hashL lv k) with
    | .empty => .error ()
    | .leafV _ _ => .ok (.node lv (rowSet row (hashL lv k) .empty))
    | .childV c =>
      (delF f c k).map (fun c2 =>
        if sizeT c2 = 0 then .node lv (rowSet row (hashL lv k) .empty)
        else if sizeT c2 = 1 then .node lv (rowSet row (hashL lv k) (lastT c2))
        else .node lv (rowSet row (hashL lv k) (.childV c2)))

mutual
/-- Structural well-formedness: every table (the root and every nested
child) has exactly 27 slots, as guaranteed by `ArrayR(self.TABLE_SIZE)`. -/
def wfT : Trie → Bool
  | .node _ row => decide (rowLen row = 27) && wfR row
def wfR : Row → Bool
  | .nil => true
  | .empp rest => wfR rest
  | .leaf _ _ rest => wfR rest
  | .child t rest => wfT t && wfR rest
end

mutual
/-- The trie shape invariant: every reachable child table holds at least two
leaves. -/
def shapeT : Trie → Bool
  | .node _ row => shapeR row
def shapeR : Row → Bool
  | .nil => true
  | .empp rest => shapeR rest
  | .leaf _ _ rest => shapeR rest
  | .child t rest => decide (2 ≤ sizeT t) && shapeT t && shapeR rest
end

/-- `svOk s` states that writing `s` into a slot keeps the shape invariant:
a child written into a slot must be well shaped and hold at least two
leaves. -/
def svOk : SlotV → Bool
  | .empty => true
  | .leafV _ _ => true
  | .childV t => decide (2 ≤ sizeT t) && shapeT t

/-- `svWf s`: a child written into a slot must be well formed. -/
def svWf : SlotV → Bool
  | .empty => true
  | .leafV _ _ => true
  | .childV t => wfT t

/-- The table holding only `"a" ↦ 1` (key `[97]`, hash 19 at level 0). -/
def tA : Trie := (setF 9 (emptyTrie 0) [97] 1).getD (emptyTrie 0)

/-- The table after inserting `"aa" ↦ 1` then `"ab" ↦ 2` (keys `[97, 97]`
and `[97, 98]`, which collide at level 0 and separate at level 1). -/
def tAB : Trie :=
  ((setF 9 (emptyTrie 0) [97, 97] 1).bind (fun t => setF 9 t [97, 98] 2)).getD (emptyTrie 0)

/-- The table obtained from `tAB` by deleting key `"aa"`. -/
def tABdel : Trie := (delF 9 tAB [97, 97]).toOption.getD (emptyTrie 0)

end IHT

namespace DKT

/-- Keys are lists of character codes of the Python strings. -/
abbrev Key := List Nat

/-- `KeyError`, `FullError`, and a crash (an uncaught `TypeError` or
`IndexError`, e.g. from the stale hash closure dereferencing an emptied
outer slot). -/
inductive DErr : Type where
  | keyErr : DErr
  | fullErr : DErr
  | crashErr : DErr
  deriving DecidableEq

end DKT

deriving instance DecidableEq for Except

namespace DKT

/-- One step of the rolling hash shared by `hash1` and `hash2`:
`value = (ord(char) + a*value) % size` and `a = a*31 % (size-1)`
(with `HASH_BASE = 31` and initial `a = 31415`).  The sizes in play are
assumed to be at least 2, so the `% (size-1)` never divides by zero. -/
def rollStep (size : Nat) (p : Nat × Nat) (c : Nat) : Nat × Nat :=
  ((c + p.2 * p.1) % size, p.2 * 31 % (size - 1))

def rollHash (size : Nat) (key : Key) : Nat :=
  (key.foldl (rollStep size) (0, 31415)).1

/-- Modelled from the spec: the inner `LinearProbeTable` (ProbeBucket) of
`data_structures/hash_table.py`, which is not part of the sources.
`sizes`/`sizeIdx` hold the configured size sequence and the index of the
current capacity, `arr` the slots, `count` the number of occupied slots.
`hashPos` records the outer slot index captured by the `hash` closure that
`DoubleKeyTable._linear_probe` installs on the bucket
(`lambda k: self.hash2(k, self.top_array[top_position][self.table_pos])`). -/
structure LPT : Type where
  sizes : List Nat
  sizeIdx : Nat
  arr : List (Option (Key × Nat))
  count : Nat
  hashPos : Nat
  deriving DecidableEq

/-- `DoubleKeyTable`: the outer array (`top`), the configured size
sequences, `self.top_table_sizes_index`, `self.length` (`totLen`) and
`self.top_length` (`topLen`). -/
structure DKTState : Type where
  topSizes : List Nat
  innerSizes : List Nat
  topIdx : Nat
  top : List (Option (Key × LPT))
  totLen : Nat
  topLen : Nat
  deriving DecidableEq

/-- How a bucket's hash closure resolves when it is called: against the
bucket itself (captured position still holds this bucket), against whatever
other bucket now sits at the captured position, or a crash when the
captured slot is empty or out of range. -/
inductive HashCtx : Type where
  | selfC : HashCtx
  | otherC (cap : Nat) : HashCtx
  | deadC : HashCtx
  deriving DecidableEq

/-- Resolve the closure `lambda k: self.hash2(k, self.top_array[captured][1])`
for an operation on the bucket currently at `selfPos`. -/
def resolveCtx (top : List (Option (Key × LPT))) (captured selfPos : Nat) : HashCtx :=
  if captured = selfPos then .selfC
  else
    match top.getD captured none with
    | none => .deadC
    | some (_, b) => .otherC b.arr.length

/-- Evaluate the bucket's hash closure: `hash2` against the live capacity of
the bucket being operated on (`selfC`), against the other bucket's capacity
(`otherC`), or a crash (`deadC`). -/
def ctxHash : HashCtx → Nat → Key → Except DErr Nat
  | .selfC, cap, k => .ok (rollHash cap k)
  | .otherC m, _, k => .ok (rollHash m k)
  | .deadC, _, _ => .error .crashErr

/-- Modelled from the spec: ProbeBucket `find` -- linear scan from the hash
index, wrapping modulo the capacity, for at most capacity steps; an empty
slot yields the reserved index when inserting and `NotFound` otherwise; a
matching key yields its index; a full scan fails with `TableFull` when
inserting and `NotFound` otherwise. -/
def lptFindLoop (arr : List (Option (Key × Nat))) (k : Key) (ins : Bool) :
    Nat → Nat → Except DErr Nat
  | 0, _ => if ins then .error .fullErr else .error .keyErr
  | n+1, pos =>
    match arr.getD pos none with
    | none => if ins then .ok pos else .error .keyErr
    | some (kb, _) =>
      if kb = k then .ok pos
      else lptFindLoop arr k ins n ((pos + 1) % arr.length)

def lptFind (ctx : HashCtx) (b : LPT) (k : Key) (ins : Bool) : Except DErr Nat :=
  match ctxHash ctx b.arr.length k with
  | .error e => .error e
  | .ok h =>
    if h < b.arr.length then lptFindLoop b.arr k ins b.arr.length h
    else .error .crashErr

/-- Modelled from the spec: ProbeBucket `get`, built on `find`. -/
def lptGet (ctx : HashCtx) (b : LPT) (k : Key) : Except DErr Nat :=
  match lptFind ctx b k false with
  | .error e => .error e
  | .ok pos =>
    match b.arr.getD pos none with
    | some (_, v) => .ok v
    | none => .error .crashErr

/-- Modelled from the spec: ProbeBucket membership, a `get` that treats
`NotFound` as `false` and lets any other failure escape. -/
def lptContains (ctx : HashCtx) (b : LPT) (k : Key) : Except DErr Bool :=
  match lptGet ctx b k with
  | .ok _ => .ok true
  | .error .keyErr => .ok false
  | .error e => .error e

def listSum (l : List Nat) : Nat := l.foldl (· + ·) 0

/-- Modelled from the spec: ProbeBucket `set` and `grow` as one worklist
machine.  Each pending `(key, value)` is inserted via `find(insert)` and a
direct write, bumping `count` on a fresh slot; if the write pushes the
occupancy past half the capacity and the size sequence has room, the bucket
advances to the next configured size and every entry of the old array (in
original slot order) is prepended to the worklist, which is exactly the
nested `grow` reinsertion completing before the remaining pending inserts.
On failure the partially mutated bucket is returned alongside the error. -/
def lptRun (ctx : HashCtx) : Nat → LPT → List (Key × Nat) → (Option DErr) × LPT
  | 0, b, _ => (some .crashErr, b)
  | _+1, b, [] => (none, b)
  | f+1, b, (k, v) :: rest =>
    match lptFind ctx b k true with
    | .error e => (some e, b)
    | .ok pos =>
      let fresh := (b.arr.getD pos none).isNone
      let b1 : LPT := { b with arr := b.arr.set pos (some (k, v)),
                               count := b.count + (if fresh then 1 else 0) }
      if 2 * b1.count > b1.arr.length then
        if b1.sizeIdx + 1 < b1.sizes.length then
          let b2 : LPT := { b1 with sizeIdx := b1.sizeIdx + 1,
                                    arr := List.replicate (b1.sizes.getD (b1.sizeIdx + 1) 0) none,
                                    count := 0 }
          lptRun ctx f b2 (b1.arr.filterMap id ++ rest)
        else lptRun ctx f b1 rest
      else lptRun ctx f b1 rest

/-- Fuel that amply covers one insert and all reinsertions its growth can
trigger. -/
def lptFuel (b : LPT) : Nat :=
  (b.sizes.length + 1) * (listSum b.sizes + 1) + b.arr.length + 3

/-- Modelled from the spec: ProbeBucket `set` of a single pair. -/
def lptIns (ctx : HashCtx) (b : LPT) (k : Key) (v : Nat) : (Option DErr) × LPT :=
  lptRun ctx (lptFuel b) b [(k, v)]

/-- Modelled from the spec: ProbeBucket `delete` -- remove the slot found by
`find`, decrement `count`, then walk forward from the freed slot and
re-insert (via `find(insert)` and a direct write) every entry up to the
next empty slot. -/
def lptDelLoop (ctx : HashCtx) : Nat → LPT → Nat → (Option DErr) × LPT
  | 0, b, _ => (some .crashErr, b)
  | f+1, b, pos =>
    match b.arr.getD pos none with
    | none => (none, b)
    | some (k, v) =>
      let b1 : LPT := { b with arr := b.arr.set pos none }
      match lptFind ctx b1 k true with
      | .error e => (some e, b1)
      | .ok p2 =>
        lptDelLoop ctx f { b1 with arr := b1.arr.set p2 (some (k, v)) }
          ((pos + 1) % b1.arr.length)

def lptDel (ctx : HashCtx) (b : LPT) (k : Key) : (Option DErr) × LPT :=
  match lptFind ctx b k false with
  | .error e => (some e, b)
  | .ok pos =>
    let b1 : LPT := { b with arr := b.arr.set pos none, count := b.count - 1 }
    lptDelLoop ctx (b1.arr.length * b1.arr.length + b1.arr.length + 1) b1
      ((pos + 1) % b1.arr.length)

/-- Modelled from the spec: ProbeBucket `keys()`, the keys in slot order. -/
def lptKeys (b : LPT) : List Key := b.arr.filterMap (fun sl => sl.map Prod.fst)

/-- Modelled from the spec: ProbeBucket `values()`, the values in slot
order. -/
def lptValues (b : LPT) : List Nat := b.arr.filterMap (fun sl => sl.map Prod.snd)

/-- A fresh `LinearProbeTable(self.internal_table_sizes)` whose hash closure
captured the outer position `pos`. -/
def lptFresh (innerSizes : List Nat) (pos : Nat) : LPT :=
  { sizes := innerSizes, sizeIdx := 0,
    arr := List.replicate (innerSizes.headD 0) none, count := 0, hashPos := pos }

/-- `DoubleKeyTable.hash1`: the rolling hash against the outer capacity. -/
def hash1 (s : DKTState) (k : Key) : Nat := rollHash s.top.length k

/-- `DoubleKeyTable._linear_probe` (lines 147-169).  The empty-slot insert
branch writes a fresh bucket (with its hash closure capturing the position)
into the outer array before probing the fresh bucket for `key2`, so a
failure after that point leaves the mutation behind, exactly as in the
source. -/
def dktProbeLoop (k1 k2 : Key) (ins : Bool) :
    Nat → DKTState → Nat → (Except DErr (Nat × Nat)) × DKTState
  | 0, s, _ => ((if ins then .error .fullErr else .error .keyErr), s)
  | n+1, s, pos =>
    match s.top.getD pos none with
    | none =>
      if ins then
        let fresh := lptFresh s.innerSizes pos
        let s2 : DKTState := { s with top := s.top.set pos (some (k1, fresh)) }
        match lptFind (resolveCtx s2.top pos pos) fresh k2 ins with
        | .ok ip => (.ok (pos, ip), s2)
        | .error e => (.error e, s2)
      else (.error .keyErr, s)
    | some (k1b, b) =>
      if k1b = k1 then
        match lptFind (resolveCtx s.top b.hashPos pos) b k2 ins with
        | .ok ip => (.ok (pos, ip), s)
        | .error e => (.error e, s)
      else dktProbeLoop k1 k2 ins n s ((pos + 1) % s.top.length)

def dktProbe (s : DKTState) (k1 k2 : Key) (ins : Bool) :
    (Except DErr (Nat × Nat)) × DKTState :=
  dktProbeLoop k1 k2 ins s.top.length s (hash1 s k1)

/-- `DoubleKeyTable.__getitem__` (lines 546-549): probe without inserting,
then read through the inner bucket's `__getitem__`.  A failed probe never
mutates, so the state is dropped. -/
def dktGet (s : DKTState) (k1 k2 : Key) : Except DErr Nat :=
  match (dktProbe s k1 k2 false).1 with
  | .error e => .error e
  | .ok (p1, _) =>
    match s.top.getD p1 none with
    | none => .error .crashErr
    | some (_, b) => lptGet (resolveCtx s.top b.hashPos p1) b k2

/-- `DoubleKeyTable.__contains__`. -/
def dktContains (s : DKTState) (k1 k2 : Key) : Except DErr Bool :=
  match dktGet s k1 k2 with
  | .ok _ => .ok true
  | .error .keyErr => .ok false
  | .error e => .error e

/-- `DoubleKeyTable.__setitem__` up to (but not including) the rehash check
(lines 583-593): probe with insert, bump `length`/`top_length` when the
target bucket is empty, bump `length` when `key2` is new, then write
through the inner bucket's `__setitem__`.  On failure the state mutated so
far is returned alongside the error. -/
def dktSetCore (s : DKTState) (k1 k2 : Key) (v : Nat) : (Option DErr) × DKTState :=
  match dktProbe s k1 k2 true with
  | (.error e, s1) => (some e, s1)
  | (.ok (p1, _), s1) =>
    match s1.top.getD p1 none with
    | none => (some .crashErr, s1)
    | some (k1x, b) =>
      let ctx := resolveCtx s1.top b.hashPos p1
      match ((if b.count = 0 then
               .ok { s1 with totLen := s1.totLen + 1, topLen := s1.topLen + 1 }
             else
               match lptContains ctx b k2 with
               | .error e => .error e
               | .ok true => .ok s1
               | .ok false => .ok { s1 with totLen := s1.totLen + 1 }) :
            Except DErr DKTState) with
      | .error e => (some e, s1)
      | .ok s2 =>
        match lptIns ctx b k2 v with
        | (some e, b1) => (some e, { s2 with top := s2.top.set p1 (some (k1x, b1)) })
        | (none, b1) => (none, { s2 with top := s2.top.set p1 (some (k1x, b1)) })

/-- Pending work of `__setitem__`/`_rehash`: an insert `self[(k1,k2)] = v`,
the `self.length -= 1` following each rehash reinsert, and the
`self.top_length -= 1` preceding each rehashed slot. -/
inductive Job : Type where
  | ins (k1 k2 : Key) (v : Nat) : Job
  | decLen : Job
  | decTop : Job
  deriving DecidableEq

/-- The reinsertion jobs `_rehash` generates for one old outer slot
(lines 685-694): skip empty slots; otherwise `top_length -= 1`, then for
each `(key2, value)` pair of the bucket (zipping `keys()` with `values()`)
insert it and then `length -= 1`. -/
def expandSlot : Option (Key × LPT) → List Job
  | none => []
  | some (k1, b) =>
    .decTop :: ((lptKeys b).zip (lptValues b)).foldr
      (fun kv acc => .ins k1 kv.1 kv.2 :: .decLen :: acc) []

def expandSlots (slots : List (Option (Key × LPT))) : List Job :=
  slots.foldr (fun sl acc => expandSlot sl ++ acc) []

/-- The worklist machine for `__setitem__` including `_rehash`
(lines 594-596 and 646-694).  After a successful core insert, if
`top_length > table_size / 2` then `_rehash` advances
`top_table_sizes_index`; when the sequence is exhausted it returns with no
further change, otherwise it installs a fresh outer array of the next size
and prepends the reinsertion jobs of every old slot, which run (including
any nested rehash they trigger) before the remaining pending jobs.  Any
failure aborts everything, returning the state mutated so far. -/
def dktRun : Nat → DKTState → List Job → (Option DErr) × DKTState
  | 0, s, _ => (some .crashErr, s)
  | _+1, s, [] => (none, s)
  | f+1, s, .decTop :: rest => dktRun f { s with topLen := s.topLen - 1 } rest
  | f+1, s, .decLen :: rest => dktRun f { s with totLen := s.totLen - 1 } rest
  | f+1, s, .ins k1 k2 v :: rest =>
    match dktSetCore s k1 k2 v with
    | (some e, s1) => (some e, s1)
    | (none, s1) =>
      if 2 * s1.topLen > s1.top.length then
        let s2 : DKTState := { s1 with topIdx := s1.topIdx + 1 }
        if s2.topSizes.length ≤ s2.topIdx then dktRun f s2 rest
        else
          let s3 : DKTState :=
            { s2 with top := List.replicate (s2.topSizes.getD s2.topIdx 0) none }
          dktRun f s3 (expandSlots s2.top ++ rest)
      else dktRun f s1 rest

/-- Fuel that amply covers one insert and every rehash cascade it can
trigger. -/
def dktFuel (s : DKTState) : Nat :=
  (s.topLen + 2 * s.totLen + s.top.length + listSum s.topSizes + 5) *
    (s.topSizes.length + 2)

/-- `DoubleKeyTable.__setitem__`. -/
def dktSet (s : DKTState) (k1 k2 : Key) (v : Nat) : (Option DErr) × DKTState :=
  dktRun (dktFuel s) s [.ins k1 k2 v]

/-- The backward-shift loop of `DoubleKeyTable.__delitem__`
(lines 636-643): extract each following outer entry up to the next empty
outer slot, clear it, re-probe `(key1, " ")` with insert (which writes a
fresh bucket into the landing slot) and overwrite that slot with the saved
`(key1, bucket)` pair -- whose hash closure still points at the position it
was created at. -/
def dktShiftLoop : Nat → DKTState → Nat → (Option DErr) × DKTState
  | 0, s, _ => (some .crashErr, s)
  | f+1, s, pos =>
    match s.top.getD pos none with
    | none => (none, s)
    | some (k1, b) =>
      let s1 : DKTState := { s with top := s.top.set pos none }
      match dktProbe s1 k1 [32] true with
      | (.error e, s2) => (some e, s2)
      | (.ok (np, _), s2) =>
        dktShiftLoop f { s2 with top := s2.top.set np (some (k1, b)) }
          ((pos + 1) % s2.top.length)

/-- `DoubleKeyTable.__delitem__` (lines 626-643). -/
def dktDelete (s : DKTState) (k1 k2 : Key) : (Option DErr) × DKTState :=
  match dktProbe s k1 k2 false with
  | (.error e, s1) => (some e, s1)
  | (.ok (p1, _), s1) =>
    match s1.top.getD p1 none with
    | none => (some .crashErr, s1)
    | some (k1x, b) =>
      match lptDel (resolveCtx s1.top b.hashPos p1) b k2 with
      | (some e, b1) => (some e, { s1 with top := s1.top.set p1 (some (k1x, b1)) })
      | (none, b1) =>
        let s2 : DKTState :=
          { s1 with top := s1.top.set p1 (some (k1x, b1)), totLen := s1.totLen - 1 }
        if b1.count = 0 then
          let s3 : DKTState :=
            { s2 with top := s2.top.set p1 none, topLen := s2.topLen - 1 }
          dktShiftLoop (s3.top.length * s3.top.length + s3.top.length + 1) s3
            ((p1 + 1) % s3.top.length)
        else (none, s2)

/-- `DoubleKeyTable.keys(key)` for `key is not None` (lines 336-340): the
first matching outer slot returns its bucket's keys; if the scan falls
through, the Python function returns `None`. -/
def dktKeysFind : List (Option (Key × LPT)) → Key → Option (List Key)
  | [], _ => none
  | none :: rest, k1 => dktKeysFind rest k1
  | some (k1b, b) :: rest, k1 =>
    if k1b = k1 then some (lptKeys b) else dktKeysFind rest k1

/-- `DoubleKeyTable.keys(key)` (lines 326-340): with no key, the list of
top-level keys in slot order; with a key, `dktKeysFind` (which can fall
through to `None`). -/
def dktKeys (s : DKTState) : Option Key → Option (List Key)
  | none => some (s.top.filterMap (fun sl => sl.map Prod.fst))
  | some k1 => dktKeysFind s.top k1

/-- `DoubleKeyTable.values(key)` (lines 499-512): with no key, the
concatenation of every bucket's values in slot order; with a key, a scan of
the whole outer array keeping the last matching bucket's values, starting
from the empty list (so an absent key yields `[]`). -/
def dktValues (s : DKTState) : Option Key → List Nat
  | none =>
    s.top.foldr
      (fun sl acc => match sl with
        | none => acc
        | some (_, b) => lptValues b ++ acc) []
  | some k1 =>
    s.top.foldl
      (fun acc sl => match sl with
        | none => acc
        | some (k1b, b) => if k1b = k1 then lptValues b else acc) []

/-- `DoubleKeyTable.TABLE_SIZES`. -/
def TABLE_SIZES : List Nat :=
  [5, 13, 29, 53, 97, 193, 389, 769, 1543, 3079, 6151, 12289, 24593, 49157,
   98317, 196613, 393241, 786433, 1572869]

/-- `DoubleKeyTable.__init__` with explicit size sequences. -/
def dktNew (sizes innerSizes : List Nat) : DKTState :=
  { topSizes := sizes, innerSizes := innerSizes, topIdx := 0,
    top := List.replicate (sizes.headD 0) none, totLen := 0, topLen := 0 }

/-- `DoubleKeyTable()` with both size sequences defaulted. -/
def dktDefault : DKTState := dktNew TABLE_SIZES TABLE_SIZES

/-- The capacity of the inner bucket stored for `k1`, if any. -/
def dktInnerCap (s : DKTState) (k1 : Key) : Option Nat :=
  s.top.foldl
    (fun acc sl => match sl with
      | none => acc
      | some (k1b, b) => if k1b = k1 then some b.arr.length else acc) none

/-- The multiset of `(k1, k2, value)` triples stored in an outer array, in
slot order. -/
def dktPairsL (top : List (Option (Key × LPT))) : List (Key × Key × Nat) :=
  (top.filterMap id).foldr
    (fun p acc => (p.2.arr.filterMap id).map (fun q => (p.1, q.1, q.2)) ++ acc) []

/-- The multiset of stored `(k1, k2, value)` triples, in slot order. -/
def dktPairs (s : DKTState) : List (Key × Key × Nat) := dktPairsL s.top

/-- The jobs that reinsert one first key's list of pairs during a rehash:
`.ins` then `.decLen` for each pair. -/
def slotJobs (k1 : Key) (ps : List (Key × Nat)) : List Job :=
  ps.foldr (fun kv acc => .ins k1 kv.1 kv.2 :: .decLen :: acc) []

/-- The per-slot work of a rehash, as (first key, pair list) groups. -/
def slotsJobs (ws : List (Key × List (Key × Nat))) : List Job :=
  ws.foldr (fun w acc => .decTop :: slotJobs w.1 w.2 ++ acc) []

/-- The (first key, pair list) groups of the occupied slots of an outer
array. -/
def workOf (slots : List (Option (Key × LPT))) : List (Key × List (Key × Nat)) :=
  slots.filterMap (fun sl => sl.map (fun p => (p.1, p.2.arr.filterMap id)))

/-- A pure description of the outer probe walk: the first empty slot
(`false`) or the first slot whose key matches (`true`), scanning at most
`n` steps from `pos`; `none` when the scan exhausts. -/
def findSlot (top : List (Option (Key × LPT))) (k1 : Key) : Nat → Nat → Option (Nat × Bool)
  | 0, _ => none
  | n+1, pos =>
    match top.getD pos none with
    | none => some (pos, false)
    | some (k1b, _) =>
      if k1b = k1 then some (pos, true)
      else findSlot top k1 n ((pos + 1) % top.length)

/-- Adjacent elements of the size sequence differ by at least 2 (the
default sequence satisfies this); this is what rules out a nested rehash
firing while a rehash is reinserting. -/
def gapOk : List Nat → Bool
  | [] => true
  | [_] => true
  | a :: b :: r => decide (a + 2 ≤ b) && gapOk (b :: r)

/-- A usable configured size sequence: nonempty, every size at least 2 (so
the `% (size-1)` of the hash never divides by zero), adjacent sizes at
least 2 apart. -/
def sizesOk (l : List Nat) : Prop :=
  l ≠ [] ∧ (∀ x ∈ l, 2 ≤ x) ∧ gapOk l = true

/-- Internal invariant of an inner bucket: a capacity from the size
sequence, an accurate `count`, occupancy at most half the capacity unless
growth is exhausted, distinct keys, and every stored key reachable by the
probe from its hash (the probe invariant). -/
def lptInv (b : LPT) : Prop :=
  b.sizeIdx < b.sizes.length ∧
  b.arr.length = b.sizes.getD b.sizeIdx 0 ∧
  b.count = (b.arr.filterMap id).length ∧
  (2 * b.count ≤ b.arr.length ∨ b.sizes.length ≤ b.sizeIdx + 1) ∧
  ((b.arr.filterMap id).map Prod.fst).Nodup ∧
  (∀ j, j < b.arr.length → ∀ q ∈ b.arr.getD j none,
    lptFindLoop b.arr q.1 false b.arr.length (rollHash b.arr.length q.1) = .ok j)

/-- Well-formedness of an inner bucket stored at outer slot `i`: the
configured sizes, the hash closure pointing at its own slot, at least one
entry, and the internal invariant. -/
def lptWF (isz : List Nat) (i : Nat) (b : LPT) : Prop :=
  b.sizes = isz ∧ b.hashPos = i ∧ 1 ≤ b.count ∧ lptInv b

/-- Well-formedness of a whole `DoubleKeyTable` state: usable size
sequences, a capacity from the outer sequence, accurate `top_length` and
`length` counters, distinct first keys, outer occupancy at most half the
capacity unless growth is exhausted, and every stored slot holding a
well-formed bucket that the outer probe reaches from `hash1` of its key. -/
def dktWF (s : DKTState) : Prop :=
  sizesOk s.topSizes ∧ sizesOk s.innerSizes ∧
  s.topIdx < s.topSizes.length ∧
  s.top.length = s.topSizes.getD s.topIdx 0 ∧
  s.topLen = (s.top.filterMap id).length ∧
  s.totLen = listSum ((s.top.filterMap id).map (fun p => p.2.count)) ∧
  ((s.top.filterMap id).map Prod.fst).Nodup ∧
  (2 * s.topLen ≤ s.top.length ∨ s.topSizes.length ≤ s.topIdx + 1) ∧
  (∀ j, j < s.top.length → ∀ p ∈ s.top.getD j none,
    lptWF s.innerSizes j p.2 ∧
    findSlot s.top p.1 s.top.length (rollHash s.top.length p.1) = some (j, true))

/-- The first key is stored in some outer slot. -/
def k1Stored (s : DKTState) (k1 : Key) : Prop :=
  ∃ p ∈ s.top.filterMap id, p.1 = k1

/-- The key pair is stored. -/
def pairStored (s : DKTState) (k1 k2 : Key) : Prop :=
  ∃ p ∈ s.top.filterMap id, p.1 = k1 ∧ ∃ q ∈ p.2.arr.filterMap id, q.1 = k2

/-- The pair is stored with this value. -/
def tripleStored (s : DKTState) (k1 k2 : Key) (v : Nat) : Prop :=
  ∃ p ∈ s.top.filterMap id, p.1 = k1 ∧ (k2, v) ∈ p.2.arr.filterMap id

instance (s : DKTState) (k1 : Key) : Decidable (k1Stored s k1) := by
  unfold k1Stored; infer_instance

instance (s : DKTState) (k1 k2 : Key) : Decidable (pairStored s k1 k2) := by
  unfold pairStored; infer_instance

instance (s : DKTState) (k1 k2 : Key) (v : Nat) : Decidable (tripleStored s k1 k2 v) := by
  unfold tripleStored; infer_instance

instance (l : List Nat) : Decidable (sizesOk l) := by
  unfold sizesOk; infer_instance

instance (b : LPT) : Decidable (lptInv b) := by
  unfold lptInv; infer_instance

instance (isz : List Nat) (i : Nat) (b : LPT) : Decidable (lptWF isz i b) := by
  unfold lptWF; infer_instance

instance (s : DKTState) : Decidable (dktWF s) := by
  unfold dktWF; infer_instance

/-- `DoubleKeyTable._rehash` (lines 675-694) as a standalone operation:
advance `top_table_sizes_index`; if the sequence is exhausted return with
no further change; otherwise install a fresh outer array of the next size
and run the reinsertion jobs of every old slot. -/
def dktRehash (s : DKTState) : (Option DErr) × DKTState :=
  let s2 : DKTState := { s with topIdx := s.topIdx + 1 }
  if s2.topSizes.length ≤ s2.topIdx then (none, s2)
  else
    let s3 : DKTState :=
      { s2 with top := List.replicate (s2.topSizes.getD s2.topIdx 0) none }
    dktRun (dktFuel s) s3 (expandSlots s2.top)

-- #### Concrete scenario states

/-- Default table after `set("a", "x", 1)` (hash1("a") = 97 % 5 = 2). -/
def st1 : (Option DErr) × DKTState := dktSet dktDefault [97] [120] 1

/-- ... then `set("f", "x", 2)` (hash1("f") = 102 % 5 = 2 collides, so "f"
lands at outer slot 3 and its bucket's hash closure captures position 3). -/
def st2 : (Option DErr) × DKTState := dktSet st1.2 [102] [120] 2

/-- ... then `del("a", "x")`: empties "a"'s bucket, clears outer slot 2 and
backward-shifts "f" from slot 3 to slot 2, while "f"'s bucket's hash
closure still points at the now-empty slot 3. -/
def st3 : (Option DErr) × DKTState := dktDelete st2.2 [97] [120]

/-- Default table after `set("a","x1",1); set("a","x2",2); set("a","x3",3)`:
the third insert pushes "a"'s bucket past half of its capacity 5, growing
it to 13. -/
def rh1 : (Option DErr) × DKTState :=
  let a := dktSet dktDefault [97] [120, 49] 1
  let b := dktSet a.2 [97] [120, 50] 2
  dktSet b.2 [97] [120, 51] 3

/-- ... then `del("a","x2"); del("a","x3")`: one pair left in a bucket of
capacity 13. -/
def rh2 : (Option DErr) × DKTState :=
  let a := dktDelete rh1.2 [97] [120, 50]
  dktDelete a.2 [97] [120, 51]

/-- ... then `set("b","y",4)`: two occupied outer slots, no rehash yet. -/
def rh3 : (Option DErr) × DKTState := dktSet rh2.2 [98] [121] 4

/-- ... then `set("c","z",5)`: `top_length = 3 > 5/2` triggers `_rehash`,
which reinserts every pair into a fresh outer array of size 13 and
recreates "a"'s bucket at the base capacity 5. -/
def rh4 : (Option DErr) × DKTState := dktSet rh3.2 [99] [122] 5

end DKT

-- ### Theorems

namespace IHT

/-- Single-motive induction principle for `Row` (the child table is treated
as opaque data). -/
theorem rowInd {motive : Row → Prop} (hnil : motive .nil)
    (hempp : ∀ r, motive r → motive (.empp r))
    (hleaf : ∀ k v r, motive r → motive (.leaf k v r))
    (hchild : ∀ t r, motive r → motive (.child t r)) : ∀ row, motive row
  | .nil => hnil
  | .empp r => hempp r (rowInd hnil hempp hleaf hchild r)
  | .leaf k v r => hleaf k v r (rowInd hnil hempp hleaf hchild r)
  | .child t r => hchild t r (rowInd hnil hempp hleaf hchild r)

theorem rowGet_emptyRow : ∀ n i, rowGet (emptyRow n) i = .empty := by
  intro n
  induction n with
  | zero => intro i; rfl
  | succ m ih =>
    intro i
    cases i with
    | zero => rfl
    | succ j => exact ih j

theorem rowLen_emptyRow : ∀ n, rowLen (emptyRow n) = n := by
  intro n
  induction n with
  | zero => rfl
  | succ m ih => simp [emptyRow, rowLen, ih]

theorem hashL_lt27 : ∀ lv k, hashL lv k < 27 := by
  intro lv k
  unfold hashL
  cases k.get? lv with
  | none => simp
  | some c => simp; exact Nat.lt_of_lt_of_le (Nat.mod_lt c (by norm_num)) (by norm_num)

theorem rowLen_rowSet : ∀ row i s, rowLen (rowSet row i s) = rowLen row := by
  intro row
  induction row using rowInd with
  | hnil => intro i s; rfl
  | hempp r ih =>
    intro i s
    cases i with
    | zero => cases s <;> rfl
    | succ j => simp [rowSet, rowLen, ih]
  | hleaf k v r ih =>
    intro i s
    cases i with
    | zero => cases s <;> rfl
    | succ j => simp [rowSet, rowLen, ih]
  | hchild t r ih =>
    intro i s
    cases i with
    | zero => cases s <;> rfl
    | succ j => simp [rowSet, rowLen, ih]

theorem rowGet_rowSet_self :
    ∀ row i s, i < rowLen row → rowGet (rowSet row i s) i = s := by
  intro row
  induction row using rowInd with
  | hnil => intro i s h; simp [rowLen] at h
  | hempp r ih =>
    intro i s _
    cases i with
    | zero => cases s <;> rfl
    | succ j => exact ih j s (by simp [rowLen] at *; omega)
  | hleaf k v r ih =>
    intro i s _
    cases i with
    | zero => cases s <;> rfl
    | succ j => exact ih j s (by simp [rowLen] at *; omega)
  | hchild t r ih =>
    intro i s _
    cases i with
    | zero => cases s <;> rfl
    | succ j => exact ih j s (by simp [rowLen] at *; omega)

theorem sizeR_consS : ∀ s r, sizeR (consS s r) = svSize s + sizeR r := by
  intro s r
  cases s <;> simp [consS, sizeR, svSize]

theorem sizeR_rowSet :
    ∀ row i s, i < rowLen row →
      sizeR (rowSet row i s) + svSize (rowGet row i) = sizeR row + svSize s := by
  intro row
  induction row using rowInd with
  | hnil => intro i s h; simp [rowLen] at h
  | hempp r ih =>
    intro i s h
    cases i with
    | zero => simp [rowSet, rowGet, sizeR_consS, svSize, sizeR]; omega
    | succ j =>
      have := ih j s (by simp [rowLen] at h; omega)
      simp [rowSet, rowGet, sizeR]; omega
  | hleaf k v r ih =>
    intro i s h
    cases i with
    | zero => simp [rowSet, rowGet, sizeR_consS, svSize, sizeR]; omega
    | succ j =>
      have := ih j s (by simp [rowLen] at h; omega)
      simp [rowSet, rowGet, sizeR]; omega
  | hchild t r ih =>
    intro i s h
    cases i with
    | zero => simp [rowSet, rowGet, sizeR_consS, svSize, sizeR]; omega
    | succ j =>
      have := ih j s (by simp [rowLen] at h; omega)
      simp [rowSet, rowGet, sizeR]; omega

end IHT

namespace IHT

theorem shapeR_consS : ∀ s r, svOk s → shapeR r → shapeR (consS s r) := by
  intro s r hs hr
  cases s <;> simp_all [consS, shapeR, svOk, Bool.and_eq_true]

theorem shapeR_rowSet :
    ∀ row i s, shapeR row → svOk s → shapeR (rowSet row i s) := by
  intro row
  induction row using rowInd with
  | hnil => intro i s _ _; exact rfl
  | hempp r ih =>
    intro i s hr hs
    cases i with
    | zero => exact shapeR_consS s r hs (by simpa [shapeR] using hr)
    | succ j => simpa [rowSet, shapeR] using ih j s (by simpa [shapeR] using hr) hs
  | hleaf k v r ih =>
    intro i s hr hs
    cases i with
    | zero => exact shapeR_consS s r hs (by simpa [shapeR] using hr)
    | succ j => simpa [rowSet, shapeR] using ih j s (by simpa [shapeR] using hr) hs
  | hchild t r ih =>
    intro i s hr hs
    simp [shapeR, Bool.and_eq_true] at hr
    cases i with
    | zero => exact shapeR_consS s r hs hr.2
    | succ j =>
      simp [rowSet, shapeR, Bool.and_eq_true]
      exact ⟨hr.1, ih j s hr.2 hs⟩

theorem wfR_consS : ∀ s r, svWf s → wfR r → wfR (consS s r) := by
  intro s r hs hr
  cases s <;> simp_all [consS, wfR, svWf, Bool.and_eq_true]

theorem wfR_rowSet :
    ∀ row i s, wfR row → svWf s → wfR (rowSet row i s) := by
  intro row
  induction row using rowInd with
  | hnil => intro i s _ _; exact rfl
  | hempp r ih =>
    intro i s hr hs
    cases i with
    | zero => exact wfR_consS s r hs (by simpa [wfR] using hr)
    | succ j => simpa [rowSet, wfR] using ih j s (by simpa [wfR] using hr) hs
  | hleaf k v r ih =>
    intro i s hr hs
    cases i with
    | zero => exact wfR_consS s r hs (by simpa [wfR] using hr)
    | succ j => simpa [rowSet, wfR] using ih j s (by simpa [wfR] using hr) hs
  | hchild t r ih =>
    intro i s hr hs
    simp [wfR, Bool.and_eq_true] at hr
    cases i with
    | zero => exact wfR_consS s r hs hr.2
    | succ j =>
      simp [rowSet, wfR, Bool.and_eq_true]
      exact ⟨hr.1, ih j s hr.2 hs⟩

theorem shapeR_child :
    ∀ row i c, shapeR row → rowGet row i = .childV c → shapeT c ∧ 2 ≤ sizeT c := by
  intro row
  induction row using rowInd with
  | hnil => intro i c _ h; simp [rowGet] at h
  | hempp r ih =>
    intro i c hr h
    cases i with
    | zero => simp [rowGet] at h
    | succ j => exact ih j c (by simpa [shapeR] using hr) h
  | hleaf k v r ih =>
    intro i c hr h
    cases i with
    | zero => simp [rowGet] at h
    | succ j => exact ih j c (by simpa [shapeR] using hr) h
  | hchild t r ih =>
    intro i c hr h
    simp [shapeR, Bool.and_eq_true] at hr
    cases i with
    | zero =>
      simp [rowGet] at h
      subst h
      exact ⟨hr.1.2, hr.1.1⟩
    | succ j => exact ih j c hr.2 h

theorem wfR_child :
    ∀ row i c, wfR row → rowGet row i = .childV c → wfT c := by
  intro row
  induction row using rowInd with
  | hnil => intro i c _ h; simp [rowGet] at h
  | hempp r ih =>
    intro i c hr h
    cases i with
    | zero => simp [rowGet] at h
    | succ j => exact ih j c (by simpa [wfR] using hr) h
  | hleaf k v r ih =>
    intro i c hr h
    cases i with
    | zero => simp [rowGet] at h
    | succ j => exact ih j c (by simpa [wfR] using hr) h
  | hchild t r ih =>
    intro i c hr h
    simp [wfR, Bool.and_eq_true] at hr
    cases i with
    | zero => simp [rowGet] at h; subst h; exact hr.1
    | succ j => exact ih j c hr.2 h

theorem sizeR_emptyRow : ∀ n, sizeR (emptyRow n) = 0 := by
  intro n
  induction n with
  | zero => rfl
  | succ m ih => simpa [emptyRow, sizeR] using ih

theorem wfR_emptyRow : ∀ n, wfR (emptyRow n) = true := by
  intro n
  induction n with
  | zero => rfl
  | succ m ih => simpa [emptyRow, wfR] using ih

theorem shapeR_emptyRow : ∀ n, shapeR (emptyRow n) = true := by
  intro n
  induction n with
  | zero => rfl
  | succ m ih => simpa [emptyRow, shapeR] using ih

theorem wfT_emptyTrie : ∀ lv, wfT (emptyTrie lv) = true := by
  intro lv
  simp [emptyTrie, wfT, wfR_emptyRow, rowLen_emptyRow]

theorem shapeT_emptyTrie : ∀ lv, shapeT (emptyTrie lv) = true := by
  intro lv
  simp [emptyTrie, shapeT, shapeR_emptyRow]

theorem sizeT_emptyTrie : ∀ lv, sizeT (emptyTrie lv) = 0 := by
  intro lv
  simp [emptyTrie, sizeT, sizeR_emptyRow]

theorem setF_emptyTrie :
    ∀ f lv k v, setF (f+1) (emptyTrie lv) k v
      = some (.node lv (rowSet (emptyRow 27) (hashL lv k) (.leafV k v))) := by
  intro f lv k v
  rw [emptyTrie, setF, rowGet_emptyRow]

/-- Setting a key that is already the key of the leaf in its hash slot never
terminates: the collision branch rebuilds the same situation one level
deeper, for every amount of fuel. -/
theorem set_same_key_none :
    ∀ f lv row (k : List Nat) w v,
      rowGet row (hashL lv k) = .leafV k w → setF f (.node lv row) k v = none := by
  intro f
  induction f with
  | zero => intro lv row k w v _; rfl
  | succ g ih =>
    intro lv row k w v h
    simp only [setF, h]
    cases g with
    | zero => rfl
    | succ g2 =>
      rw [setF_emptyTrie]
      simp only [Option.some_bind]
      rw [ih (lv+1) (rowSet (emptyRow 27) (hashL (lv+1) k) (.leafV k w)) k w v
        (rowGet_rowSet_self _ _ _ (by rw [rowLen_emptyRow]; exact hashL_lt27 _ _))]
      rfl

end IHT

namespace IHT

theorem wfT_node : ∀ lv row, wfT (.node lv row) = (decide (rowLen row = 27) && wfR row) := by
  intro lv row; rfl

theorem shapeT_node : ∀ lv row, shapeT (.node lv row) = shapeR row := by
  intro lv row; rfl

theorem sizeT_node : ∀ lv row, sizeT (.node lv row) = sizeR row := by
  intro lv row; rfl

/-- A completed insert preserves well-formedness and grows the leaf count by
exactly one (there is no overwrite path in the source). -/
theorem setF_main :
    ∀ f t k v t2, wfT t = true → setF f t k v = some t2 →
      wfT t2 = true ∧ sizeT t2 = sizeT t + 1 := by
  intro f
  induction f with
  | zero => intro t k v t2 _ h; simp [setF] at h
  | succ g ih =>
    intro t k v t2 hw h
    cases t with
    | node lv row =>
      rw [wfT_node, Bool.and_eq_true, decide_eq_true_eq] at hw
      have hlt : hashL lv k < rowLen row := by rw [hw.1]; exact hashL_lt27 lv k
      cases hs : rowGet row (hashL lv k) with
      | empty =>
        simp only [setF, hs] at h
        obtain rfl : Trie.node lv (rowSet row (hashL lv k) (.leafV k v)) = t2 :=
          Option.some_injective _ h
        have hsz := sizeR_rowSet row (hashL lv k) (.leafV k v) hlt
        rw [hs] at hsz
        constructor
        · rw [wfT_node, Bool.and_eq_true, decide_eq_true_eq, rowLen_rowSet]
          exact ⟨hw.1, wfR_rowSet row _ _ hw.2 rfl⟩
        · rw [sizeT_node, sizeT_node]
          simp [svSize] at hsz
          omega
      | leafV k0 v0 =>
        simp only [setF, hs] at h
        cases he1 : setF g (emptyTrie (lv+1)) k0 v0 with
        | none => rw [he1] at h; simp at h
        | some e1 =>
          rw [he1] at h
          simp only [Option.some_bind] at h
          cases he2 : setF g e1 k v with
          | none => rw [he2] at h; simp at h
          | some e2 =>
            rw [he2] at h
            simp only [Option.map_some'] at h
            obtain rfl : Trie.node lv (rowSet row (hashL lv k) (.childV e2)) = t2 :=
              Option.some_injective _ h
            obtain ⟨hwe1, hse1⟩ := ih _ _ _ _ (wfT_emptyTrie (lv+1)) he1
            obtain ⟨hwe2, hse2⟩ := ih _ _ _ _ hwe1 he2
            rw [sizeT_emptyTrie] at hse1
            have hsz := sizeR_rowSet row (hashL lv k) (.childV e2) hlt
            rw [hs] at hsz
            constructor
            · rw [wfT_node, Bool.and_eq_true, decide_eq_true_eq, rowLen_rowSet]
              refine ⟨hw.1, wfR_rowSet row _ _ hw.2 ?_⟩
              simpa [svWf] using hwe2
            · rw [sizeT_node, sizeT_node]
              simp [svSize] at hsz
              omega
      | childV c =>
        simp only [setF, hs] at h
        cases hc : setF g c k v with
        | none => rw [hc] at h; simp at h
        | some c2 =>
          rw [hc] at h
          simp only [Option.map_some'] at h
          obtain rfl : Trie.node lv (rowSet row (hashL lv k) (.childV c2)) = t2 :=
            Option.some_injective _ h
          obtain ⟨hwc2, hsc2⟩ := ih _ _ _ _ (wfR_child row _ c hw.2 hs) hc
          have hsz := sizeR_rowSet row (hashL lv k) (.childV c2) hlt
          rw [hs] at hsz
          constructor
          · rw [wfT_node, Bool.and_eq_true, decide_eq_true_eq, rowLen_rowSet]
            refine ⟨hw.1, wfR_rowSet row _ _ hw.2 ?_⟩
            simpa [svWf] using hwc2
          · rw [sizeT_node, sizeT_node]
            simp [svSize] at hsz
            omega

end IHT

namespace IHT

/-- A completed insert preserves the trie shape invariant. -/
theorem setF_shape :
    ∀ f t k v t2, wfT t = true → shapeT t = true → setF f t k v = some t2 →
      shapeT t2 = true := by
  intro f
  induction f with
  | zero => intro t k v t2 _ _ h; simp [setF] at h
  | succ g ih =>
    intro t k v t2 hw hsh h
    cases t with
    | node lv row =>
      rw [wfT_node, Bool.and_eq_true, decide_eq_true_eq] at hw
      rw [shapeT_node] at hsh
      cases hs : rowGet row (hashL lv k) with
      | empty =>
        simp only [setF, hs] at h
        obtain rfl : Trie.node lv (rowSet row (hashL lv k) (.leafV k v)) = t2 :=
          Option.some_injective _ h
        rw [shapeT_node]
        exact shapeR_rowSet row _ _ hsh rfl
      | leafV k0 v0 =>
        simp only [setF, hs] at h
        cases he1 : setF g (emptyTrie (lv+1)) k0 v0 with
        | none => rw [he1] at h; simp at h
        | some e1 =>
          rw [he1] at h
          simp only [Option.some_bind] at h
          cases he2 : setF g e1 k v with
          | none => rw [he2] at h; simp at h
          | some e2 =>
            rw [he2] at h
            simp only [Option.map_some'] at h
            obtain rfl : Trie.node lv (rowSet row (hashL lv k) (.childV e2)) = t2 :=
              Option.some_injective _ h
            obtain ⟨hwe1, hse1⟩ := setF_main g _ _ _ _ (wfT_emptyTrie (lv+1)) he1
            obtain ⟨hwe2, hse2⟩ := setF_main g _ _ _ _ hwe1 he2
            rw [sizeT_emptyTrie] at hse1
            have hshe1 := ih _ _ _ _ (wfT_emptyTrie (lv+1)) (shapeT_emptyTrie (lv+1)) he1
            have hshe2 := ih _ _ _ _ hwe1 hshe1 he2
            rw [shapeT_node]
            refine shapeR_rowSet row _ _ hsh ?_
            simp [svOk, Bool.and_eq_true, hshe2]
            omega
      | childV c =>
        simp only [setF, hs] at h
        cases hc : setF g c k v with
        | none => rw [hc] at h; simp at h
        | some c2 =>
          rw [hc] at h
          simp only [Option.map_some'] at h
          obtain rfl : Trie.node lv (rowSet row (hashL lv k) (.childV c2)) = t2 :=
            Option.some_injective _ h
          obtain ⟨hshc, hsc⟩ := shapeR_child row _ c hsh hs
          obtain ⟨hwc2, hsc2⟩ := setF_main g _ _ _ _ (wfR_child row _ c hw.2 hs) hc
          have hshc2 := ih _ _ _ _ (wfR_child row _ c hw.2 hs) hshc hc
          rw [shapeT_node]
          refine shapeR_rowSet row _ _ hsh ?_
          simp [svOk, Bool.and_eq_true, hshc2]
          omega

theorem lastR_of_size_zero :
    ∀ row, shapeR row = true → sizeR row = 0 → lastR row = .empty := by
  intro row
  induction row using rowInd with
  | hnil => intro _ _; rfl
  | hempp r ih =>
    intro hs hz
    simp only [shapeR] at hs
    simp only [sizeR] at hz
    simp only [lastR]
    exact ih hs hz
  | hleaf k v r ih =>
    intro _ hz
    simp [sizeR] at hz
  | hchild t r ih =>
    intro hs hz
    simp only [shapeR, Bool.and_eq_true, decide_eq_true_eq] at hs
    simp only [sizeR] at hz
    omega

theorem lastR_of_size_one :
    ∀ row, shapeR row = true → sizeR row = 1 → ∃ k v, lastR row = .leafV k v := by
  intro row
  induction row using rowInd with
  | hnil => intro _ hz; simp [sizeR] at hz
  | hempp r ih =>
    intro hs hz
    simp only [shapeR] at hs
    simp only [sizeR] at hz
    simp only [lastR]
    exact ih hs hz
  | hleaf k v r ih =>
    intro hs hz
    simp only [shapeR] at hs
    simp only [sizeR] at hz
    have hz2 : sizeR r = 0 := by omega
    refine ⟨k, v, ?_⟩
    simp only [lastR, lastR_of_size_zero r hs hz2]
  | hchild t r ih =>
    intro hs hz
    simp only [shapeR, Bool.and_eq_true, decide_eq_true_eq] at hs
    simp only [sizeR] at hz
    omega

/-- A completed delete preserves well-formedness and the shape invariant and
removes exactly one leaf. -/
theorem delF_main :
    ∀ f t k t2, wfT t = true → shapeT t = true → delF f t k = .ok t2 →
      wfT t2 = true ∧ shapeT t2 = true ∧ sizeT t2 + 1 = sizeT t := by
  intro f
  induction f with
  | zero => intro t k t2 _ _ h; simp [delF] at h
  | succ g ih =>
    intro t k t2 hw hsh h
    cases t with
    | node lv row =>
      rw [wfT_node, Bool.and_eq_true, decide_eq_true_eq] at hw
      rw [shapeT_node] at hsh
      have hlt : hashL lv k < rowLen row := by rw [hw.1]; exact hashL_lt27 lv k
      cases hs : rowGet row (hashL lv k) with
      | empty =>
        simp only [delF, hs] at h
        exact Except.noConfusion h
      | leafV k0 v0 =>
        simp only [delF, hs] at h
        obtain rfl : Trie.node lv (rowSet row (hashL lv k) .empty) = t2 := by
          cases h; rfl
        have hsz := sizeR_rowSet row (hashL lv k) .empty hlt
        rw [hs] at hsz
        simp only [svSize] at hsz
        refine ⟨?_, ?_, ?_⟩
        · rw [wfT_node, Bool.and_eq_true, decide_eq_true_eq, rowLen_rowSet]
          exact ⟨hw.1, wfR_rowSet row _ _ hw.2 rfl⟩
        · rw [shapeT_node]
          exact shapeR_rowSet row _ _ hsh rfl
        · rw [sizeT_node, sizeT_node]
          omega
      | childV c =>
        simp only [delF, hs] at h
        cases hc : delF g c k with
        | error e => rw [hc] at h; simp [Except.map] at h
        | ok c2 =>
          rw [hc] at h
          simp only [Except.map] at h
          obtain ⟨hwc2, hshc2, hszc2⟩ :=
            ih _ _ _ (wfR_child row _ c hw.2 hs) (shapeR_child row _ c hsh hs).1 hc
          obtain ⟨hshc, hscge⟩ := shapeR_child row _ c hsh hs
          have hsz := sizeR_rowSet row (hashL lv k) (.childV c2) hlt
          by_cases hz0 : sizeT c2 = 0
          · omega
          · by_cases hz1 : sizeT c2 = 1
            · rw [if_neg hz0, if_pos hz1] at h
              obtain rfl : Trie.node lv (rowSet row (hashL lv k) (lastT c2)) = t2 := by
                cases h; rfl
              obtain ⟨kk, vv, hlast⟩ : ∃ kk vv, lastT c2 = .leafV kk vv := by
                cases c2 with
                | node lv2 row2 =>
                  rw [shapeT_node] at hshc2
                  rw [sizeT_node] at hz1
                  exact lastR_of_size_one row2 hshc2 hz1
              have hsz2 := sizeR_rowSet row (hashL lv k) (.leafV kk vv) hlt
              rw [hs] at hsz2
              simp only [svSize] at hsz2
              refine ⟨?_, ?_, ?_⟩
              · rw [hlast, wfT_node, Bool.and_eq_true, decide_eq_true_eq, rowLen_rowSet]
                exact ⟨hw.1, wfR_rowSet row _ _ hw.2 rfl⟩
              · rw [hlast, shapeT_node]
                exact shapeR_rowSet row _ _ hsh rfl
              · rw [hlast, sizeT_node, sizeT_node]
                omega
            · rw [if_neg hz0, if_neg hz1] at h
              obtain rfl : Trie.node lv (rowSet row (hashL lv k) (.childV c2)) = t2 := by
                cases h; rfl
              rw [hs] at hsz
              simp only [svSize] at hsz
              refine ⟨?_, ?_, ?_⟩
              · rw [wfT_node, Bool.and_eq_true, decide_eq_true_eq, rowLen_rowSet]
                refine ⟨hw.1, wfR_rowSet row _ _ hw.2 ?_⟩
                simpa [svWf] using hwc2
              · rw [shapeT_node]
                refine shapeR_rowSet row _ _ hsh ?_
                simp [svOk, Bool.and_eq_true, hshc2]
                omega
              · rw [sizeT_node, sizeT_node]
                omega

end IHT

namespace IHT

/-- C1: the round-trip law fails on `InfiniteHashTable`.  Inserting
`"aa" ↦ 1` and `"ab" ↦ 2`, then deleting `"aa"`, leaves a table on which
`get("aa")` returns `2` instead of raising `KeyError`, and `contains("aa")`
is still true: the collapse step moves the sibling leaf `"ab"` into the
parent slot and `__getitem__` never compares leaf keys. -/
theorem c1_roundtrip_after_delete_fails :
    sizeT tAB = 2 ∧
    delF 9 tAB [97, 97] = .ok tABdel ∧
    getF 9 tABdel [97, 97] = .ok 2 ∧
    containsF 9 tABdel [97, 97] = true := ⟨rfl, rfl, rfl, rfl⟩

/-- C2: `__getitem__` does not match the leaf's key.  On the table holding
only `"a" ↦ 1`, getting the different key `"{"` (code 123, which collides
with `"a"` at level 0 since `123 % 26 = 97 % 26 = 19`) returns `1` instead
of raising `KeyError`, and `contains` agrees. -/
theorem c2_get_ignores_leaf_key :
    sizeT tA = 1 ∧ getF 9 tA [97] = .ok 1 ∧
    ([123] : List Nat) ≠ [97] ∧ hashL 0 [123] = hashL 0 [97] ∧
    getF 9 tA [123] = .ok 1 ∧ containsF 9 tA [123] = true :=
  ⟨rfl, rfl, by decide, rfl, rfl, rfl⟩

/-- C3: setting a key that is already present does not overwrite in place:
the collision branch of `__setitem__` has no equal-key case, so the
recursion rebuilds the same collision one level deeper forever.  In the
fuel model, `set("a", 2)` on the table holding `"a" ↦ 1` fails to finish
for every amount of fuel. -/
theorem c3_set_existing_key_diverges :
    ∀ f, setF f tA [97] 2 = none := by
  intro f
  exact set_same_key_none f 0 (rowOf tA) [97] 1 2 (by decide)

/-- C4: deleting an absent key does not always raise `KeyError`: on the
table holding only `"a" ↦ 1`, deleting the never-inserted colliding key
`"{"` (code 123) succeeds and removes the leaf `"a"`, leaving the empty
table. -/
theorem c4_delete_absent_key_removes_other_leaf :
    sizeT tA = 1 ∧ getF 9 tA [97] = .ok 1 ∧
    ([123] : List Nat) ≠ [97] ∧
    delF 9 tA [123] = .ok (emptyTrie 0) :=
  ⟨rfl, rfl, by decide, rfl⟩

/-- C5: the trie shape invariant (no reachable child table with fewer than
two leaves) is preserved by every completed `set` and every completed
`delete` on a well-formed table. -/
theorem c5_shape_invariant_preserved :
    (∀ f t k v t2, wfT t = true → shapeT t = true → setF f t k v = some t2 →
      shapeT t2 = true) ∧
    (∀ f t k t2, wfT t = true → shapeT t = true → delF f t k = .ok t2 →
      shapeT t2 = true) :=
  ⟨fun f t k v t2 hw hs h => setF_shape f t k v t2 hw hs h,
   fun f t k t2 hw hs h => (delF_main f t k t2 hw hs h).2.1⟩

/-- Witness for C5 at concrete inputs: an insert into `tAB` and the delete
producing `tABdel` both preserve the shape invariant. -/
theorem c5_shape_invariant_preserved_witness :
    shapeT ((setF 9 tAB [97, 99] 3).getD (emptyTrie 0)) = true ∧
    shapeT tABdel = true :=
  ⟨c5_shape_invariant_preserved.1 9 tAB [97, 99] 3 _ (by decide) (by decide) rfl,
   c5_shape_invariant_preserved.2 9 tAB [97, 97] tABdel (by decide) (by decide) rfl⟩

end IHT

namespace DKT

/-- C9: the probe invariant is broken by deletion.  With the default sizes,
`set("a","x",1); set("f","x",2)` makes "a" and "f" collide at outer slot 2
(`97 % 5 = 102 % 5 = 2`), so "f" lands at slot 3 and its bucket's hash
closure captures position 3.  `del("a","x")` empties "a"'s bucket, clears
slot 2 and backward-shifts "f" to slot 2 -- but the moved bucket's hash
closure still dereferences `top_array[3]`, which is now `None`, so
`get("f","x")` crashes instead of returning 2, although the pair is still
stored. -/
theorem c9_delete_breaks_probe_invariant :
    st1.1 = none ∧ st2.1 = none ∧ st3.1 = none ∧
    dktGet st2.2 [102] [120] = .ok 2 ∧
    dktPairs st3.2 = [([102], [120], 2)] ∧
    dktGet st3.2 [102] [120] = .error .crashErr ∧
    dktContains st3.2 [102] [120] = .error .crashErr := by
  refine ⟨rfl, rfl, rfl, rfl, rfl, rfl, rfl⟩

/-- C7 counterexample: an inner bucket's capacity decreases across a
rehash.  Three pairs under "a" grow its bucket to capacity 13; deleting two
of them leaves one pair in the capacity-13 bucket; inserting "b" and then
"c" pushes `top_length` past half of 5, and the rehash inside the last
`set` recreates "a"'s bucket at the base capacity 5. -/
theorem c7_inner_capacity_decreases :
    rh1.1 = none ∧ rh2.1 = none ∧ rh3.1 = none ∧ rh4.1 = none ∧
    dktInnerCap rh3.2 [97] = some 13 ∧
    rh3.2.topIdx = 0 ∧ rh3.2.top.length = 5 ∧
    rh4.2.topIdx = 1 ∧ rh4.2.top.length = 13 ∧
    dktInnerCap rh4.2 [97] = some 5 ∧
    dktGet rh4.2 [97] [120, 49] = .ok 1 ∧
    dktGet rh4.2 [98] [121] = .ok 4 ∧
    dktGet rh4.2 [99] [122] = .ok 5 := by
  refine ⟨rfl, rfl, rfl, rfl, rfl, rfl, rfl, rfl, rfl, rfl, rfl, rfl, rfl⟩

theorem dktKeysFind_absent :
    ∀ (l : List (Option (Key × LPT))) (k1 : Key),
      (∀ p ∈ l.filterMap id, p.1 ≠ k1) → dktKeysFind l k1 = none := by
  intro l
  induction l with
  | nil => intro k1 _; rfl
  | cons sl rest ih =>
    intro k1 h
    cases sl with
    | none =>
      simp only [dktKeysFind]
      exact ih k1 (by intro p hp; exact h p (by simpa using hp))
    | some p =>
      obtain ⟨k1b, b⟩ := p
      have hne : k1b ≠ k1 := h (k1b, b) (by simp)
      simp only [dktKeysFind, if_neg hne]
      exact ih k1 (by intro q hq; exact h q (by simp [hq]))

theorem dktValuesFind_absent :
    ∀ (l : List (Option (Key × LPT))) (k1 : Key) (acc : List Nat),
      (∀ p ∈ l.filterMap id, p.1 ≠ k1) →
      l.foldl
        (fun acc sl => match sl with
          | none => acc
          | some (k1b, b) => if k1b = k1 then lptValues b else acc) acc = acc := by
  intro l
  induction l with
  | nil => intro k1 acc _; rfl
  | cons sl rest ih =>
    intro k1 acc h
    cases sl with
    | none =>
      simp only [List.foldl_cons]
      exact ih k1 acc (by intro p hp; exact h p (by simpa using hp))
    | some p =>
      obtain ⟨k1b, b⟩ := p
      have hne : k1b ≠ k1 := h (k1b, b) (by simp)
      simp only [List.foldl_cons, if_neg hne]
      exact ih k1 acc (by intro q hq; exact h q (by simp [hq]))

/-- C10: on a first key stored in no outer slot, `keys(k1)` returns `None`
(the filtered scan falls through without returning) while `values(k1)`
returns the empty list. -/
theorem c10_keys_none_values_empty_on_absent_key :
    ∀ (s : DKTState) (k1 : Key),
      (∀ p ∈ s.top.filterMap id, p.1 ≠ k1) →
      dktKeys s (some k1) = none ∧ dktValues s (some k1) = [] := by
  intro s k1 h
  constructor
  · exact dktKeysFind_absent s.top k1 h
  · exact dktValuesFind_absent s.top k1 [] h

/-- Witness for C10: the key `"g"` (code 103) is absent from the two-entry
table `st2`, `keys("g")` is `None` and `values("g")` is `[]`. -/
theorem c10_keys_none_values_empty_on_absent_key_witness :
    dktKeys st2.2 (some [103]) = none ∧ dktValues st2.2 (some [103]) = [] :=
  c10_keys_none_values_empty_on_absent_key st2.2 [103] (by decide)

end DKT

namespace DKT

-- #### Generic list lemmas

theorem fm_cons_some {α : Type} (y : α) (r : List (Option α)) :
    (some y :: r).filterMap id = y :: r.filterMap id := rfl

theorem fm_cons_none {α : Type} (r : List (Option α)) :
    ((none : Option α) :: r).filterMap id = r.filterMap id := rfl

theorem getD_set_self {α : Type} :
    ∀ (l : List α) (i : Nat) (x d : α), i < l.length → (l.set i x).getD i d = x := by
  intro l
  induction l with
  | nil => intro i x d h; simp at h
  | cons a r ih =>
    intro i x d h
    cases i with
    | zero => rfl
    | succ j => simpa [List.set, List.getD] using ih j x d (by simpa using h)

theorem getD_set_ne {α : Type} :
    ∀ (l : List α) (i j : Nat) (x d : α), i ≠ j → (l.set i x).getD j d = l.getD j d := by
  intro l
  induction l with
  | nil => intro i j x d _; simp [List.set]
  | cons a r ih =>
    intro i j x d hne
    cases i with
    | zero =>
      cases j with
      | zero => exact absurd rfl hne
      | succ j2 => rfl
    | succ i2 =>
      cases j with
      | zero => rfl
      | succ j2 => simpa [List.set, List.getD] using ih i2 j2 x d (by omega)

theorem mem_of_getD {α : Type} :
    ∀ (l : List α) (i : Nat) (d x : α), l.getD i d = x → x ≠ d → x ∈ l := by
  intro l
  induction l with
  | nil => intro i d x h hne; exact absurd h.symm hne
  | cons a r ih =>
    intro i d x h hne
    cases i with
    | zero => simp [List.getD] at h; simp [h]
    | succ j =>
      simp only [List.getD_cons_succ] at h
      exact List.mem_cons_of_mem a (ih j d x h hne)

theorem mem_fm_of_getD {α : Type} :
    ∀ (l : List (Option α)) (i : Nat) (x : α),
      l.getD i none = some x → x ∈ l.filterMap id := by
  intro l i x h
  exact List.mem_filterMap.mpr ⟨some x, mem_of_getD l i none (some x) h (by simp), rfl⟩

theorem fm_set_none_perm {α : Type} :
    ∀ (l : List (Option α)) (i : Nat) (x : α),
      l.getD i none = none → i < l.length →
      ((l.set i (some x)).filterMap id).Perm (x :: l.filterMap id) := by
  intro l
  induction l with
  | nil => intro i x _ h; simp at h
  | cons a r ih =>
    intro i x hz h
    cases i with
    | zero =>
      simp [List.getD] at hz
      subst hz
      simp [List.set, List.filterMap_cons]
    | succ j =>
      simp only [List.getD_cons_succ] at hz
      have hp := ih j x hz (by simpa using h)
      cases a with
      | none => simpa [List.set, List.filterMap_cons] using hp
      | some y =>
        simp only [List.set, List.filterMap_cons, id]
        exact (hp.cons y).trans (List.Perm.swap x y _)

theorem fm_set_some_length {α : Type} :
    ∀ (l : List (Option α)) (i : Nat) (x y : α),
      l.getD i none = some y →
      ((l.set i (some x)).filterMap id).length = (l.filterMap id).length := by
  intro l
  induction l with
  | nil => intro i x y h; simp [List.getD] at h
  | cons a r ih =>
    intro i x y h
    cases i with
    | zero =>
      simp [List.getD] at h
      subst h
      simp [List.set, List.filterMap_cons]
    | succ j =>
      simp only [List.getD_cons_succ] at h
      have := ih j x y h
      cases a <;> simp [List.set, List.filterMap_cons, this]

theorem getD_replicate_none {α : Type} :
    ∀ (n j : Nat), (List.replicate n (none : Option α)).getD j none = none := by
  intro n
  induction n with
  | zero => intro j; simp [List.getD]
  | succ m ih =>
    intro j
    cases j with
    | zero => rfl
    | succ j2 => simpa [List.replicate, List.getD] using ih j2

theorem fm_replicate_none {α : Type} :
    ∀ n : Nat, (List.replicate n (none : Option α)).filterMap id = [] := by
  intro n
  induction n with
  | zero => rfl
  | succ m ih => simpa [List.replicate, List.filterMap_cons] using ih

theorem foldl_add_acc :
    ∀ (l : List Nat) (acc : Nat), l.foldl (· + ·) acc = acc + l.foldl (· + ·) 0 := by
  intro l
  induction l with
  | nil => intro acc; simp
  | cons b r ih =>
    intro acc
    simp only [List.foldl_cons]
    rw [ih (acc + b), ih (0 + b)]
    omega

theorem listSum_cons : ∀ (a : Nat) (l : List Nat), listSum (a :: l) = a + listSum l := by
  intro a l
  simp only [listSum, List.foldl_cons]
  rw [foldl_add_acc l (0 + a)]
  omega

theorem fm_all_some_of_length {α : Type} :
    ∀ (l : List (Option α)), (l.filterMap id).length = l.length →
      ∀ j, j < l.length → l.getD j none ≠ none := by
  intro l
  induction l with
  | nil => intro _ j h; simp at h
  | cons a r ih =>
    intro hlen j hj
    cases a with
    | none =>
      exfalso
      rw [fm_cons_none, List.length_cons] at hlen
      have : (r.filterMap id).length ≤ r.length := by
        have := List.length_filterMap_le id r
        simpa using this
      omega
    | some y =>
      cases j with
      | zero => simp [List.getD]
      | succ j2 =>
        rw [fm_cons_some, List.length_cons, List.length_cons] at hlen
        simp only [List.getD_cons_succ]
        exact ih (by omega) j2 (by simpa using hj)

theorem exists_empty_of_occ_lt {α : Type} :
    ∀ (l : List (Option α)), (l.filterMap id).length < l.length →
      ∃ j, j < l.length ∧ l.getD j none = none := by
  intro l
  induction l with
  | nil => intro h; simp at h
  | cons a r ih =>
    intro h
    cases a with
    | none => exact ⟨0, by simp, rfl⟩
    | some y =>
      rw [fm_cons_some, List.length_cons, List.length_cons] at h
      obtain ⟨j, hj, hz⟩ := ih (by omega)
      exact ⟨j + 1, by simpa using hj, hz⟩

theorem zip_fst_snd {α β : Type} :
    ∀ (l : List (α × β)), (l.map Prod.fst).zip (l.map Prod.snd) = l := by
  intro l
  induction l with
  | nil => rfl
  | cons a r ih => simp [ih]

end DKT

namespace DKT

-- #### Hash and size-sequence lemmas

theorem rollHash_lt : ∀ (size : Nat) (k : Key), 0 < size → rollHash size k < size := by
  intro size k h
  suffices haux : ∀ (k2 : Key) (p : Nat × Nat), p.1 < size →
      (k2.foldl (rollStep size) p).1 < size by
    exact haux k (0, 31415) h
  intro k2
  induction k2 with
  | nil => intro p hp; exact hp
  | cons c r ih =>
    intro p hp
    simp only [List.foldl_cons]
    exact ih _ (Nat.mod_lt _ h)

theorem gapOk_adj :
    ∀ (l : List Nat), gapOk l = true → ∀ i, i + 1 < l.length →
      l.getD i 0 + 2 ≤ l.getD (i+1) 0
  | [], _, i, h => by simp at h
  | [a], _, i, h => by simp at h
  | a :: b :: r, hg, 0, h => by
    simp only [gapOk, Bool.and_eq_true, decide_eq_true_eq] at hg
    simpa [List.getD] using hg.1
  | a :: b :: r, hg, i+1, h => by
    simp only [gapOk, Bool.and_eq_true] at hg
    have := gapOk_adj (b :: r) hg.2 i (by simpa using h)
    simpa [List.getD] using this

theorem gapOk_le (l : List Nat) (hg : gapOk l = true) :
    ∀ j i, i ≤ j → j < l.length → l.getD i 0 ≤ l.getD j 0 := by
  intro j
  induction j with
  | zero =>
    intro i hij _
    have : i = 0 := by omega
    subst this
    exact Nat.le_refl _
  | succ j2 ih =>
    intro i hij hlen
    by_cases hieq : i = j2 + 1
    · subst hieq; exact Nat.le_refl _
    · have h1 := ih i (by omega) (by omega)
      have h2 := gapOk_adj l hg j2 hlen
      omega

theorem getD_mem {α : Type} :
    ∀ (l : List α) (i : Nat) (d : α), i < l.length → l.getD i d ∈ l := by
  intro l
  induction l with
  | nil => intro i d h; simp at h
  | cons a r ih =>
    intro i d h
    cases i with
    | zero => simp [List.getD]
    | succ j => exact List.mem_cons_of_mem a (ih j d (by simpa using h))

theorem sizes_ge2 (l : List Nat) (h : sizesOk l) :
    ∀ i, i < l.length → 2 ≤ l.getD i 0 := by
  intro i hi
  exact h.2.1 _ (getD_mem l i 0 hi)

-- #### Inner probe-loop lemmas

theorem lptFindLoop_ok_char (arr : List (Option (Key × Nat))) (k : Key) (ins : Bool) :
    ∀ n pos q, lptFindLoop arr k ins n pos = .ok q →
      (arr.getD q none = none ∧ ins = true) ∨ (∃ v, arr.getD q none = some (k, v)) := by
  intro n
  induction n with
  | zero =>
    intro pos q h
    cases ins <;> simp [lptFindLoop] at h
  | succ m ih =>
    intro pos q h
    cases hs : arr.getD pos none with
    | none =>
      simp only [lptFindLoop, hs] at h
      cases ins with
      | false => simp at h
      | true => simp at h; subst h; exact Or.inl ⟨hs, rfl⟩
    | some p =>
      obtain ⟨kb, v⟩ := p
      simp only [lptFindLoop, hs] at h
      by_cases hk : kb = k
      · rw [if_pos hk] at h
        simp at h
        subst h
        subst hk
        exact Or.inr ⟨v, hs⟩
      · rw [if_neg hk] at h
        exact ih _ q h

theorem lptFindLoop_ok_lt (arr : List (Option (Key × Nat))) (k : Key) (ins : Bool)
    (hlen : 0 < arr.length) :
    ∀ n pos q, pos < arr.length → lptFindLoop arr k ins n pos = .ok q →
      q < arr.length := by
  intro n
  induction n with
  | zero => intro pos q _ h; cases ins <;> simp [lptFindLoop] at h
  | succ m ih =>
    intro pos q hp h
    cases hs : arr.getD pos none with
    | none =>
      simp only [lptFindLoop, hs] at h
      cases ins with
      | false => simp at h
      | true => simp at h; omega
    | some p =>
      obtain ⟨kb, v⟩ := p
      simp only [lptFindLoop, hs] at h
      by_cases hk : kb = k
      · rw [if_pos hk] at h; simp at h; omega
      · rw [if_neg hk] at h
        exact ih _ q (Nat.mod_lt _ hlen) h

theorem lptFindLoop_error_all (arr : List (Option (Key × Nat))) (k : Key)
    (hlen : 0 < arr.length) :
    ∀ n pos e, pos < arr.length → lptFindLoop arr k true n pos = .error e →
      ∀ t, t < n → arr.getD ((pos + t) % arr.length) none ≠ none := by
  intro n
  induction n with
  | zero => intro pos e _ _ t ht; omega
  | succ m ih =>
    intro pos e hp h t ht
    cases hs : arr.getD pos none with
    | none => simp only [lptFindLoop, hs] at h; simp at h
    | some p =>
      obtain ⟨kb, v⟩ := p
      simp only [lptFindLoop, hs] at h
      by_cases hk : kb = k
      · rw [if_pos hk] at h; simp at h
      · rw [if_neg hk] at h
        cases t with
        | zero =>
          rw [Nat.add_zero, Nat.mod_eq_of_lt hp, hs]
          simp
        | succ t2 =>
          have := ih ((pos + 1) % arr.length) e (Nat.mod_lt _ hlen) h t2 (by omega)
          have harith : ((pos + 1) % arr.length + t2) % arr.length
              = (pos + (t2 + 1)) % arr.length := by
            rw [Nat.mod_add_mod]
            congr 1
            omega
          rwa [harith] at this

theorem mod_cover :
    ∀ (len pos j : Nat), pos < len → j < len → ∃ t, t < len ∧ (pos + t) % len = j := by
  intro len pos j hp hj
  refine ⟨(j + len - pos) % len, Nat.mod_lt _ (by omega), ?_⟩
  have h1 : (pos + (j + len - pos) % len) % len = (pos + (j + len - pos)) % len := by
    rw [Nat.add_mod, Nat.mod_mod_of_dvd _ dvd_rfl, ← Nat.add_mod]
  have h2 : pos + (j + len - pos) = j + len := by omega
  rw [h1, h2, Nat.add_mod_right, Nat.mod_eq_of_lt hj]

theorem lptFindLoop_insert_ok (arr : List (Option (Key × Nat))) (k : Key)
    (hlen : 0 < arr.length) (pos : Nat) (hp : pos < arr.length)
    (hempty : ∃ j, j < arr.length ∧ arr.getD j none = none) :
    ∃ q, lptFindLoop arr k true arr.length pos = .ok q := by
  cases hres : lptFindLoop arr k true arr.length pos with
  | ok q => exact ⟨q, rfl⟩
  | error e =>
    exfalso
    obtain ⟨j, hj, hz⟩ := hempty
    obtain ⟨t, ht, hcov⟩ := mod_cover arr.length pos j hp hj
    have := lptFindLoop_error_all arr k hlen arr.length pos e hp hres t ht
    rw [hcov] at this
    exact this hz

theorem lptFindLoop_false_no_match (arr : List (Option (Key × Nat))) (k : Key)
    (hno : ∀ q ∈ arr.filterMap id, q.1 ≠ k) :
    ∀ n pos, lptFindLoop arr k false n pos = .error .keyErr := by
  intro n
  induction n with
  | zero => intro pos; rfl
  | succ m ih =>
    intro pos
    cases hs : arr.getD pos none with
    | none => simp only [lptFindLoop, hs]; rfl
    | some p =>
      obtain ⟨kb, v⟩ := p
      have hne : kb ≠ k := hno (kb, v) (mem_fm_of_getD arr pos (kb, v) hs)
      simp only [lptFindLoop, hs, if_neg hne]
      exact ih _

theorem lptFindLoop_true_of_false (arr : List (Option (Key × Nat))) (k : Key) :
    ∀ n pos q, lptFindLoop arr k false n pos = .ok q →
      lptFindLoop arr k true n pos = .ok q := by
  intro n
  induction n with
  | zero => intro pos q h; simp [lptFindLoop] at h
  | succ m ih =>
    intro pos q h
    cases hs : arr.getD pos none with
    | none => simp only [lptFindLoop, hs] at h; simp at h
    | some p =>
      obtain ⟨kb, v⟩ := p
      simp only [lptFindLoop, hs] at h
      simp only [lptFindLoop, hs]
      by_cases hk : kb = k
      · rwa [if_pos hk] at h ⊢
      · rw [if_neg hk] at h ⊢
        exact ih _ q h

theorem lptFindLoop_set_empty (arr : List (Option (Key × Nat))) (k : Key)
    (j : Nat) (x : Option (Key × Nat)) (hj : arr.getD j none = none) :
    ∀ n pos q, lptFindLoop arr k false n pos = .ok q →
      lptFindLoop (arr.set j x) k false n pos = .ok q := by
  intro n
  induction n with
  | zero => intro pos q h; simp [lptFindLoop] at h
  | succ m ih =>
    intro pos q h
    cases hs : arr.getD pos none with
    | none => simp only [lptFindLoop, hs] at h; simp at h
    | some p =>
      obtain ⟨kb, v⟩ := p
      have hne : j ≠ pos := by
        intro hcon
        rw [hcon, hs] at hj
        exact Option.noConfusion hj
      simp only [lptFindLoop, hs] at h
      simp only [lptFindLoop, getD_set_ne arr j pos x none hne, hs]
      by_cases hk : kb = k
      · rwa [if_pos hk] at h ⊢
      · rw [if_neg hk] at h ⊢
        rw [List.length_set]
        exact ih _ q h

theorem lptFindLoop_write_reach (arr : List (Option (Key × Nat))) (k : Key) (v : Nat)
    (hlen : 0 < arr.length) :
    ∀ n pos q, pos < arr.length → lptFindLoop arr k true n pos = .ok q →
      arr.getD q none = none →
      lptFindLoop (arr.set q (some (k, v))) k false n pos = .ok q := by
  intro n
  induction n with
  | zero => intro pos q _ h _; simp [lptFindLoop] at h
  | succ m ih =>
    intro pos q hp h hq
    cases hs : arr.getD pos none with
    | none =>
      simp only [lptFindLoop, hs] at h
      simp at h
      subst h
      simp only [lptFindLoop, getD_set_self arr pos (some (k, v)) none hp]
      simp
    | some p =>
      obtain ⟨kb, v0⟩ := p
      have hne : q ≠ pos := by
        intro hcon
        rw [hcon, hs] at hq
        exact Option.noConfusion hq
      simp only [lptFindLoop, hs] at h
      by_cases hk : kb = k
      · rw [if_pos hk] at h
        simp at h
        exact absurd (h ▸ hs) (by rw [hq]; simp)
      · rw [if_neg hk] at h
        simp only [lptFindLoop, getD_set_ne arr q pos (some (k, v)) none hne, hs, if_neg hk,
          List.length_set]
        exact ih _ q (Nat.mod_lt _ hlen) h hq

theorem lptFindLoop_set_samekey (arr : List (Option (Key × Nat)))
    (i : Nat) (k0 : Key) (v0 v2 : Nat) (hi : arr.getD i none = some (k0, v0)) :
    ∀ (k : Key) (ins : Bool) n pos,
      lptFindLoop (arr.set i (some (k0, v2))) k ins n pos = lptFindLoop arr k ins n pos := by
  intro k ins n
  induction n with
  | zero => intro pos; rfl
  | succ m ih =>
    intro pos
    by_cases hpi : pos = i
    · subst hpi
      have hilt : pos < arr.length := by
        by_contra hge
        rw [List.getD_eq_default _ _ (by omega)] at hi
        exact Option.noConfusion hi
      simp only [lptFindLoop, getD_set_self arr pos (some (k0, v2)) none hilt, hi]
      by_cases hk : k0 = k
      · rw [if_pos hk, if_pos hk]
      · rw [if_neg hk, if_neg hk, List.length_set]
        exact ih _
    · cases hs : arr.getD pos none with
      | none =>
        simp only [lptFindLoop, getD_set_ne arr i pos (some (k0, v2)) none
          (fun hcon => hpi hcon.symm), hs]
      | some p =>
        obtain ⟨kb, v⟩ := p
        simp only [lptFindLoop, getD_set_ne arr i pos (some (k0, v2)) none
          (fun hcon => hpi hcon.symm), hs]
        by_cases hk : kb = k
        · rw [if_pos hk, if_pos hk]
        · rw [if_neg hk, if_neg hk, List.length_set]
          exact ih _

theorem lptFindLoop_true_full (arr : List (Option (Key × Nat))) (k : Key)
    (hall : ∀ j, j < arr.length → arr.getD j none ≠ none)
    (hno : ∀ q ∈ arr.filterMap id, q.1 ≠ k) (hlen : 0 < arr.length) :
    ∀ n pos, pos < arr.length → lptFindLoop arr k true n pos = .error .fullErr := by
  intro n
  induction n with
  | zero => intro pos _; rfl
  | succ m ih =>
    intro pos hp
    cases hs : arr.getD pos none with
    | none => exact absurd hs (hall pos hp)
    | some p =>
      obtain ⟨kb, v⟩ := p
      have hne : kb ≠ k := hno (kb, v) (mem_fm_of_getD arr pos (kb, v) hs)
      simp only [lptFindLoop, hs, if_neg hne]
      exact ih _ (Nat.mod_lt _ hlen)

end DKT

namespace DKT

theorem lptFind_selfC (b : LPT) (k : Key) (ins : Bool) (hlen : 0 < b.arr.length) :
    lptFind .selfC b k ins
      = lptFindLoop b.arr k ins b.arr.length (rollHash b.arr.length k) := by
  simp only [lptFind, ctxHash, if_pos (rollHash_lt b.arr.length k hlen)]

theorem lptGet_reach (b : LPT) (k : Key) (v : Nat) (j : Nat)
    (hlen : 0 < b.arr.length)
    (hj : b.arr.getD j none = some (k, v))
    (hfind : lptFindLoop b.arr k false b.arr.length (rollHash b.arr.length k) = .ok j) :
    lptGet .selfC b k = .ok v := by
  simp only [lptGet, lptFind_selfC b k false hlen, hfind, hj]

theorem lptContains_reach (b : LPT) (k : Key) (v : Nat) (j : Nat)
    (hlen : 0 < b.arr.length)
    (hj : b.arr.getD j none = some (k, v))
    (hfind : lptFindLoop b.arr k false b.arr.length (rollHash b.arr.length k) = .ok j) :
    lptContains .selfC b k = .ok true := by
  simp only [lptContains, lptGet_reach b k v j hlen hj hfind]

theorem lptContains_absent (b : LPT) (k : Key) (hlen : 0 < b.arr.length)
    (hno : ∀ q ∈ b.arr.filterMap id, q.1 ≠ k) :
    lptContains .selfC b k = .ok false := by
  simp only [lptContains, lptGet, lptFind_selfC b k false hlen,
    lptFindLoop_false_no_match b.arr k hno]

theorem cap_le_last (b : LPT) (hsz : sizesOk b.sizes) (hinv : lptInv b) :
    b.arr.length ≤ b.sizes.getD (b.sizes.length - 1) 0 := by
  obtain ⟨hidx, hcap, _⟩ := hinv
  rw [hcap]
  exact gapOk_le b.sizes hsz.2.2 (b.sizes.length - 1) b.sizeIdx (by omega) (by omega)

theorem cap_pos (b : LPT) (hsz : sizesOk b.sizes) (hinv : lptInv b) :
    0 < b.arr.length := by
  obtain ⟨hidx, hcap, _⟩ := hinv
  have := sizes_ge2 b.sizes hsz b.sizeIdx hidx
  omega

end DKT

namespace DKT

/-- Master lemma for the inner bucket machine: inserting a list of fresh,
distinct keys into a well-formed bucket succeeds, adds exactly those pairs,
and preserves the invariant, provided the total occupancy fits in the
largest configured size and the fuel is ample. -/
theorem lptRun_master :
    ∀ (f : Nat) (b : LPT) (ps : List (Key × Nat)),
      sizesOk b.sizes → lptInv b →
      (ps.map Prod.fst).Nodup →
      (∀ q ∈ ps, ∀ r ∈ b.arr.filterMap id, r.1 ≠ q.1) →
      b.count + ps.length ≤ b.sizes.getD (b.sizes.length - 1) 0 →
      ps.length + (b.sizes.length - b.sizeIdx) * (b.sizes.getD (b.sizes.length - 1) 0 + 1) + 1 ≤ f →
      ∃ b2, lptRun .selfC f b ps = (none, b2) ∧
        b2.sizes = b.sizes ∧ b2.hashPos = b.hashPos ∧ b.sizeIdx ≤ b2.sizeIdx ∧
        lptInv b2 ∧ b2.count = b.count + ps.length ∧
        (b2.arr.filterMap id).Perm (ps ++ b.arr.filterMap id) := by
  intro f
  induction f with
  | zero => intro b ps _ _ _ _ _ hfuel; omega
  | succ f ih =>
    intro b ps hsz hinv hnd hdisj hbound hfuel
    cases ps with
    | nil =>
      exact ⟨b, rfl, rfl, rfl, Nat.le_refl _, hinv, by simp, by simp⟩
    | cons kv rest =>
      obtain ⟨k, v⟩ := kv
      obtain ⟨hidx, hcap, hcnt, hload, hndk, hreach⟩ := hinv
      have hS := sizes_ge2 b.sizes hsz b.sizeIdx hidx
      have hcappos : 0 < b.arr.length := by omega
      have hlast := gapOk_le b.sizes hsz.2.2 (b.sizes.length - 1) b.sizeIdx (by omega) (by omega)
      -- the bucket is not full
      have hlt : b.count < b.arr.length := by
        rcases hload with hl | hr
        · omega
        · have : b.sizeIdx = b.sizes.length - 1 := by omega
          rw [hcap, this]
          simp only [List.length_cons] at hbound
          omega
      -- find an insertion slot
      obtain ⟨j0, hj0, hj0z⟩ := exists_empty_of_occ_lt b.arr (by omega)
      obtain ⟨q, hq⟩ := lptFindLoop_insert_ok b.arr k hcappos
        (rollHash b.arr.length k) (rollHash_lt _ _ hcappos) ⟨j0, hj0, hj0z⟩
      have hqz : b.arr.getD q none = none := by
        rcases lptFindLoop_ok_char b.arr k true _ _ q hq with ⟨hz, _⟩ | ⟨v2, hv2⟩
        · exact hz
        · exfalso
          exact hdisj (k, v) (by simp) (k, v2) (mem_fm_of_getD b.arr q (k, v2) hv2) rfl
      have hqlt : q < b.arr.length :=
        lptFindLoop_ok_lt b.arr k true hcappos _ _ q (rollHash_lt _ _ hcappos) hq
      have hfind : lptFind .selfC b k true = .ok q := by
        rw [lptFind_selfC b k true hcappos, hq]
      -- the written bucket
      set b1 : LPT := { b with arr := b.arr.set q (some (k, v)), count := b.count + 1 } with hb1
      have hb1run : lptRun .selfC (f+1) b ((k, v) :: rest)
          = (if 2 * b1.count > b1.arr.length then
               if b1.sizeIdx + 1 < b1.sizes.length then
                 lptRun .selfC f ({ b1 with sizeIdx := b1.sizeIdx + 1, arr := List.replicate (b1.sizes.getD (b1.sizeIdx + 1) 0) none, count := 0 }) (b1.arr.filterMap id ++ rest)
               else lptRun .selfC f b1 rest
             else lptRun .selfC f b1 rest) := by
        simp only [lptRun, hfind, hqz, Option.isNone_none, if_pos, hb1]
      have hperm1 : (b1.arr.filterMap id).Perm ((k, v) :: b.arr.filterMap id) :=
        fm_set_none_perm b.arr q (k, v) hqz hqlt
      have hcnt1 : b1.count = (b1.arr.filterMap id).length := by
        rw [hperm1.length_eq]
        simp [hb1, hcnt]
      have hnd1 : ((b1.arr.filterMap id).map Prod.fst).Nodup := by
        refine ((hperm1.map Prod.fst).nodup_iff).mpr ?_
        simp only [List.map_cons]
        refine List.Nodup.cons ?_ hndk
        intro hmem
        simp only [List.mem_map] at hmem
        obtain ⟨r, hr, hr2⟩ := hmem
        exact hdisj (k, v) (by simp) r hr hr2
      have hreach1 : ∀ j, j < b1.arr.length → ∀ qq ∈ b1.arr.getD j none,
          lptFindLoop b1.arr qq.1 false b1.arr.length (rollHash b1.arr.length qq.1)
            = .ok j := by
        intro j hjlt qq hqq
        have hlen1 : b1.arr.length = b.arr.length := by simp [hb1]
        by_cases hjq : j = q
        · subst hjq
          rw [hb1] at hqq
          simp only [getD_set_self b.arr j (some (k, v)) none (by rwa [hlen1] at hjlt)]
            at hqq
          simp only [Option.mem_def, Option.some_inj] at hqq
          subst hqq
          rw [hlen1]
          exact lptFindLoop_write_reach b.arr k v hcappos _ _ j
            (rollHash_lt _ _ hcappos) hq hqz
        · rw [hb1] at hqq
          simp only [getD_set_ne b.arr q j (some (k, v)) none (fun hc => hjq hc.symm)]
            at hqq
          rw [hlen1]
          have := hreach j (by rwa [hlen1] at hjlt) qq hqq
          exact lptFindLoop_set_empty b.arr qq.1 q (some (k, v)) hqz _ _ j this
      have hdisj1 : ∀ qq ∈ rest, ∀ r ∈ b1.arr.filterMap id, r.1 ≠ qq.1 := by
        intro qq hqq r hr
        rcases List.mem_cons.mp (hperm1.mem_iff.mp hr) with h1 | h2
        · subst h1
          intro hcon
          simp only [List.map_cons, List.nodup_cons] at hnd
          refine hnd.1 ?_
          have hk2 : k = qq.1 := hcon
          rw [hk2]
          exact List.mem_map_of_mem Prod.fst hqq
        · exact hdisj qq (by simp [hqq]) r h2
      have hndrest : (rest.map Prod.fst).Nodup := by
        simp only [List.map_cons, List.nodup_cons] at hnd
        exact hnd.2
      by_cases htrig : 2 * b1.count > b1.arr.length
      · by_cases hroom : b1.sizeIdx + 1 < b1.sizes.length
        · -- grow and reinsert everything
          set b2 : LPT := ({ b1 with sizeIdx := b1.sizeIdx + 1, arr := List.replicate (b1.sizes.getD (b1.sizeIdx + 1) 0) none, count := 0 }) with hb2
          have hfm2 : b2.arr.filterMap id = [] := by
            simp [hb2, fm_replicate_none]
          have hinv2 : lptInv b2 := by
            refine ⟨by simpa [hb2, hb1] using hroom, by simp [hb2], ?_, ?_, ?_, ?_⟩
            · simp [hb2, hfm2]
            · left; simp [hb2]
            · simp [hfm2]
            · intro j hjlt qq hqq
              exfalso
              rw [hb2] at hqq
              simp only [getD_replicate_none] at hqq
              simp at hqq
          have hlen1 : b1.arr.length = b.arr.length := by simp [hb1]
          have hentlen : (b1.arr.filterMap id).length = b.count + 1 := by
            rw [hperm1.length_eq]
            simp [hcnt]
          have hndall : (((b1.arr.filterMap id) ++ rest).map Prod.fst).Nodup := by
            rw [List.map_append]
            refine List.Nodup.append hnd1 hndrest ?_
            intro x hx1 hx2
            simp only [List.mem_map] at hx1 hx2
            obtain ⟨r, hr, hrx⟩ := hx1
            obtain ⟨qq, hqq, hqx⟩ := hx2
            exact hdisj1 qq hqq r hr (by rw [hrx, hqx])
          have hboundS : b2.count + ((b1.arr.filterMap id) ++ rest).length
              ≤ b2.sizes.getD (b2.sizes.length - 1) 0 := by
            have : b2.sizes = b.sizes := by simp [hb2, hb1]
            rw [this]
            simp only [hb2, List.length_append, hentlen]
            simp only [List.length_cons] at hbound
            omega
          have hfuel2 : ((b1.arr.filterMap id) ++ rest).length
              + (b2.sizes.length - b2.sizeIdx) * (b2.sizes.getD (b2.sizes.length - 1) 0 + 1) + 1
              ≤ f := by
            have hszeq : b2.sizes = b.sizes := by simp [hb2, hb1]
            have hidxeq : b2.sizeIdx = b.sizeIdx + 1 := by simp [hb2, hb1]
            rw [hszeq, hidxeq]
            simp only [List.length_append, hentlen]
            simp only [List.length_cons] at hfuel hbound
            have hrem : 1 ≤ b.sizes.length - b.sizeIdx := by omega
            have hSc : b.count + 1 ≤ b.sizes.getD (b.sizes.length - 1) 0 := by omega
            have hexp : (b.sizes.length - b.sizeIdx) * (b.sizes.getD (b.sizes.length - 1) 0 + 1)
                = (b.sizes.length - (b.sizeIdx + 1)) * (b.sizes.getD (b.sizes.length - 1) 0 + 1)
                  + (b.sizes.getD (b.sizes.length - 1) 0 + 1) := by
              have : b.sizes.length - b.sizeIdx = (b.sizes.length - (b.sizeIdx + 1)) + 1 := by
                simp [hb1] at hroom
                omega
              rw [this, Nat.succ_mul]
            omega
          obtain ⟨b3, hrun3, hsz3, hhp3, hidx3, hinv3, hcnt3, hperm3⟩ :=
            ih b2 ((b1.arr.filterMap id) ++ rest) (by simpa [hb2, hb1] using hsz) hinv2
              hndall (by rw [hfm2]; intro qq _ r hr; simp at hr) hboundS hfuel2
          refine ⟨b3, ?_, ?_, ?_, ?_, hinv3, ?_, ?_⟩
          · rw [hb1run, if_pos htrig, if_pos hroom]
            exact hrun3
          · rw [hsz3]
          · rw [hhp3]
          · have h5 : b2.sizeIdx = b.sizeIdx + 1 := rfl
            omega
          · rw [hcnt3, List.length_append, hentlen]
            have h5 : b2.count = 0 := rfl
            simp only [List.length_cons, h5]
            omega
          · refine hperm3.trans ?_
            rw [hfm2, List.append_nil]
            refine (hperm1.append_right rest).trans ?_
            simp only [List.cons_append]
            exact List.Perm.cons (k, v) List.perm_append_comm
        · -- growth exhausted: keep inserting into the same array
          have hexh : b.sizes.length ≤ b.sizeIdx + 1 := by
            have h5 : b1.sizeIdx = b.sizeIdx := rfl
            have h6 : b1.sizes = b.sizes := rfl
            rw [h5, h6] at hroom
            omega
          have hinv1 : lptInv b1 := by
            refine ⟨hidx, by rw [List.length_set]; exact hcap, hcnt1, ?_, hnd1, hreach1⟩
            right
            exact hexh
          obtain ⟨b3, hrun3, hsz3, hhp3, hidx3, hinv3, hcnt3, hperm3⟩ :=
            ih b1 rest hsz hinv1 hndrest hdisj1
              (by show b.count + 1 + rest.length ≤ b.sizes.getD (b.sizes.length - 1) 0
                  simp only [List.length_cons] at hbound
                  omega)
              (by show rest.length
                    + (b.sizes.length - b.sizeIdx) * (b.sizes.getD (b.sizes.length - 1) 0 + 1)
                    + 1 ≤ f
                  simp only [List.length_cons] at hfuel
                  omega)
          refine ⟨b3, ?_, ?_, ?_, ?_, hinv3, ?_, ?_⟩
          · rw [hb1run, if_pos htrig, if_neg hroom]
            exact hrun3
          · rw [hsz3]
          · rw [hhp3]
          · exact hidx3
          · rw [hcnt3]
            show b.count + 1 + rest.length = b.count + ((k, v) :: rest).length
            simp only [List.length_cons]
            omega
          · refine hperm3.trans ?_
            refine (List.Perm.append_left rest hperm1).trans ?_
            exact List.perm_middle
      · -- no growth needed
        have hinv1 : lptInv b1 := by
          refine ⟨hidx, by rw [List.length_set]; exact hcap, hcnt1, ?_, hnd1, hreach1⟩
          left
          have h5 : b1.count = b.count + 1 := rfl
          have h6 : b1.arr.length = b.arr.length := by
            show (b.arr.set q (some (k, v))).length = b.arr.length
            exact List.length_set b.arr q (some (k, v)) ▸ rfl
          omega
        obtain ⟨b3, hrun3, hsz3, hhp3, hidx3, hinv3, hcnt3, hperm3⟩ :=
          ih b1 rest hsz hinv1 hndrest hdisj1
            (by show b.count + 1 + rest.length ≤ b.sizes.getD (b.sizes.length - 1) 0
                simp only [List.length_cons] at hbound
                omega)
            (by show rest.length
                  + (b.sizes.length - b.sizeIdx) * (b.sizes.getD (b.sizes.length - 1) 0 + 1)
                  + 1 ≤ f
                simp only [List.length_cons] at hfuel
                omega)
        refine ⟨b3, ?_, ?_, ?_, ?_, hinv3, ?_, ?_⟩
        · rw [hb1run, if_neg htrig]
          exact hrun3
        · rw [hsz3]
        · rw [hhp3]
        · exact hidx3
        · rw [hcnt3]
          show b.count + 1 + rest.length = b.count + ((k, v) :: rest).length
          simp only [List.length_cons]
          omega
        · refine hperm3.trans ?_
          refine (List.Perm.append_left rest hperm1).trans ?_
          exact List.perm_middle

end DKT

namespace DKT

theorem headD_eq_getD (l : List Nat) (d : Nat) : l.headD d = l.getD 0 d := by
  cases l <;> rfl

theorem set_getD_id {α : Type} :
    ∀ (l : List α) (i : Nat) (d : α), i < l.length → l.set i (l.getD i d) = l := by
  intro l
  induction l with
  | nil => intro i d h; simp at h
  | cons a r ih =>
    intro i d h
    cases i with
    | zero => rfl
    | succ j =>
      have h2 : r.set j (r.getD j d) = r := ih j d (by simpa using h)
      show a :: r.set j ((a :: r).getD (j + 1) d) = a :: r
      rw [List.getD_cons_succ, h2]

theorem elem_le_listSum : ∀ (l : List Nat) (x : Nat), x ∈ l → x ≤ listSum l := by
  intro l
  induction l with
  | nil => intro x h; simp at h
  | cons a r ih =>
    intro x h
    rw [listSum_cons]
    rcases List.mem_cons.mp h with h1 | h2
    · omega
    · have := ih x h2; omega

theorem fm_keys_set_samekey {α β : Type} :
    ∀ (l : List (Option (α × β))) (j : Nat) (k : α) (v0 v : β),
      l.getD j none = some (k, v0) →
      ((l.set j (some (k, v))).filterMap id).map Prod.fst
        = (l.filterMap id).map Prod.fst := by
  intro l
  induction l with
  | nil => intro j k v0 v h; simp [List.getD] at h
  | cons a r ih =>
    intro j k v0 v h
    cases j with
    | zero =>
      simp [List.getD] at h
      subst h
      simp [List.set, fm_cons_some]
    | succ j2 =>
      simp only [List.getD_cons_succ] at h
      cases a with
      | none => simp only [List.set, fm_cons_none]; exact ih j2 k v0 v h
      | some y =>
        simp only [List.set, fm_cons_some, List.map_cons]
        rw [ih j2 k v0 v h]

theorem fm_set_some_perm {α : Type} :
    ∀ (l : List (Option α)) (j : Nat) (x y : α),
      l.getD j none = some y →
      ∃ pre, ((l.set j (some x)).filterMap id).Perm (x :: pre) ∧
        (l.filterMap id).Perm (y :: pre) := by
  intro l
  induction l with
  | nil => intro j x y h; simp [List.getD] at h
  | cons a r ih =>
    intro j x y h
    cases j with
    | zero =>
      simp [List.getD] at h
      subst h
      exact ⟨r.filterMap id, by simp [List.set, fm_cons_some], by simp [fm_cons_some]⟩
    | succ j2 =>
      simp only [List.getD_cons_succ] at h
      obtain ⟨pre, hp1, hp2⟩ := ih j2 x y h
      cases a with
      | none =>
        exact ⟨pre, by simpa [List.set, fm_cons_none] using hp1,
          by simpa [fm_cons_none] using hp2⟩
      | some z =>
        refine ⟨z :: pre, ?_, ?_⟩
        · simp only [List.set, fm_cons_some]
          exact (hp1.cons z).trans (List.Perm.swap x z pre)
        · simp only [fm_cons_some]
          exact (hp2.cons z).trans (List.Perm.swap y z pre)

theorem fm_map_opt {α β : Type} (f : α → β) :
    ∀ (l : List (Option α)),
      l.filterMap (fun sl => sl.map f) = (l.filterMap id).map f := by
  intro l
  induction l with
  | nil => rfl
  | cons a r ih =>
    cases a with
    | none => simpa [List.filterMap_cons, fm_cons_none] using ih
    | some y => simp [List.filterMap_cons, fm_cons_some, ih]

theorem foldr_append_eq_join {α β : Type} (g : α → List β) :
    ∀ (l : List α), l.foldr (fun p acc => g p ++ acc) [] = (l.map g).join := by
  intro l
  induction l with
  | nil => rfl
  | cons a r ih => simp [List.join, ih]

theorem dktPairsL_eq_join (top : List (Option (Key × LPT))) :
    dktPairsL top
      = ((top.filterMap id).map
          (fun p => (p.2.arr.filterMap id).map (fun q => (p.1, q.1, q.2)))).join := by
  simp only [dktPairsL]
  exact foldr_append_eq_join _ _

theorem dktPairsL_set_empty_perm (top : List (Option (Key × LPT)))
    (q : Nat) (k1 : Key) (b : LPT) (hq : top.getD q none = none) (hqlt : q < top.length) :
    (dktPairsL (top.set q (some (k1, b)))).Perm
      ((b.arr.filterMap id).map (fun p => (k1, p.1, p.2)) ++ dktPairsL top) := by
  rw [dktPairsL_eq_join, dktPairsL_eq_join]
  have hperm := fm_set_none_perm top q (k1, b) hq hqlt
  have := (hperm.map (fun p : Key × LPT =>
    (p.2.arr.filterMap id).map (fun q2 => (p.1, q2.1, q2.2)))).join
  simpa using this

theorem mem_dktPairsL (top : List (Option (Key × LPT))) (k1 k2 : Key) (v : Nat) :
    (k1, k2, v) ∈ dktPairsL top ↔
      ∃ p ∈ top.filterMap id, p.1 = k1 ∧ (k2, v) ∈ p.2.arr.filterMap id := by
  rw [dktPairsL_eq_join]
  constructor
  · intro h
    rw [List.mem_join] at h
    obtain ⟨l2, hl2, hmem⟩ := h
    rw [List.mem_map] at hl2
    obtain ⟨p, hp, hpeq⟩ := hl2
    subst hpeq
    rw [List.mem_map] at hmem
    obtain ⟨q2, hq2, hqeq⟩ := hmem
    refine ⟨p, hp, ?_, ?_⟩
    · exact (Prod.mk.injEq _ _ _ _ ▸ hqeq).1
    · have h1 : q2.1 = k2 := congrArg (fun t => t.2.1) hqeq
      have h2 : q2.2 = v := congrArg (fun t => t.2.2) hqeq
      rw [← h1, ← h2]
      exact hq2
  · intro ⟨p, hp, hk1, hmem⟩
    rw [List.mem_join]
    refine ⟨(p.2.arr.filterMap id).map (fun q2 => (p.1, q2.1, q2.2)),
      List.mem_map_of_mem _ hp, ?_⟩
    rw [List.mem_map]
    exact ⟨(k2, v), hmem, by rw [hk1]⟩

end DKT

namespace DKT

/-- Overwrite lemma for the inner bucket machine: inserting a pair whose key
is already stored (and probe-reachable at slot `j`) succeeds, rewrites slot
`j` in place, and changes nothing else. -/
theorem lptRun_overwrite (f : Nat) (b : LPT) (k : Key) (v v0 : Nat) (j : Nat)
    (hsz : sizesOk b.sizes) (hinv : lptInv b) (hf : 2 ≤ f)
    (hj : b.arr.getD j none = some (k, v0))
    (hfind : lptFindLoop b.arr k false b.arr.length (rollHash b.arr.length k) = .ok j) :
    ∃ b2, lptRun .selfC f b [(k, v)] = (none, b2) ∧
      b2.sizes = b.sizes ∧ b2.hashPos = b.hashPos ∧ b2.sizeIdx = b.sizeIdx ∧
      b2.count = b.count ∧ b2.arr = b.arr.set j (some (k, v)) ∧ lptInv b2 := by
  obtain ⟨f2, rfl⟩ : ∃ f2, f = f2 + 2 := ⟨f - 2, by omega⟩
  have hcappos : 0 < b.arr.length := cap_pos b hsz hinv
  obtain ⟨hidx, hcap, hcnt, hload, hndk, hreach⟩ := hinv
  have hfindT := lptFindLoop_true_of_false b.arr k b.arr.length _ j hfind
  have hfind' : lptFind .selfC b k true = .ok j := by
    rw [lptFind_selfC b k true hcappos]; exact hfindT
  have hjlt : j < b.arr.length := by
    by_contra hge
    rw [List.getD_eq_default _ _ (by omega)] at hj
    exact Option.noConfusion hj
  set b1 : LPT := { b with arr := b.arr.set j (some (k, v)) } with hb1
  have hb1run : lptRun .selfC (f2+2) b [(k, v)]
      = (if 2 * b1.count > b1.arr.length then
           if b1.sizeIdx + 1 < b1.sizes.length then
             lptRun .selfC (f2+1) ({ b1 with sizeIdx := b1.sizeIdx + 1, arr := List.replicate (b1.sizes.getD (b1.sizeIdx + 1) 0) none, count := 0 }) (b1.arr.filterMap id ++ [])
           else lptRun .selfC (f2+1) b1 []
         else lptRun .selfC (f2+1) b1 []) := by
    simp only [lptRun, hfind', hj, Option.isNone_some, Bool.false_eq_true, if_false,
      Nat.add_zero, hb1]
  have hlen1 : b1.arr.length = b.arr.length := by simp [hb1]
  have hcnt1 : b1.count = b.count := rfl
  have hres : lptRun .selfC (f2+2) b [(k, v)] = (none, b1) := by
    rw [hb1run]
    by_cases htrig : 2 * b1.count > b1.arr.length
    · rw [if_pos htrig]
      have hnoroom : ¬ b1.sizeIdx + 1 < b1.sizes.length := by
        rcases hload with hl | hr
        · exfalso; rw [hcnt1, hlen1] at htrig; omega
        · have h1 : b1.sizeIdx = b.sizeIdx := rfl
          have h2 : b1.sizes = b.sizes := rfl
          rw [h1, h2]; omega
      rw [if_neg hnoroom]
      rfl
    · rw [if_neg htrig]
      rfl
  refine ⟨b1, hres, rfl, rfl, rfl, rfl, rfl, ?_⟩
  refine ⟨hidx, by rw [hlen1, hcap], ?_, ?_, ?_, ?_⟩
  · rw [hcnt1, hcnt, hb1]
    exact (fm_set_some_length b.arr j (k, v) (k, v0) hj).symm
  · rw [hcnt1, hlen1]; exact hload
  · rw [hb1]
    rw [fm_keys_set_samekey b.arr j k v0 v hj]
    exact hndk
  · intro j2 hj2 qq hqq
    rw [hlen1] at hj2 ⊢
    by_cases hjj : j2 = j
    · subst hjj
      rw [hb1] at hqq
      simp only [getD_set_self b.arr j2 (some (k, v)) none hj2] at hqq
      simp only [Option.mem_def, Option.some_inj] at hqq
      subst hqq
      show lptFindLoop b1.arr k false b.arr.length (rollHash b.arr.length k) = .ok j2
      rw [hb1]
      rw [lptFindLoop_set_samekey b.arr j2 k v0 v hj]
      exact hfind
    · rw [hb1] at hqq
      simp only [getD_set_ne b.arr j j2 (some (k, v)) none (fun hc => hjj hc.symm)] at hqq
      show lptFindLoop b1.arr qq.1 false b.arr.length (rollHash b.arr.length qq.1) = .ok j2
      rw [hb1]
      rw [lptFindLoop_set_samekey b.arr j k v0 v hj]
      exact hreach j2 hj2 qq hqq

end DKT

namespace DKT

theorem findSlot_char (top : List (Option (Key × LPT))) (k1 : Key) :
    ∀ n pos q m, findSlot top k1 n pos = some (q, m) →
      (m = false ∧ top.getD q none = none) ∨
      (m = true ∧ ∃ b, top.getD q none = some (k1, b)) := by
  intro n
  induction n with
  | zero => intro pos q m h; simp [findSlot] at h
  | succ n2 ih =>
    intro pos q m h
    cases hs : top.getD pos none with
    | none =>
      simp only [findSlot, hs] at h
      simp at h
      obtain ⟨h1, h2⟩ := h
      subst h1; subst h2
      exact Or.inl ⟨rfl, hs⟩
    | some p =>
      obtain ⟨k1b, b⟩ := p
      simp only [findSlot, hs] at h
      by_cases hk : k1b = k1
      · rw [if_pos hk] at h
        simp at h
        obtain ⟨h1, h2⟩ := h
        subst h1; subst h2; subst hk
        exact Or.inr ⟨rfl, b, hs⟩
      · rw [if_neg hk] at h
        exact ih _ q m h

theorem findSlot_lt (top : List (Option (Key × LPT))) (k1 : Key)
    (hlen : 0 < top.length) :
    ∀ n pos q m, pos < top.length → findSlot top k1 n pos = some (q, m) →
      q < top.length := by
  intro n
  induction n with
  | zero => intro pos q m _ h; simp [findSlot] at h
  | succ n2 ih =>
    intro pos q m hp h
    cases hs : top.getD pos none with
    | none => simp only [findSlot, hs] at h; simp at h; omega
    | some p =>
      obtain ⟨k1b, b⟩ := p
      simp only [findSlot, hs] at h
      by_cases hk : k1b = k1
      · rw [if_pos hk] at h; simp at h; omega
      · rw [if_neg hk] at h
        exact ih _ q m (Nat.mod_lt _ hlen) h

theorem findSlot_none_all (top : List (Option (Key × LPT))) (k1 : Key)
    (hlen : 0 < top.length) :
    ∀ n pos, pos < top.length → findSlot top k1 n pos = none →
      ∀ t, t < n → top.getD ((pos + t) % top.length) none ≠ none := by
  intro n
  induction n with
  | zero => intro pos _ _ t ht; omega
  | succ n2 ih =>
    intro pos hp h t ht
    cases hs : top.getD pos none with
    | none => simp only [findSlot, hs] at h; exact Option.noConfusion h
    | some p =>
      obtain ⟨k1b, b⟩ := p
      simp only [findSlot, hs] at h
      by_cases hk : k1b = k1
      · rw [if_pos hk] at h; simp at h
      · rw [if_neg hk] at h
        cases t with
        | zero =>
          rw [Nat.add_zero, Nat.mod_eq_of_lt hp, hs]
          simp
        | succ t2 =>
          have := ih ((pos + 1) % top.length) (Nat.mod_lt _ hlen) h t2 (by omega)
          have harith : ((pos + 1) % top.length + t2) % top.length
              = (pos + (t2 + 1)) % top.length := by
            rw [Nat.mod_add_mod]
            congr 1
            omega
          rwa [harith] at this

theorem findSlot_isSome_of_empty (top : List (Option (Key × LPT))) (k1 : Key)
    (hlen : 0 < top.length) (pos : Nat) (hp : pos < top.length)
    (hempty : ∃ j, j < top.length ∧ top.getD j none = none) :
    ∃ q m, findSlot top k1 top.length pos = some (q, m) := by
  cases hres : findSlot top k1 top.length pos with
  | some qm => obtain ⟨q, m⟩ := qm; exact ⟨q, m, rfl⟩
  | none =>
    exfalso
    obtain ⟨j, hj, hz⟩ := hempty
    obtain ⟨t, ht, hcov⟩ := mod_cover top.length pos j hp hj
    have := findSlot_none_all top k1 hlen top.length pos hp hres t ht
    rw [hcov] at this
    exact this hz

theorem findSlot_not_true_of_absent (top : List (Option (Key × LPT))) (k1 : Key)
    (hno : ∀ p ∈ top.filterMap id, p.1 ≠ k1) :
    ∀ n pos q, findSlot top k1 n pos ≠ some (q, true) := by
  intro n pos q h
  rcases findSlot_char top k1 n pos q true h with ⟨hf, _⟩ | ⟨_, b, hb⟩
  · exact Bool.noConfusion hf
  · exact hno (k1, b) (mem_fm_of_getD top _ _ hb) rfl

theorem findSlot_set_empty (top : List (Option (Key × LPT))) (k1 : Key)
    (j : Nat) (x : Option (Key × LPT)) (hj : top.getD j none = none) :
    ∀ n pos q, findSlot top k1 n pos = some (q, true) →
      findSlot (top.set j x) k1 n pos = some (q, true) := by
  intro n
  induction n with
  | zero => intro pos q h; simp [findSlot] at h
  | succ n2 ih =>
    intro pos q h
    cases hs : top.getD pos none with
    | none => simp only [findSlot, hs] at h; simp at h
    | some p =>
      obtain ⟨k1b, b⟩ := p
      have hne : j ≠ pos := by
        intro hcon
        rw [hcon, hs] at hj
        exact Option.noConfusion hj
      simp only [findSlot, hs] at h
      simp only [findSlot, getD_set_ne top j pos x none hne, hs]
      by_cases hk : k1b = k1
      · rwa [if_pos hk] at h ⊢
      · rw [if_neg hk] at h ⊢
        rw [List.length_set]
        exact ih _ q h

theorem findSlot_write_match (top : List (Option (Key × LPT))) (k1 : Key) (b : LPT)
    (hlen : 0 < top.length) :
    ∀ n pos q, pos < top.length → findSlot top k1 n pos = some (q, false) →
      top.getD q none = none →
      findSlot (top.set q (some (k1, b))) k1 n pos = some (q, true) := by
  intro n
  induction n with
  | zero => intro pos q _ h _; simp [findSlot] at h
  | succ n2 ih =>
    intro pos q hp h hq
    cases hs : top.getD pos none with
    | none =>
      simp only [findSlot, hs] at h
      simp at h
      subst h
      simp only [findSlot, getD_set_self top pos (some (k1, b)) none hp]
      simp
    | some p =>
      obtain ⟨k1b, b0⟩ := p
      have hne : q ≠ pos := by
        intro hcon
        rw [hcon, hs] at hq
        exact Option.noConfusion hq
      simp only [findSlot, hs] at h
      by_cases hk : k1b = k1
      · rw [if_pos hk] at h
        simp at h
      · rw [if_neg hk] at h
        simp only [findSlot, getD_set_ne top q pos (some (k1, b)) none hne, hs, if_neg hk,
          List.length_set]
        exact ih _ q (Nat.mod_lt _ hlen) h hq

theorem findSlot_set_samekey (top : List (Option (Key × LPT)))
    (i : Nat) (k0 : Key) (b0 b2 : LPT) (hi : top.getD i none = some (k0, b0)) :
    ∀ (k1 : Key) (n pos : Nat),
      findSlot (top.set i (some (k0, b2))) k1 n pos = findSlot top k1 n pos := by
  intro k1 n
  induction n with
  | zero => intro pos; rfl
  | succ n2 ih =>
    intro pos
    by_cases hpi : pos = i
    · subst hpi
      have hilt : pos < top.length := by
        by_contra hge
        rw [List.getD_eq_default _ _ (by omega)] at hi
        exact Option.noConfusion hi
      simp only [findSlot, getD_set_self top pos (some (k0, b2)) none hilt, hi]
      by_cases hk : k0 = k1
      · rw [if_pos hk, if_pos hk]
      · rw [if_neg hk, if_neg hk, List.length_set]
        exact ih _
    · cases hs : top.getD pos none with
      | none =>
        simp only [findSlot, getD_set_ne top i pos (some (k0, b2)) none
          (fun hcon => hpi hcon.symm), hs]
      | some p =>
        obtain ⟨k1b, b⟩ := p
        simp only [findSlot, getD_set_ne top i pos (some (k0, b2)) none
          (fun hcon => hpi hcon.symm), hs]
        by_cases hk : k1b = k1
        · rw [if_pos hk, if_pos hk]
        · rw [if_neg hk, if_neg hk, List.length_set]
          exact ih _

theorem findSlot_none_full (top : List (Option (Key × LPT))) (k1 : Key)
    (hall : ∀ j, j < top.length → top.getD j none ≠ none)
    (hno : ∀ p ∈ top.filterMap id, p.1 ≠ k1) (hlen : 0 < top.length) :
    ∀ n pos, pos < top.length → findSlot top k1 n pos = none := by
  intro n
  induction n with
  | zero => intro pos _; rfl
  | succ n2 ih =>
    intro pos hp
    cases hs : top.getD pos none with
    | none => exact absurd hs (hall pos hp)
    | some p =>
      obtain ⟨k1b, b⟩ := p
      have hne : k1b ≠ k1 := hno (k1b, b) (mem_fm_of_getD top pos (k1b, b) hs)
      simp only [findSlot, hs, if_neg hne]
      exact ih _ (Nat.mod_lt _ hlen)

end DKT

namespace DKT

theorem dktProbeLoop_of_none (k1 k2 : Key) (ins : Bool) :
    ∀ n (s : DKTState) pos, findSlot s.top k1 n pos = none →
      dktProbeLoop k1 k2 ins n s pos
        = ((if ins then .error .fullErr else .error .keyErr), s) := by
  intro n
  induction n with
  | zero => intro s pos _; rfl
  | succ n2 ih =>
    intro s pos h
    cases hs : s.top.getD pos none with
    | none => simp only [findSlot, hs] at h; exact Option.noConfusion h
    | some p =>
      obtain ⟨k1b, b⟩ := p
      simp only [findSlot, hs] at h
      by_cases hk : k1b = k1
      · rw [if_pos hk] at h; exact Option.noConfusion h
      · rw [if_neg hk] at h
        simp only [dktProbeLoop, hs, if_neg hk]
        exact ih s _ h

theorem dktProbeLoop_of_false (k1 k2 : Key) :
    ∀ n (s : DKTState) pos q, findSlot s.top k1 n pos = some (q, false) →
      dktProbeLoop k1 k2 true n s pos
        = (match lptFind .selfC (lptFresh s.innerSizes q) k2 true with
           | .ok ip =>
             (.ok (q, ip), { s with top := s.top.set q (some (k1, lptFresh s.innerSizes q)) })
           | .error e =>
             (.error e, { s with top := s.top.set q (some (k1, lptFresh s.innerSizes q)) })) := by
  intro n
  induction n with
  | zero => intro s pos q h; simp [findSlot] at h
  | succ n2 ih =>
    intro s pos q h
    cases hs : s.top.getD pos none with
    | none =>
      simp only [findSlot, hs] at h
      simp at h
      subst h
      simp only [dktProbeLoop, hs]
      simp only [resolveCtx, if_pos rfl]
      rfl
    | some p =>
      obtain ⟨k1b, b⟩ := p
      simp only [findSlot, hs] at h
      by_cases hk : k1b = k1
      · rw [if_pos hk] at h
        simp at h
      · rw [if_neg hk] at h
        simp only [dktProbeLoop, hs, if_neg hk]
        exact ih s _ q h

theorem dktProbeLoop_of_true (k1 k2 : Key) (ins : Bool) :
    ∀ n (s : DKTState) pos q b, findSlot s.top k1 n pos = some (q, true) →
      s.top.getD q none = some (k1, b) →
      dktProbeLoop k1 k2 ins n s pos
        = (match lptFind (resolveCtx s.top b.hashPos q) b k2 ins with
           | .ok ip => (.ok (q, ip), s)
           | .error e => (.error e, s)) := by
  intro n
  induction n with
  | zero => intro s pos q b h _; simp [findSlot] at h
  | succ n2 ih =>
    intro s pos q b h hq
    cases hs : s.top.getD pos none with
    | none =>
      simp only [findSlot, hs] at h
      simp at h
    | some p =>
      obtain ⟨k1b, b0⟩ := p
      simp only [findSlot, hs] at h
      by_cases hk : k1b = k1
      · rw [if_pos hk] at h
        simp at h
        subst h
        rw [hq] at hs
        have hb0 : b0 = b := by
          have := (Option.some_inj.mp hs)
          exact congrArg Prod.snd this.symm
        subst hb0
        subst hk
        simp only [dktProbeLoop, hq]
        simp
      · rw [if_neg hk] at h
        simp only [dktProbeLoop, hs, if_neg hk]
        exact ih s _ q b h hq

end DKT

namespace DKT

theorem lptFresh_len (isz : List Nat) (pos : Nat) :
    (lptFresh isz pos).arr.length = isz.getD 0 0 := by
  cases isz <;> simp [lptFresh, List.getD]

theorem lptFresh_inv (isz : List Nat) (pos : Nat) (hsz : sizesOk isz) :
    lptInv (lptFresh isz pos) := by
  have hlen0 : 0 < isz.length := List.length_pos.mpr hsz.1
  refine ⟨hlen0, ?_, ?_, ?_, ?_, ?_⟩
  · exact lptFresh_len isz pos
  · simp [lptFresh, fm_replicate_none]
  · left; simp [lptFresh]
  · simp [lptFresh, fm_replicate_none]
  · intro j hj qq hqq
    exfalso
    simp only [lptFresh] at hqq
    rw [getD_replicate_none] at hqq
    simp at hqq

theorem lptFresh_len_pos (isz : List Nat) (pos : Nat) (hsz : sizesOk isz) :
    0 < (lptFresh isz pos).arr.length := by
  have hlen0 : 0 < isz.length := List.length_pos.mpr hsz.1
  rw [lptFresh_len]
  have := sizes_ge2 isz hsz 0 hlen0
  omega

/-- The fuel bound of `lptRun_master` is always met by `lptFuel`. -/
theorem lptFuel_ample (b : LPT) (hsz : sizesOk b.sizes) :
    1 + (b.sizes.length - b.sizeIdx) * (b.sizes.getD (b.sizes.length - 1) 0 + 1) + 1
      ≤ lptFuel b := by
  have hlen0 : 0 < b.sizes.length := List.length_pos.mpr hsz.1
  have hmemS : b.sizes.getD (b.sizes.length - 1) 0 ∈ b.sizes :=
    getD_mem b.sizes (b.sizes.length - 1) 0 (by omega)
  have hS : b.sizes.getD (b.sizes.length - 1) 0 ≤ listSum b.sizes :=
    elem_le_listSum b.sizes _ hmemS
  have hmul : (b.sizes.length - b.sizeIdx) * (b.sizes.getD (b.sizes.length - 1) 0 + 1)
      ≤ (b.sizes.length + 1) * (listSum b.sizes + 1) := by
    exact Nat.mul_le_mul (by omega) (by omega)
  simp only [lptFuel]
  omega

/-- A single insert of a fresh key into a fresh bucket. -/
theorem lptIns_fresh (isz : List Nat) (pos : Nat) (k2 : Key) (v : Nat)
    (hsz : sizesOk isz) :
    ∃ b2, lptIns .selfC (lptFresh isz pos) k2 v = (none, b2) ∧
      b2.sizes = isz ∧ b2.hashPos = pos ∧ b2.count = 1 ∧ lptInv b2 ∧
      (b2.arr.filterMap id).Perm [(k2, v)] := by
  have hlen0 : 0 < isz.length := List.length_pos.mpr hsz.1
  have hszf : sizesOk (lptFresh isz pos).sizes := hsz
  have hinvf : lptInv (lptFresh isz pos) := lptFresh_inv isz pos hsz
  have hbound : (lptFresh isz pos).count + 1
      ≤ (lptFresh isz pos).sizes.getD ((lptFresh isz pos).sizes.length - 1) 0 := by
    show 0 + 1 ≤ isz.getD (isz.length - 1) 0
    have := sizes_ge2 isz hsz (isz.length - 1) (by omega)
    omega
  have hfuel : ([(k2, v)] : List (Key × Nat)).length
      + ((lptFresh isz pos).sizes.length - (lptFresh isz pos).sizeIdx)
        * ((lptFresh isz pos).sizes.getD ((lptFresh isz pos).sizes.length - 1) 0 + 1) + 1
      ≤ lptFuel (lptFresh isz pos) := by
    have := lptFuel_ample (lptFresh isz pos) hszf
    simpa using this
  obtain ⟨b2, hrun, hs2, hh2, hi2, hinv2, hc2, hp2⟩ :=
    lptRun_master (lptFuel (lptFresh isz pos)) (lptFresh isz pos) [(k2, v)] hszf hinvf
      (by simp)
      (by intro q hq r hr; simp [lptFresh, fm_replicate_none] at hr)
      hbound hfuel
  refine ⟨b2, hrun, hs2, hh2, ?_, hinv2, ?_⟩
  · rw [hc2]; rfl
  · have : (lptFresh isz pos).arr.filterMap id = [] := by
      simp [lptFresh, fm_replicate_none]
    rw [this] at hp2
    simpa using hp2

end DKT

namespace DKT

/-- `__setitem__` core, new first key landing in an empty outer slot: the
probe writes a fresh bucket there, `key2` goes into it, and both counters
are bumped. -/
theorem dktSetCore_newk1 (s : DKTState) (k1 k2 : Key) (v : Nat) (q : Nat)
    (hszI : sizesOk s.innerSizes)
    (hfs : findSlot s.top k1 s.top.length (hash1 s k1) = some (q, false)) :
    ∃ b2, dktSetCore s k1 k2 v
        = (none, { s with top := s.top.set q (some (k1, b2)),
                          totLen := s.totLen + 1, topLen := s.topLen + 1 }) ∧
      b2.sizes = s.innerSizes ∧ b2.hashPos = q ∧ b2.count = 1 ∧ lptInv b2 ∧
      (b2.arr.filterMap id).Perm [(k2, v)] := by
  have hlen : 0 < s.top.length := by
    rcases Nat.eq_zero_or_pos s.top.length with h0 | h
    · rw [h0] at hfs; simp [findSlot] at hfs
    · exact h
  have hqlt : q < s.top.length :=
    findSlot_lt s.top k1 hlen s.top.length (hash1 s k1) q false
      (rollHash_lt _ _ hlen) hfs
  have hqz : s.top.getD q none = none := by
    rcases findSlot_char s.top k1 s.top.length (hash1 s k1) q false hfs with
      ⟨_, hz⟩ | ⟨hf, _⟩
    · exact hz
    · exact Bool.noConfusion hf
  have hfposlen : 0 < (lptFresh s.innerSizes q).arr.length :=
    lptFresh_len_pos s.innerSizes q hszI
  obtain ⟨ip, hip⟩ : ∃ ip, lptFind .selfC (lptFresh s.innerSizes q) k2 true = .ok ip := by
    rw [lptFind_selfC (lptFresh s.innerSizes q) k2 true hfposlen]
    refine lptFindLoop_insert_ok (lptFresh s.innerSizes q).arr k2 hfposlen
      (rollHash (lptFresh s.innerSizes q).arr.length k2)
      (rollHash_lt _ _ hfposlen) ⟨0, hfposlen, ?_⟩
    show (List.replicate (s.innerSizes.headD 0) (none : Option (Key × Nat))).getD 0 none = none
    exact getD_replicate_none _ 0
  have hprobe : dktProbe s k1 k2 true
      = (.ok (q, ip), { s with top := s.top.set q (some (k1, lptFresh s.innerSizes q)) }) := by
    show dktProbeLoop k1 k2 true s.top.length s (hash1 s k1)
      = (.ok (q, ip), { s with top := s.top.set q (some (k1, lptFresh s.innerSizes q)) })
    rw [dktProbeLoop_of_false k1 k2 s.top.length s (hash1 s k1) q hfs, hip]
  have hget2 : (s.top.set q (some (k1, lptFresh s.innerSizes q))).getD q none
      = some (k1, lptFresh s.innerSizes q) :=
    getD_set_self s.top q _ none hqlt
  have hctx : resolveCtx (s.top.set q (some (k1, lptFresh s.innerSizes q)))
      (lptFresh s.innerSizes q).hashPos q = .selfC := by
    simp [resolveCtx, lptFresh]
  obtain ⟨b2, hins, hs2, hh2, hc2, hinv2, hp2⟩ := lptIns_fresh s.innerSizes q k2 v hszI
  refine ⟨b2, ?_, hs2, hh2, hc2, hinv2, hp2⟩
  show dktSetCore s k1 k2 v = _
  simp only [dktSetCore, hprobe, hget2, hctx, hins]
  have hcnt0 : (lptFresh s.innerSizes q).count = 0 := rfl
  rw [hcnt0]
  simp [List.set_set]

end DKT

namespace DKT

/-- `__setitem__` core, stored first key and fresh second key: the pair goes
into the existing bucket and only `length` is bumped. -/
theorem dktSetCore_addpair (s : DKTState) (k1 k2 : Key) (v : Nat) (i : Nat) (b : LPT)
    (hszb : sizesOk b.sizes)
    (hget : s.top.getD i none = some (k1, b))
    (hfs : findSlot s.top k1 s.top.length (hash1 s k1) = some (i, true))
    (hhp : b.hashPos = i)
    (hinv : lptInv b)
    (hcntpos : 1 ≤ b.count)
    (hfreshk2 : ∀ r ∈ b.arr.filterMap id, r.1 ≠ k2)
    (hroomS : b.count + 1 ≤ b.sizes.getD (b.sizes.length - 1) 0) :
    ∃ b2, dktSetCore s k1 k2 v
        = (none, { s with top := s.top.set i (some (k1, b2)), totLen := s.totLen + 1 }) ∧
      b2.sizes = b.sizes ∧ b2.hashPos = i ∧ b2.count = b.count + 1 ∧ lptInv b2 ∧
      (b2.arr.filterMap id).Perm ((k2, v) :: b.arr.filterMap id) := by
  have hcappos : 0 < b.arr.length := cap_pos b hszb hinv
  have hlt : b.count < b.arr.length := by
    obtain ⟨hidx, hcap, hcnt, hload, _, _⟩ := hinv
    have h2 := sizes_ge2 b.sizes hszb b.sizeIdx hidx
    rcases hload with hl | hr
    · omega
    · have hix : b.sizeIdx = b.sizes.length - 1 := by omega
      rw [hcap, hix]
      omega
  have hctxeq : resolveCtx s.top b.hashPos i = .selfC := by
    rw [hhp]; simp [resolveCtx]
  obtain ⟨j0, hj0, hj0z⟩ := exists_empty_of_occ_lt b.arr (by rw [← hinv.2.2.1]; exact hlt)
  obtain ⟨ip, hip⟩ : ∃ ip, lptFind .selfC b k2 true = .ok ip := by
    rw [lptFind_selfC b k2 true hcappos]
    exact lptFindLoop_insert_ok b.arr k2 hcappos _ (rollHash_lt _ _ hcappos) ⟨j0, hj0, hj0z⟩
  have hprobe : dktProbe s k1 k2 true = (.ok (i, ip), s) := by
    show dktProbeLoop k1 k2 true s.top.length s (hash1 s k1) = _
    rw [dktProbeLoop_of_true k1 k2 true s.top.length s (hash1 s k1) i b hfs hget, hctxeq, hip]
  have hcontains : lptContains .selfC b k2 = .ok false :=
    lptContains_absent b k2 hcappos hfreshk2
  obtain ⟨b2, hrun, hsz2, hh2, hidx2, hinv2, hc2, hp2⟩ :=
    lptRun_master (lptFuel b) b [(k2, v)] hszb hinv (by simp)
      (by intro qq hqq r hr; simp at hqq; subst hqq; exact hfreshk2 r hr)
      (by simpa using hroomS)
      (by have := lptFuel_ample b hszb; simpa using this)
  have hins : lptIns .selfC b k2 v = (none, b2) := by
    simp only [lptIns]; exact hrun
  refine ⟨b2, ?_, hsz2, by rw [hh2, hhp], by simpa using hc2, hinv2, by simpa using hp2⟩
  simp only [dktSetCore, hprobe, hget, hctxeq]
  rw [if_neg (by omega : ¬ b.count = 0)]
  rw [hcontains, hins]

/-- `__setitem__` core, stored pair: the value is overwritten in place and no
counter moves. -/
theorem dktSetCore_overwrite (s : DKTState) (k1 k2 : Key) (v v0 : Nat) (i j : Nat) (b : LPT)
    (hszb : sizesOk b.sizes)
    (hget : s.top.getD i none = some (k1, b))
    (hfs : findSlot s.top k1 s.top.length (hash1 s k1) = some (i, true))
    (hhp : b.hashPos = i)
    (hinv : lptInv b)
    (hj : b.arr.getD j none = some (k2, v0)) :
    ∃ b2, dktSetCore s k1 k2 v
        = (none, { s with top := s.top.set i (some (k1, b2)) }) ∧
      b2.sizes = b.sizes ∧ b2.hashPos = i ∧ b2.count = b.count ∧ lptInv b2 ∧
      b2.arr = b.arr.set j (some (k2, v)) := by
  have hcappos : 0 < b.arr.length := cap_pos b hszb hinv
  have hjlt : j < b.arr.length := by
    by_contra hge
    rw [List.getD_eq_default _ _ (by omega)] at hj
    exact Option.noConfusion hj
  have hfind : lptFindLoop b.arr k2 false b.arr.length (rollHash b.arr.length k2) = .ok j :=
    hinv.2.2.2.2.2 j hjlt (k2, v0) hj
  have hcntpos : 1 ≤ b.count := by
    have hmem := mem_fm_of_getD b.arr j (k2, v0) hj
    have : 0 < (b.arr.filterMap id).length := List.length_pos.mpr (by
      intro hnil; rw [hnil] at hmem; simp at hmem)
    rw [hinv.2.2.1]
    omega
  have hctxeq : resolveCtx s.top b.hashPos i = .selfC := by
    rw [hhp]; simp [resolveCtx]
  have hip : lptFind .selfC b k2 true = .ok j := by
    rw [lptFind_selfC b k2 true hcappos]
    exact lptFindLoop_true_of_false b.arr k2 b.arr.length _ j hfind
  have hprobe : dktProbe s k1 k2 true = (.ok (i, j), s) := by
    show dktProbeLoop k1 k2 true s.top.length s (hash1 s k1) = _
    rw [dktProbeLoop_of_true k1 k2 true s.top.length s (hash1 s k1) i b hfs hget, hctxeq, hip]
  have hcontains : lptContains .selfC b k2 = .ok true :=
    lptContains_reach b k2 v0 j hcappos hj hfind
  obtain ⟨b2, hrun, hsz2, hh2, hidx2, hc2, harr2, hinv2⟩ :=
    lptRun_overwrite (lptFuel b) b k2 v v0 j hszb hinv
      (by simp only [lptFuel]; omega) hj hfind
  have hins : lptIns .selfC b k2 v = (none, b2) := by
    simp only [lptIns]; exact hrun
  refine ⟨b2, ?_, hsz2, by rw [hh2, hhp], hc2, hinv2, harr2⟩
  simp only [dktSetCore, hprobe, hget, hctxeq]
  rw [if_neg (by omega : ¬ b.count = 0)]
  rw [hcontains, hins]

/-- `__setitem__` core, outer array exhausted without finding the first key
or an empty slot: fails with `FullError`, state untouched. -/
theorem dktSetCore_outer_full (s : DKTState) (k1 k2 : Key) (v : Nat)
    (hfs : findSlot s.top k1 s.top.length (hash1 s k1) = none) :
    dktSetCore s k1 k2 v = (some .fullErr, s) := by
  have hprobe : dktProbe s k1 k2 true = (.error .fullErr, s) := by
    show dktProbeLoop k1 k2 true s.top.length s (hash1 s k1) = _
    rw [dktProbeLoop_of_none k1 k2 true s.top.length s (hash1 s k1) hfs]
    rfl
  simp only [dktSetCore, hprobe]

/-- `__setitem__` core, stored first key but its bucket is full and lacks
`key2`: fails with `FullError`, state untouched. -/
theorem dktSetCore_inner_full (s : DKTState) (k1 k2 : Key) (v : Nat) (i : Nat) (b : LPT)
    (hget : s.top.getD i none = some (k1, b))
    (hfs : findSlot s.top k1 s.top.length (hash1 s k1) = some (i, true))
    (hhp : b.hashPos = i)
    (hlenb : 0 < b.arr.length)
    (hfull : ∀ j, j < b.arr.length → b.arr.getD j none ≠ none)
    (hno : ∀ r ∈ b.arr.filterMap id, r.1 ≠ k2) :
    dktSetCore s k1 k2 v = (some .fullErr, s) := by
  have hctxeq : resolveCtx s.top b.hashPos i = .selfC := by
    rw [hhp]; simp [resolveCtx]
  have hip : lptFind .selfC b k2 true = .error .fullErr := by
    rw [lptFind_selfC b k2 true hlenb]
    exact lptFindLoop_true_full b.arr k2 hfull hno hlenb b.arr.length _
      (rollHash_lt _ _ hlenb)
  have hprobe : dktProbe s k1 k2 true = (.error .fullErr, s) := by
    show dktProbeLoop k1 k2 true s.top.length s (hash1 s k1) = _
    rw [dktProbeLoop_of_true k1 k2 true s.top.length s (hash1 s k1) i b hfs hget, hctxeq, hip]
  simp only [dktSetCore, hprobe]

end DKT

namespace DKT

/-- Rehash sequencing, one slot's pairs: with the boundary occupancy
invariant (`2·top_length ≤ capacity`, so no nested rehash can fire) and the
first key's bucket stored and reachable at slot `i`, running the `.ins` /
`.decLen` jobs of a fresh distinct pair list consumes exactly two fuel per
pair, leaves every counter where it was, and replaces slot `i`'s bucket by
one holding the old and the new pairs. -/
theorem dktRun_pairs :
    ∀ (ps : List (Key × Nat)) (f : Nat) (s : DKTState) (k1 : Key) (i : Nat) (b : LPT)
      (rest : List Job),
      sizesOk b.sizes →
      2 * s.topLen ≤ s.top.length →
      i < s.top.length →
      s.top.getD i none = some (k1, b) →
      findSlot s.top k1 s.top.length (hash1 s k1) = some (i, true) →
      b.hashPos = i → 1 ≤ b.count → lptInv b →
      (ps.map Prod.fst).Nodup →
      (∀ q ∈ ps, ∀ r ∈ b.arr.filterMap id, r.1 ≠ q.1) →
      b.count + ps.length ≤ b.sizes.getD (b.sizes.length - 1) 0 →
      2 * ps.length ≤ f →
      ∃ b2, dktRun f s (slotJobs k1 ps ++ rest)
          = dktRun (f - 2 * ps.length) { s with top := s.top.set i (some (k1, b2)) } rest ∧
        b2.sizes = b.sizes ∧ b2.hashPos = i ∧ 1 ≤ b2.count ∧ lptInv b2 ∧
        b2.count = b.count + ps.length ∧
        (b2.arr.filterMap id).Perm (ps ++ b.arr.filterMap id) := by
  intro ps
  induction ps with
  | nil =>
    intro f s k1 i b rest hszb hbal hilt hget hfs hhp hcnt hinv _ _ _ _
    have hsetid : s.top.set i (some (k1, b)) = s.top := by
      rw [← hget]
      exact set_getD_id s.top i none hilt
    refine ⟨b, ?_, rfl, hhp, hcnt, hinv, by simp, by simp⟩
    show dktRun f s ([] ++ rest) = dktRun (f - 2 * 0) { s with top := s.top.set i (some (k1, b)) } rest
    have h0 : f - 2 * 0 = f := by omega
    rw [hsetid, h0]
    rfl
  | cons kv ps' ih =>
    obtain ⟨k2x, vx⟩ := kv
    intro f s k1 i b rest hszb hbal hilt hget hfs hhp hcnt hinv hnd hdisj hbound hfuel
    simp only [List.length_cons] at hfuel hbound
    obtain ⟨f2, rfl⟩ : ∃ f2, f = f2 + 2 := ⟨f - 2, by omega⟩
    obtain ⟨b1, hcore, hsz1, hhp1, hc1, hinv1, hperm1⟩ :=
      dktSetCore_addpair s k1 k2x vx i b hszb hget hfs hhp hinv hcnt
        (by intro r hr; exact hdisj (k2x, vx) (by simp) r hr)
        (by omega)
    have hstep : dktRun (f2 + 2) s (slotJobs k1 ((k2x, vx) :: ps') ++ rest)
        = dktRun f2 { s with top := s.top.set i (some (k1, b1)) }
            (slotJobs k1 ps' ++ rest) := by
      show dktRun (f2 + 2) s (.ins k1 k2x vx :: .decLen :: slotJobs k1 ps' ++ rest) = _
      simp only [dktRun, hcore]
      rw [if_neg (by
        show ¬ 2 * s.topLen > (s.top.set i (some (k1, b1))).length
        rw [List.length_set]
        omega)]
      rfl
    set sB : DKTState := { s with top := s.top.set i (some (k1, b1)) } with hsB
    have hlenB : sB.top.length = s.top.length := by
      simp [hsB, List.length_set]
    obtain ⟨b2, hrun2, hsz2, hhp2, hc2pos, hinv2, hc2, hperm2⟩ :=
      ih f2 sB k1 i b1 rest
        (by rw [hsz1]; exact hszb)
        (by rw [hlenB]; exact hbal)
        (by rw [hlenB]; exact hilt)
        (by simp only [hsB]; exact getD_set_self s.top i _ none hilt)
        (by
          show findSlot sB.top k1 sB.top.length (rollHash sB.top.length k1) = some (i, true)
          rw [hlenB]
          show findSlot (s.top.set i (some (k1, b1))) k1 s.top.length
            (rollHash s.top.length k1) = some (i, true)
          rw [findSlot_set_samekey s.top i k1 b b1 hget]
          exact hfs)
        hhp1 (by omega) hinv1
        (by simp only [List.map_cons, List.nodup_cons] at hnd; exact hnd.2)
        (by
          intro q hq r hr
          rcases List.mem_cons.mp (hperm1.mem_iff.mp hr) with h1 | h2
          · subst h1
            intro hcon
            simp only [List.map_cons, List.nodup_cons] at hnd
            refine hnd.1 ?_
            have hk2 : k2x = q.1 := hcon
            rw [hk2]
            exact List.mem_map_of_mem Prod.fst hq
          · exact hdisj q (by simp [hq]) r h2)
        (by rw [hsz1, hc1]; omega)
        (by omega)
    refine ⟨b2, ?_, by rw [hsz2, hsz1], hhp2, hc2pos, hinv2, ?_, ?_⟩
    · rw [hstep, hrun2]
      have hfeq : f2 + 2 - 2 * ((k2x, vx) :: ps').length = f2 - 2 * ps'.length := by
        simp only [List.length_cons]
        omega
      rw [hfeq]
      have htops : sB.top.set i (some (k1, b2)) = s.top.set i (some (k1, b2)) := by
        simp only [hsB, List.set_set]
      show dktRun (f2 - 2 * ps'.length) { sB with top := sB.top.set i (some (k1, b2)) } rest
        = dktRun (f2 - 2 * ps'.length) { s with top := s.top.set i (some (k1, b2)) } rest
      rw [htops]
    · rw [hc2, hc1]
      simp only [List.length_cons]
      omega
    · refine hperm2.trans ?_
      refine ((hperm1.append_left ps').trans ?_)
      exact List.perm_middle

end DKT

namespace DKT

/-- Rehash sequencing, one whole slot: a `.decTop` job followed by the pair
jobs of a first key not yet present lands the key's fresh bucket in the
first empty slot of its probe walk and restores both counters. -/
theorem dktRun_slot (ps : List (Key × Nat)) (f : Nat) (s : DKTState) (k1 : Key)
    (rest : List Job)
    (hszI : sizesOk s.innerSizes)
    (hbal : 2 * s.topLen ≤ s.top.length)
    (htl1 : 1 ≤ s.topLen)
    (hroom : (s.top.filterMap id).length < s.top.length)
    (hk1new : ∀ p ∈ s.top.filterMap id, p.1 ≠ k1)
    (hpsne : ps ≠ [])
    (hnd : (ps.map Prod.fst).Nodup)
    (hbound : ps.length ≤ s.innerSizes.getD (s.innerSizes.length - 1) 0)
    (hfuel : 2 * ps.length + 1 ≤ f) :
    ∃ q b2, dktRun f s (.decTop :: slotJobs k1 ps ++ rest)
        = dktRun (f - (2 * ps.length + 1)) { s with top := s.top.set q (some (k1, b2)) } rest ∧
      q < s.top.length ∧ s.top.getD q none = none ∧
      b2.sizes = s.innerSizes ∧ b2.hashPos = q ∧ b2.count = ps.length ∧ lptInv b2 ∧
      (b2.arr.filterMap id).Perm ps ∧
      findSlot (s.top.set q (some (k1, b2))) k1 s.top.length
        (rollHash s.top.length k1) = some (q, true) := by
  obtain ⟨p0, ps', rfl⟩ : ∃ p0 ps', ps = p0 :: ps' := by
    cases ps with
    | nil => exact absurd rfl hpsne
    | cons a l => exact ⟨a, l, rfl⟩
  obtain ⟨k20, v0⟩ := p0
  simp only [List.length_cons] at hfuel hbound
  obtain ⟨f2, rfl⟩ : ∃ f2, f = f2 + 3 := ⟨f - 3, by omega⟩
  have hlen : 0 < s.top.length := by omega
  -- the landing slot
  obtain ⟨q, m, hfsm⟩ := findSlot_isSome_of_empty s.top k1 hlen (hash1 s k1)
    (rollHash_lt _ _ hlen) (exists_empty_of_occ_lt s.top hroom)
  have hm : m = false := by
    cases m with
    | false => rfl
    | true => exact absurd hfsm (findSlot_not_true_of_absent s.top k1 hk1new _ _ q)
  subst hm
  have hqlt : q < s.top.length :=
    findSlot_lt s.top k1 hlen s.top.length (hash1 s k1) q false (rollHash_lt _ _ hlen) hfsm
  have hqz : s.top.getD q none = none := by
    rcases findSlot_char s.top k1 s.top.length (hash1 s k1) q false hfsm with ⟨_, hz⟩ | ⟨hf, _⟩
    · exact hz
    · exact Bool.noConfusion hf
  -- the decTop step
  set sD : DKTState := { s with topLen := s.topLen - 1 } with hsD
  have hstep0 : dktRun (f2 + 3) s (.decTop :: slotJobs k1 ((k20, v0) :: ps') ++ rest)
      = dktRun (f2 + 2) sD (slotJobs k1 ((k20, v0) :: ps') ++ rest) := rfl
  -- the first insert: fresh first key
  have hfsD : findSlot sD.top k1 sD.top.length (hash1 sD k1) = some (q, false) := hfsm
  obtain ⟨b1, hcore, hsz1, hhp1, hc1, hinv1, hperm1⟩ :=
    dktSetCore_newk1 sD k1 k20 v0 q hszI hfsD
  have hstep1 : dktRun (f2 + 2) sD (slotJobs k1 ((k20, v0) :: ps') ++ rest)
      = dktRun (f2 + 1)
          { sD with top := sD.top.set q (some (k1, b1)),
                    totLen := sD.totLen + 1, topLen := sD.topLen + 1 }
          (.decLen :: slotJobs k1 ps' ++ rest) := by
    show dktRun (f2 + 2) sD (.ins k1 k20 v0 :: .decLen :: slotJobs k1 ps' ++ rest) = _
    simp only [dktRun, hcore]
    rw [if_neg (by
      show ¬ 2 * (sD.topLen + 1) > (sD.top.set q (some (k1, b1))).length
      rw [List.length_set]
      show ¬ 2 * (s.topLen - 1 + 1) > s.top.length
      omega)]
  -- the decLen step restores both counters
  set sB : DKTState := { s with top := s.top.set q (some (k1, b1)) } with hsB
  have hstep2 : dktRun (f2 + 1)
      { sD with top := sD.top.set q (some (k1, b1)),
                totLen := sD.totLen + 1, topLen := sD.topLen + 1 }
      (.decLen :: slotJobs k1 ps' ++ rest)
      = dktRun f2 sB (slotJobs k1 ps' ++ rest) := by
    show dktRun f2
        { sD with top := sD.top.set q (some (k1, b1)),
                  totLen := sD.totLen + 1 - 1, topLen := sD.topLen + 1 }
        (slotJobs k1 ps' ++ rest) = _
    have h1 : sD.totLen + 1 - 1 = s.totLen := rfl
    have h2 : sD.topLen + 1 = s.topLen := by
      show s.topLen - 1 + 1 = s.topLen
      omega
    rw [h1, h2]
  have hlenB : sB.top.length = s.top.length := by
    simp [hsB, List.length_set]
  have hgetB : sB.top.getD q none = some (k1, b1) := by
    simp only [hsB]
    exact getD_set_self s.top q _ none hqlt
  have hfsB : findSlot sB.top k1 sB.top.length (hash1 sB k1) = some (q, true) := by
    show findSlot sB.top k1 sB.top.length (rollHash sB.top.length k1) = some (q, true)
    rw [hlenB]
    show findSlot (s.top.set q (some (k1, b1))) k1 s.top.length
      (rollHash s.top.length k1) = some (q, true)
    exact findSlot_write_match s.top k1 b1 hlen s.top.length _ q
      (rollHash_lt _ _ hlen) hfsm hqz
  obtain ⟨b2, hrun2, hsz2, hhp2, hc2pos, hinv2, hc2, hperm2⟩ :=
    dktRun_pairs ps' f2 sB k1 q b1 rest
      (by rw [hsz1]; exact hszI)
      (by rw [hlenB]; exact hbal)
      (by rw [hlenB]; exact hqlt)
      hgetB hfsB hhp1 (by omega) hinv1
      (by simp only [List.map_cons, List.nodup_cons] at hnd; exact hnd.2)
      (by
        intro qq hqq r hr
        have hrm : r ∈ [(k20, v0)] := hperm1.mem_iff.mp hr
        simp at hrm
        subst hrm
        intro hcon
        simp only [List.map_cons, List.nodup_cons] at hnd
        refine hnd.1 ?_
        have hk2 : k20 = qq.1 := hcon
        rw [hk2]
        exact List.mem_map_of_mem Prod.fst hqq)
      (by
        have hsd : sD.innerSizes = s.innerSizes := rfl
        rw [hsz1, hsd, hc1]
        omega)
      (by omega)
  refine ⟨q, b2, ?_, hqlt, hqz, by rw [hsz2, hsz1], hhp2, ?_, hinv2, ?_, ?_⟩
  · rw [hstep0, hstep1, hstep2, hrun2]
    have hfeq : f2 + 3 - (2 * ((k20, v0) :: ps').length + 1) = f2 - 2 * ps'.length := by
      simp only [List.length_cons]
      omega
    rw [hfeq]
    have htops : sB.top.set q (some (k1, b2)) = s.top.set q (some (k1, b2)) := by
      simp only [hsB, List.set_set]
    show dktRun (f2 - 2 * ps'.length) { sB with top := sB.top.set q (some (k1, b2)) } rest
      = dktRun (f2 - 2 * ps'.length) { s with top := s.top.set q (some (k1, b2)) } rest
    rw [htops]
  · rw [hc2, hc1]
    simp only [List.length_cons]
    omega
  · refine hperm2.trans ?_
    refine ((hperm1.append_left ps').trans ?_)
    exact List.perm_append_comm
  · show findSlot (s.top.set q (some (k1, b2))) k1 s.top.length
      (rollHash s.top.length k1) = some (q, true)
    exact findSlot_write_match s.top k1 b2 hlen s.top.length _ q
      (rollHash_lt _ _ hlen) hfsm hqz

end DKT

namespace DKT

theorem nodup_key_eq {α β : Type} :
    ∀ (l : List (α × β)) (p p' : α × β), (l.map Prod.fst).Nodup →
      p ∈ l → p' ∈ l → p.1 = p'.1 → p = p' := by
  intro l
  induction l with
  | nil => intro p p' _ hp _ _; simp at hp
  | cons a r ih =>
    intro p p' hnd hp hp' hk
    simp only [List.map_cons, List.nodup_cons] at hnd
    rcases List.mem_cons.mp hp with h1 | h2 <;> rcases List.mem_cons.mp hp' with h1' | h2'
    · rw [h1, h1']
    · exfalso
      subst h1
      exact hnd.1 (hk ▸ List.mem_map_of_mem Prod.fst h2')
    · exfalso
      subst h1'
      exact hnd.1 (hk ▸ List.mem_map_of_mem Prod.fst h2)
    · exact ih p p' hnd.2 h2 h2' hk

theorem getD_of_mem_fm {α : Type} :
    ∀ (l : List (Option α)) (x : α), x ∈ l.filterMap id →
      ∃ j, j < l.length ∧ l.getD j none = some x := by
  intro l
  induction l with
  | nil => intro x hx; simp at hx
  | cons a r ih =>
    intro x hx
    cases a with
    | none =>
      rw [fm_cons_none] at hx
      obtain ⟨j, hj, hg⟩ := ih x hx
      exact ⟨j + 1, by simpa using hj, hg⟩
    | some y =>
      rw [fm_cons_some] at hx
      rcases List.mem_cons.mp hx with h1 | h2
      · exact ⟨0, by simp, by simp [List.getD, h1]⟩
      · obtain ⟨j, hj, hg⟩ := ih x h2
        exact ⟨j + 1, by simpa using hj, hg⟩

theorem workOf_eq (slots : List (Option (Key × LPT))) :
    workOf slots = (slots.filterMap id).map (fun p => (p.1, p.2.arr.filterMap id)) :=
  fm_map_opt _ slots

theorem zip_keys_values (b : LPT) :
    (lptKeys b).zip (lptValues b) = b.arr.filterMap id := by
  simp only [lptKeys, lptValues, fm_map_opt]
  exact zip_fst_snd _

theorem expandSlots_eq :
    ∀ (slots : List (Option (Key × LPT))), expandSlots slots = slotsJobs (workOf slots) := by
  intro slots
  induction slots with
  | nil => rfl
  | cons a r ih =>
    cases a with
    | none =>
      show expandSlot none ++ expandSlots r = slotsJobs (workOf (none :: r))
      have h1 : workOf (none :: r) = workOf r := rfl
      rw [h1, ← ih]
      rfl
    | some p =>
      obtain ⟨k1, b⟩ := p
      show expandSlot (some (k1, b)) ++ expandSlots r
        = slotsJobs (workOf (some (k1, b) :: r))
      have h1 : workOf (some (k1, b) :: r) = (k1, b.arr.filterMap id) :: workOf r := rfl
      rw [h1]
      show .decTop :: ((lptKeys b).zip (lptValues b)).foldr
          (fun kv acc => .ins k1 kv.1 kv.2 :: .decLen :: acc) [] ++ expandSlots r
        = .decTop :: slotJobs k1 (b.arr.filterMap id) ++ slotsJobs (workOf r)
      rw [zip_keys_values, ih]
      rfl

end DKT

namespace DKT

/-- Rehash sequencing, all slots: running the reinsertion jobs of a list of
(first key, pair list) groups into a table with enough room places every
group in its own slot, restores every counter, preserves the stored
triples as a multiset, and keeps every slot well formed and reachable. -/
theorem dktRun_slots :
    ∀ (ws : List (Key × List (Key × Nat))) (f : Nat) (s : DKTState) (rest : List Job),
      sizesOk s.innerSizes →
      2 * s.topLen ≤ s.top.length →
      ws.length ≤ s.topLen →
      (s.top.filterMap id).length + ws.length ≤ s.top.length →
      (ws.map Prod.fst).Nodup →
      (∀ w ∈ ws, ∀ p ∈ s.top.filterMap id, p.1 ≠ w.1) →
      (∀ w ∈ ws, w.2 ≠ [] ∧ (w.2.map Prod.fst).Nodup ∧
        w.2.length ≤ s.innerSizes.getD (s.innerSizes.length - 1) 0) →
      (∀ j, j < s.top.length → ∀ p ∈ s.top.getD j none,
        lptWF s.innerSizes j p.2 ∧
        findSlot s.top p.1 s.top.length (rollHash s.top.length p.1) = some (j, true)) →
      listSum (ws.map (fun w => 2 * w.2.length + 1)) ≤ f →
      ∃ top2, dktRun f s (slotsJobs ws ++ rest)
          = dktRun (f - listSum (ws.map (fun w => 2 * w.2.length + 1)))
              { s with top := top2 } rest ∧
        top2.length = s.top.length ∧
        (top2.filterMap id).length = (s.top.filterMap id).length + ws.length ∧
        ((top2.filterMap id).map Prod.fst).Perm
          (ws.map Prod.fst ++ (s.top.filterMap id).map Prod.fst) ∧
        (dktPairsL top2).Perm
          ((ws.map (fun w => w.2.map (fun q => (w.1, q.1, q.2)))).join ++ dktPairsL s.top) ∧
        (∀ j, j < top2.length → ∀ p ∈ top2.getD j none,
          lptWF s.innerSizes j p.2 ∧
          findSlot top2 p.1 top2.length (rollHash top2.length p.1) = some (j, true)) := by
  intro ws
  induction ws with
  | nil =>
    intro f s rest _ _ _ _ _ _ _ hWF _
    refine ⟨s.top, ?_, rfl, by simp, by simp, by simp, hWF⟩
    show dktRun f s ([] ++ rest) = dktRun (f - listSum []) { s with top := s.top } rest
    rfl
  | cons w ws' ih =>
    obtain ⟨k1, psj⟩ := w
    intro f s rest hszI hbal hwslen hocc hnd hdisj hwprops hWF hfuel
    have hused : listSum (((k1, psj) :: ws').map (fun w => 2 * w.2.length + 1))
        = (2 * psj.length + 1) + listSum (ws'.map (fun w => 2 * w.2.length + 1)) := by
      rw [List.map_cons, listSum_cons]
    rw [hused] at hfuel
    simp only [List.length_cons] at hwslen hocc
    obtain ⟨hpsne, hndj, hboundj⟩ := hwprops (k1, psj) (by simp)
    obtain ⟨q, b2, hrunQ, hqlt, hqz, hsz2, hhp2, hc2, hinv2, hperm2, hreach2⟩ :=
      dktRun_slot psj f s k1 (slotsJobs ws' ++ rest) hszI hbal (by omega) (by omega)
        (by intro p hp; exact hdisj (k1, psj) (by simp) p hp)
        hpsne hndj hboundj (by omega)
    set sN : DKTState := { s with top := s.top.set q (some (k1, b2)) } with hsN
    have hlenN : sN.top.length = s.top.length := by simp [hsN, List.length_set]
    have hpermN : (sN.top.filterMap id).Perm ((k1, b2) :: s.top.filterMap id) :=
      fm_set_none_perm s.top q (k1, b2) hqz hqlt
    have hoccN : (sN.top.filterMap id).length = (s.top.filterMap id).length + 1 := by
      rw [hpermN.length_eq, List.length_cons]
    obtain ⟨top2, hrun2, hlen2, hocc2, hkeys2, hpairs2, hWF2⟩ :=
      ih (f - (2 * psj.length + 1)) sN rest
        hszI
        (by rw [hlenN]; exact hbal)
        (by show ws'.length ≤ s.topLen; omega)
        (by rw [hoccN, hlenN]; omega)
        (by simp only [List.map_cons, List.nodup_cons] at hnd; exact hnd.2)
        (by
          intro w' hw' p hp
          rcases List.mem_cons.mp (hpermN.mem_iff.mp hp) with h1 | h2
          · subst h1
            intro hcon
            simp only [List.map_cons, List.nodup_cons] at hnd
            refine hnd.1 ?_
            have hk : k1 = w'.1 := hcon
            rw [hk]
            exact List.mem_map_of_mem Prod.fst hw'
          · exact hdisj w' (by simp [hw']) p h2)
        (by intro w' hw'; exact hwprops w' (by simp [hw']))
        (by
          intro j hj p hp
          rw [hlenN] at hj
          by_cases hjq : j = q
          · subst hjq
            have hpj : p = (k1, b2) := by
              have h0 := hp
              simp only [hsN, getD_set_self s.top j (some (k1, b2)) none hj] at h0
              have h1 : (k1, b2) = p := by simpa using h0
              exact h1.symm
            subst hpj
            refine ⟨⟨hsz2, hhp2, ?_, hinv2⟩, ?_⟩
            · rw [hc2]
              cases psj with
              | nil => exact absurd rfl hpsne
              | cons a l => simp
            · rw [hlenN]
              exact hreach2
          · have hpold : p ∈ s.top.getD j none := by
              have := hp
              simp only [hsN,
                getD_set_ne s.top q j (some (k1, b2)) none (fun hc => hjq hc.symm)] at this
              exact this
            obtain ⟨hwf, hre⟩ := hWF j hj p hpold
            refine ⟨hwf, ?_⟩
            rw [hlenN]
            show findSlot (s.top.set q (some (k1, b2))) p.1 s.top.length
              (rollHash s.top.length p.1) = some (j, true)
            exact findSlot_set_empty s.top p.1 q (some (k1, b2)) hqz _ _ j hre)
        (by omega)
    refine ⟨top2, ?_, by rw [hlen2, hlenN], ?_, ?_, ?_, ?_⟩
    · show dktRun f s (slotsJobs ((k1, psj) :: ws') ++ rest) = _
      have hjobs : slotsJobs ((k1, psj) :: ws') ++ rest
          = .decTop :: slotJobs k1 psj ++ (slotsJobs ws' ++ rest) := by
        show (.decTop :: slotJobs k1 psj ++ slotsJobs ws') ++ rest = _
        simp [List.append_assoc]
      rw [hjobs, hrunQ, hrun2]
      rw [hused]
      have hfeq : f - (2 * psj.length + 1)
            - listSum (ws'.map (fun w => 2 * w.2.length + 1))
          = f - ((2 * psj.length + 1) + listSum (ws'.map (fun w => 2 * w.2.length + 1))) := by
        omega
      rw [hfeq]
    · rw [hocc2, hoccN]
      simp only [List.length_cons]
      omega
    · refine hkeys2.trans ?_
      have hkeysN : ((sN.top.filterMap id).map Prod.fst).Perm
          (k1 :: (s.top.filterMap id).map Prod.fst) := by
        have := hpermN.map Prod.fst
        simpa using this
      refine ((hkeysN.append_left (ws'.map Prod.fst)).trans ?_)
      exact List.perm_middle
    · have hpairsN : (dktPairsL sN.top).Perm
          ((b2.arr.filterMap id).map (fun p => (k1, p.1, p.2)) ++ dktPairsL s.top) := by
        simp only [hsN]
        exact dktPairsL_set_empty_perm s.top q k1 b2 hqz hqlt
      have hmapb2 : ((b2.arr.filterMap id).map (fun p => (k1, p.1, p.2))).Perm
          (psj.map (fun p => (k1, p.1, p.2))) := hperm2.map _
      have hjoin : (((k1, psj) :: ws').map (fun w => w.2.map (fun q2 => (w.1, q2.1, q2.2)))).join
          = psj.map (fun p => (k1, p.1, p.2))
            ++ (ws'.map (fun w => w.2.map (fun q2 => (w.1, q2.1, q2.2)))).join := by
        simp
      rw [hjoin]
      have h1 := hpairs2.trans (hpairsN.append_left
        ((ws'.map (fun w => w.2.map (fun q2 => (w.1, q2.1, q2.2)))).join))
      have h2 := (hmapb2.append_right (dktPairsL s.top)).append_left
        ((ws'.map (fun w => w.2.map (fun q2 => (w.1, q2.1, q2.2)))).join)
      refine (h1.trans h2).trans ?_
      rw [← List.append_assoc]
      exact List.perm_append_comm.append_right (dktPairsL s.top)
    · intro j hj p hp
      exact hWF2 j hj p hp

end DKT

namespace DKT

theorem listSum_affine :
    ∀ (l : List Nat), listSum (l.map (fun c => 2 * c + 1)) = 2 * listSum l + l.length := by
  intro l
  induction l with
  | nil => rfl
  | cons a r ih =>
    rw [List.map_cons, listSum_cons, listSum_cons, ih, List.length_cons]
    ring

theorem workOf_keys (top : List (Option (Key × LPT))) :
    (workOf top).map Prod.fst = (top.filterMap id).map Prod.fst := by
  rw [workOf_eq, List.map_map]
  rfl

theorem workOf_length (top : List (Option (Key × LPT))) :
    (workOf top).length = (top.filterMap id).length := by
  rw [workOf_eq, List.length_map]

theorem rehash_fuel_eq (top : List (Option (Key × LPT)))
    (hcnt : ∀ p ∈ top.filterMap id, p.2.count = (p.2.arr.filterMap id).length) :
    listSum ((workOf top).map (fun w => 2 * w.2.length + 1))
      = 2 * listSum ((top.filterMap id).map (fun p => p.2.count))
        + (top.filterMap id).length := by
  rw [workOf_eq, List.map_map]
  have hmap : (top.filterMap id).map
        ((fun w : Key × List (Key × Nat) => 2 * w.2.length + 1)
          ∘ (fun p : Key × LPT => (p.1, p.2.arr.filterMap id)))
      = ((top.filterMap id).map (fun p => p.2.count)).map (fun c => 2 * c + 1) := by
    rw [List.map_map]
    apply List.map_congr_left
    intro p hp
    simp only [Function.comp]
    rw [hcnt p hp]
  rw [hmap, listSum_affine, List.length_map]

theorem workOf_triples (top : List (Option (Key × LPT))) :
    ((workOf top).map (fun w => w.2.map (fun q => (w.1, q.1, q.2)))).join
      = dktPairsL top := by
  rw [workOf_eq, List.map_map, dktPairsL_eq_join]
  rfl

/-- The reinsertion phase of `_rehash` with room in the size sequence: into
the freshly sized empty outer array it reinserts every slot's pairs,
restores both counters, preserves the triple multiset, and yields a well
formed reachable outer array. -/
theorem rehash_core (f : Nat) (sA : DKTState) (rest : List Job)
    (hszI : sizesOk sA.innerSizes)
    (hocc : sA.topLen = (sA.top.filterMap id).length)
    (htot : sA.totLen = listSum ((sA.top.filterMap id).map (fun p => p.2.count)))
    (hnodup : ((sA.top.filterMap id).map Prod.fst).Nodup)
    (hslots : ∀ j, j < sA.top.length → ∀ p ∈ sA.top.getD j none,
      lptWF sA.innerSizes j p.2 ∧
      findSlot sA.top p.1 sA.top.length (rollHash sA.top.length p.1) = some (j, true))
    (hbal : 2 * sA.topLen ≤ sA.topSizes.getD (sA.topIdx + 1) 0)
    (hfuel : 2 * sA.totLen + sA.topLen + 1 ≤ f) :
    ∃ top2, dktRun f
        { sA with topIdx := sA.topIdx + 1,
                  top := List.replicate (sA.topSizes.getD (sA.topIdx + 1) 0) none }
        (expandSlots sA.top ++ rest)
      = dktRun (f - (2 * sA.totLen + sA.topLen))
          { sA with topIdx := sA.topIdx + 1, top := top2 } rest ∧
      top2.length = sA.topSizes.getD (sA.topIdx + 1) 0 ∧
      (top2.filterMap id).length = sA.topLen ∧
      ((top2.filterMap id).map Prod.fst).Perm ((sA.top.filterMap id).map Prod.fst) ∧
      (dktPairsL top2).Perm (dktPairsL sA.top) ∧
      (∀ j, j < top2.length → ∀ p ∈ top2.getD j none,
        lptWF sA.innerSizes j p.2 ∧
        findSlot top2 p.1 top2.length (rollHash top2.length p.1) = some (j, true)) := by
  have hcnt : ∀ p ∈ sA.top.filterMap id, p.2.count = (p.2.arr.filterMap id).length := by
    intro p hp
    obtain ⟨j, hj, hg⟩ := getD_of_mem_fm sA.top p hp
    obtain ⟨hwf, _⟩ := hslots j hj p (by rw [hg]; rfl)
    exact hwf.2.2.2.2.2.1
  have hfeq := rehash_fuel_eq sA.top hcnt
  set sN : DKTState :=
    { sA with topIdx := sA.topIdx + 1,
              top := List.replicate (sA.topSizes.getD (sA.topIdx + 1) 0) none } with hsN
  have hlenN : sN.top.length = sA.topSizes.getD (sA.topIdx + 1) 0 := by
    simp [hsN]
  have hfmN : sN.top.filterMap id = [] := by
    simp only [hsN]
    exact fm_replicate_none _
  obtain ⟨top2, hrun, hlen2, hocc2, hkeys2, hpairs2, hWF2⟩ :=
    dktRun_slots (workOf sA.top) f sN rest
      hszI
      (by rw [hlenN]; exact hbal)
      (by
        show (workOf sA.top).length ≤ sA.topLen
        rw [workOf_length, hocc])
      (by
        rw [hfmN, workOf_length, hlenN]
        simp only [List.length_nil]
        omega)
      (by rw [workOf_keys]; exact hnodup)
      (by intro w _ p hp; rw [hfmN] at hp; simp at hp)
      (by
        intro w hw
        rw [workOf_eq] at hw
        obtain ⟨p, hp, hweq⟩ := List.mem_map.mp hw
        obtain ⟨j, hj, hg⟩ := getD_of_mem_fm sA.top p hp
        obtain ⟨hwf, _⟩ := hslots j hj p (by rw [hg]; rfl)
        obtain ⟨hbsz, hbhp, hbcnt, hbinv⟩ := hwf
        subst hweq
        refine ⟨?_, ?_, ?_⟩
        · intro hnil
          have hnil2 : List.filterMap id p.2.arr = [] := hnil
          have hcnteq : p.2.count = (List.filterMap id p.2.arr).length := hbinv.2.2.1
          rw [hnil2] at hcnteq
          simp at hcnteq
          omega
        · exact hbinv.2.2.2.2.1
        · have hle : (p.2.arr.filterMap id).length ≤ p.2.arr.length := by
            have := List.length_filterMap_le id p.2.arr
            simpa using this
          have hcap := cap_le_last p.2 (by rw [hbsz]; exact hszI) hbinv
          show (p.2.arr.filterMap id).length ≤ sN.innerSizes.getD (sN.innerSizes.length - 1) 0
          have hsn : sN.innerSizes = sA.innerSizes := rfl
          rw [hsn, ← hbsz]
          omega)
      (by
        intro j hj p hp
        exfalso
        simp only [hsN, getD_replicate_none] at hp
        simp at hp)
      (by rw [hfeq, ← htot, ← hocc]; omega)
  have husedeq : listSum ((workOf sA.top).map (fun w => 2 * w.2.length + 1))
      = 2 * sA.totLen + sA.topLen := by
    rw [hfeq, ← htot, ← hocc]
  refine ⟨top2, ?_, by rw [hlen2, hlenN], ?_, ?_, ?_, ?_⟩
  · rw [expandSlots_eq, hrun, husedeq]
  · rw [hocc2, hfmN, workOf_length, hocc]
    simp
  · refine hkeys2.trans ?_
    rw [hfmN, workOf_keys]
    simp
  · refine hpairs2.trans ?_
    rw [workOf_triples]
    have hpN : dktPairsL sN.top = [] := by
      rw [dktPairsL_eq_join, hfmN]
      rfl
    rw [hpN]
    simp
  · intro j hj p hp
    exact hWF2 j hj p hp

end DKT

namespace DKT

theorem dktRun_nil (f : Nat) (s : DKTState) (hf : 1 ≤ f) : dktRun f s [] = (none, s) := by
  cases f with
  | zero => omega
  | succ n => rfl

theorem length_join_listSum {α : Type} :
    ∀ (L : List (List α)), L.join.length = listSum (L.map List.length) := by
  intro L
  induction L with
  | nil => rfl
  | cons a r ih =>
    show (a ++ r.join).length = listSum (List.map List.length (a :: r))
    rw [List.length_append, List.map_cons, listSum_cons, ih]

theorem dktPairsL_length (top : List (Option (Key × LPT)))
    (hcnt : ∀ p ∈ top.filterMap id, p.2.count = (p.2.arr.filterMap id).length) :
    (dktPairsL top).length
      = listSum ((top.filterMap id).map (fun p => p.2.count)) := by
  rw [dktPairsL_eq_join, length_join_listSum, List.map_map]
  congr 1
  apply List.map_congr_left
  intro p hp
  simp only [Function.comp, List.length_map]
  exact (hcnt p hp).symm

theorem dktFuel_big (s : DKTState) : 2 * s.totLen + s.topLen + 5 ≤ dktFuel s := by
  simp only [dktFuel]
  have h1 : 2 * s.totLen + s.topLen + 5
      ≤ s.topLen + 2 * s.totLen + s.top.length + listSum s.topSizes + 5 := by omega
  have h2 : s.topLen + 2 * s.totLen + s.top.length + listSum s.topSizes + 5
      ≤ (s.topLen + 2 * s.totLen + s.top.length + listSum s.topSizes + 5)
        * (s.topSizes.length + 2) :=
    Nat.le_mul_of_pos_right _ (by omega)
  omega

end DKT

namespace DKT

/-- C7 (amended): on a well-formed table, `_rehash` advances the outer array
to the next configured size (a no-op beyond the index bump when the
sequence is exhausted) and reinserts every stored `(k1, k2, value)` triple,
preserving both counters and well-formedness, and strictly growing the
outer capacity; but, contrary to the original claim, the reinserted inner
buckets are rebuilt from the base of the inner size sequence, so an inner
bucket's capacity can decrease across a rehash (refuted separately on a
concrete run). -/
theorem c7_rehash_advances_and_reinserts (s : DKTState) (h : dktWF s) :
    (s.topSizes.length ≤ s.topIdx + 1 →
      dktRehash s = (none, { s with topIdx := s.topIdx + 1 })) ∧
    (s.topIdx + 1 < s.topSizes.length →
      ∃ s2, dktRehash s = (none, s2) ∧
        s2.topIdx = s.topIdx + 1 ∧
        s2.top.length = s.topSizes.getD (s.topIdx + 1) 0 ∧
        s.top.length < s2.top.length ∧
        s2.totLen = s.totLen ∧ s2.topLen = s.topLen ∧
        s2.topSizes = s.topSizes ∧ s2.innerSizes = s.innerSizes ∧
        (dktPairs s2).Perm (dktPairs s) ∧ dktWF s2) := by
  obtain ⟨hszT, hszI, hidx, hlen, hocc, htot, hnodup, hload, hslots⟩ := h
  constructor
  · intro hex
    show (if s.topSizes.length ≤ s.topIdx + 1 then _ else _) = _
    rw [if_pos hex]
  · intro hroomI
    have hadj := gapOk_adj s.topSizes hszT.2.2 s.topIdx hroomI
    have hbal : 2 * s.topLen ≤ s.topSizes.getD (s.topIdx + 1) 0 := by
      rcases hload with hl | hr
      · omega
      · omega
    have hfuel : 2 * s.totLen + s.topLen + 1 ≤ dktFuel s := by
      have := dktFuel_big s
      omega
    obtain ⟨top2, hrun, hlen2, hocc2, hkeys2, hpairs2, hWF2⟩ :=
      rehash_core (dktFuel s) s [] hszI hocc htot hnodup hslots hbal hfuel
    rw [List.append_nil] at hrun
    have hfin : dktRun (dktFuel s - (2 * s.totLen + s.topLen))
        { s with topIdx := s.topIdx + 1, top := top2 } []
        = (none, { s with topIdx := s.topIdx + 1, top := top2 }) := by
      apply dktRun_nil
      have := dktFuel_big s
      omega
    refine ⟨{ s with topIdx := s.topIdx + 1, top := top2 }, ?_, rfl, hlen2, ?_, rfl, rfl,
      rfl, rfl, hpairs2, ?_⟩
    · show (if s.topSizes.length ≤ s.topIdx + 1 then _ else _) = _
      rw [if_neg (by omega)]
      show dktRun (dktFuel s)
        { s with topIdx := s.topIdx + 1,
                 top := List.replicate (s.topSizes.getD (s.topIdx + 1) 0) none }
        (expandSlots s.top) = _
      rw [hrun, hfin]
    · rw [hlen2, hlen]
      omega
    · -- well-formedness of the rehashed state
      have hcnt2 : ∀ p ∈ top2.filterMap id,
          p.2.count = (p.2.arr.filterMap id).length := by
        intro p hp
        obtain ⟨j, hj, hg⟩ := getD_of_mem_fm top2 p hp
        obtain ⟨hwf, _⟩ := hWF2 j hj p (by rw [hg]; rfl)
        exact hwf.2.2.2.2.2.1
      have hcnt1 : ∀ p ∈ s.top.filterMap id,
          p.2.count = (p.2.arr.filterMap id).length := by
        intro p hp
        obtain ⟨j, hj, hg⟩ := getD_of_mem_fm s.top p hp
        obtain ⟨hwf, _⟩ := hslots j hj p (by rw [hg]; rfl)
        exact hwf.2.2.2.2.2.1
      refine ⟨hszT, hszI, by show s.topIdx + 1 < s.topSizes.length; omega, hlen2,
        hocc2.symm, ?_, ?_, ?_, ?_⟩
      · show s.totLen = listSum ((top2.filterMap id).map (fun p => p.2.count))
        rw [← dktPairsL_length top2 hcnt2, htot, ← dktPairsL_length s.top hcnt1]
        exact hpairs2.length_eq.symm
      · exact (hkeys2.nodup_iff).mpr hnodup
      · left
        show 2 * s.topLen ≤ top2.length
        rw [hlen2]
        exact hbal
      · intro j hj p hp
        exact hWF2 j hj p hp

end DKT

namespace DKT

/-- Witness for C7 (amended) at the freshly constructed default table. -/
theorem c7_rehash_advances_and_reinserts_witness :
    dktWF dktDefault ∧
    ((dktDefault.topSizes.length ≤ dktDefault.topIdx + 1 →
      dktRehash dktDefault = (none, { dktDefault with topIdx := dktDefault.topIdx + 1 })) ∧
    (dktDefault.topIdx + 1 < dktDefault.topSizes.length →
      ∃ s2, dktRehash dktDefault = (none, s2) ∧
        s2.topIdx = dktDefault.topIdx + 1 ∧
        s2.top.length = dktDefault.topSizes.getD (dktDefault.topIdx + 1) 0 ∧
        dktDefault.top.length < s2.top.length ∧
        s2.totLen = dktDefault.totLen ∧ s2.topLen = dktDefault.topLen ∧
        s2.topSizes = dktDefault.topSizes ∧ s2.innerSizes = dktDefault.innerSizes ∧
        (dktPairs s2).Perm (dktPairs dktDefault) ∧ dktWF s2)) :=
  ⟨by decide, c7_rehash_advances_and_reinserts dktDefault (by decide)⟩

end DKT

namespace DKT

theorem listSum_eq_sum : ∀ (l : List Nat), listSum l = l.sum := by
  intro l
  induction l with
  | nil => rfl
  | cons a r ih => rw [listSum_cons, List.sum_cons, ih]

theorem listSum_perm (l1 l2 : List Nat) (h : l1.Perm l2) : listSum l1 = listSum l2 := by
  rw [listSum_eq_sum, listSum_eq_sum]
  exact h.sum_eq

theorem k1Stored_iff_mem (s : DKTState) (k1 : Key) :
    k1Stored s k1 ↔ k1 ∈ (s.top.filterMap id).map Prod.fst := by
  constructor
  · intro ⟨p, hp, hk⟩
    exact hk ▸ List.mem_map_of_mem Prod.fst hp
  · intro h
    obtain ⟨p, hp, hk⟩ := List.mem_map.mp h
    exact ⟨p, hp, hk⟩

end DKT

namespace DKT

/-- Master case analysis of `__setitem__` on a well-formed table: it either
fails with `FullError` leaving the state untouched, or succeeds, stores the
triple, bumps each counter exactly when its key part is new, and runs the
rehash exactly when the occupancy threshold is crossed. -/
theorem dktSet_master (s : DKTState) (k1 k2 : Key) (v : Nat) (h : dktWF s) :
    (dktSet s k1 k2 v = (some .fullErr, s)) ∨
    (∃ s1, dktSet s k1 k2 v = (none, s1) ∧
      tripleStored s1 k1 k2 v ∧
      s1.totLen = s.totLen + (if pairStored s k1 k2 then 0 else 1) ∧
      s1.topLen = s.topLen + (if k1Stored s k1 then 0 else 1) ∧
      (2 * s1.topLen ≤ s.top.length →
         s1.topIdx = s.topIdx ∧ s1.top.length = s.top.length) ∧
      (2 * s1.topLen > s.top.length →
         s1.topIdx = s.topIdx + 1 ∧
         (s.topIdx + 1 < s.topSizes.length →
           s1.top.length = s.topSizes.getD (s.topIdx + 1) 0 ∧
           s.top.length < s1.top.length) ∧
         (s.topSizes.length ≤ s.topIdx + 1 → s1.top.length = s.top.length))) := by
  obtain ⟨hszT, hszI, hidx, hlen, hocc, htot, hnodup, hload, hslots⟩ := h
  obtain ⟨F1, hF⟩ : ∃ F1, dktFuel s = F1 + 1 :=
    ⟨dktFuel s - 1, by have := dktFuel_big s; omega⟩
  have hF1big : 2 * s.totLen + s.topLen + 4 ≤ F1 := by
    have := dktFuel_big s
    omega
  have hlenpos : 0 < s.top.length := by
    rw [hlen]
    have := sizes_ge2 s.topSizes hszT s.topIdx hidx
    omega
  cases hfs : findSlot s.top k1 s.top.length (hash1 s k1) with
  | none =>
    left
    have hcore := dktSetCore_outer_full s k1 k2 v hfs
    show dktRun (dktFuel s) s [.ins k1 k2 v] = (some .fullErr, s)
    rw [hF]
    simp only [dktRun, hcore]
  | some qm =>
    obtain ⟨q, m⟩ := qm
    have hqlt : q < s.top.length :=
      findSlot_lt s.top k1 hlenpos _ _ q m (rollHash_lt _ _ hlenpos) hfs
    cases m with
    | false =>
      -- new first key
      have hk1f : ¬ k1Stored s k1 := by
        intro ⟨p, hp, hk⟩
        obtain ⟨j, hj, hg⟩ := getD_of_mem_fm s.top p hp
        obtain ⟨-, hre⟩ := hslots j hj p (by rw [hg]; rfl)
        rw [hk] at hre
        have hre2 : findSlot s.top k1 s.top.length (hash1 s k1) = some (j, true) := hre
        rw [hfs] at hre2
        simp at hre2
      have hpf : ¬ pairStored s k1 k2 := fun ⟨p, hp, hk, _⟩ => hk1f ⟨p, hp, hk⟩
      have hqz : s.top.getD q none = none := by
        rcases findSlot_char s.top k1 s.top.length (hash1 s k1) q false hfs with
          ⟨-, hz⟩ | ⟨hf, -⟩
        · exact hz
        · exact Bool.noConfusion hf
      obtain ⟨b1, hcore, hsz1, hhp1, hc1, hinv1, hperm1⟩ :=
        dktSetCore_newk1 s k1 k2 v q hszI hfs
      set sA : DKTState := { s with top := s.top.set q (some (k1, b1)),
                                    totLen := s.totLen + 1, topLen := s.topLen + 1 } with hsA
      have hlenA : sA.top.length = s.top.length := by simp [hsA, List.length_set]
      have hmemb1 : (k2, v) ∈ b1.arr.filterMap id := hperm1.mem_iff.mpr (by simp)
      have hgetA : sA.top.getD q none = some (k1, b1) := by
        simp only [hsA]
        exact getD_set_self s.top q _ none hqlt
      have htriA : tripleStored sA k1 k2 v :=
        ⟨(k1, b1), mem_fm_of_getD _ q _ hgetA, rfl, hmemb1⟩
      have hpermA : (sA.top.filterMap id).Perm ((k1, b1) :: s.top.filterMap id) :=
        fm_set_none_perm s.top q (k1, b1) hqz hqlt
      by_cases htrig : 2 * (s.topLen + 1) > s.top.length
      · by_cases hroom : s.topIdx + 1 < s.topSizes.length
        · -- the threshold is crossed with room: a full rehash runs
          have hnotex : 2 * s.topLen ≤ s.top.length := by
            rcases hload with hl | hr
            · exact hl
            · omega
          have hadj := gapOk_adj s.topSizes hszT.2.2 s.topIdx hroom
          have hoccA : sA.topLen = (sA.top.filterMap id).length := by
            rw [hpermA.length_eq, List.length_cons]
            show s.topLen + 1 = (s.top.filterMap id).length + 1
            omega
          have htotA : sA.totLen
              = listSum ((sA.top.filterMap id).map (fun p => p.2.count)) := by
            rw [listSum_perm _ _ (hpermA.map (fun p => p.2.count))]
            show s.totLen + 1 = listSum (b1.count :: (s.top.filterMap id).map (fun p => p.2.count))
            rw [listSum_cons, hc1]
            omega
          have hnodupA : ((sA.top.filterMap id).map Prod.fst).Nodup := by
            refine ((hpermA.map Prod.fst).nodup_iff).mpr ?_
            simp only [List.map_cons]
            refine List.Nodup.cons ?_ hnodup
            intro hmem
            exact hk1f ((k1Stored_iff_mem s k1).mpr hmem)
          have hslotsA : ∀ j, j < sA.top.length → ∀ p ∈ sA.top.getD j none,
              lptWF sA.innerSizes j p.2 ∧
              findSlot sA.top p.1 sA.top.length (rollHash sA.top.length p.1)
                = some (j, true) := by
            intro j hj p hp
            rw [hlenA] at hj
            by_cases hjq : j = q
            · have hp2 : p ∈ sA.top.getD q none := by rw [← hjq]; exact hp
              rw [hgetA] at hp2
              have hpj : p = (k1, b1) := by
                have h1 : (k1, b1) = p := by simpa using hp2
                exact h1.symm
              rw [hpj, hjq]
              refine ⟨⟨hsz1, hhp1, by show 1 ≤ b1.count; omega, hinv1⟩, ?_⟩
              rw [hlenA]
              show findSlot (s.top.set q (some (k1, b1))) k1 s.top.length
                (rollHash s.top.length k1) = some (q, true)
              exact findSlot_write_match s.top k1 b1 hlenpos _ _ q
                (rollHash_lt _ _ hlenpos) hfs hqz
            · have hpold : p ∈ s.top.getD j none := by
                have h0 := hp
                simp only [hsA,
                  getD_set_ne s.top q j (some (k1, b1)) none (fun hc => hjq hc.symm)] at h0
                exact h0
              obtain ⟨hwf, hre⟩ := hslots j hj p hpold
              refine ⟨hwf, ?_⟩
              rw [hlenA]
              show findSlot (s.top.set q (some (k1, b1))) p.1 s.top.length
                (rollHash s.top.length p.1) = some (j, true)
              exact findSlot_set_empty s.top p.1 q (some (k1, b1)) hqz _ _ j hre
          have hbalA : 2 * sA.topLen ≤ sA.topSizes.getD (sA.topIdx + 1) 0 := by
            show 2 * (s.topLen + 1) ≤ s.topSizes.getD (s.topIdx + 1) 0
            rw [hlen] at hnotex
            omega
          have hfuelA : 2 * sA.totLen + sA.topLen + 1 ≤ F1 := by
            show 2 * (s.totLen + 1) + (s.topLen + 1) + 1 ≤ F1
            omega
          obtain ⟨top2, hrun, hlen2, hocc2, hkeys2, hpairs2, hWF2⟩ :=
            rehash_core F1 sA [] hszI hoccA htotA hnodupA hslotsA hbalA hfuelA
          right
          refine ⟨{ sA with topIdx := sA.topIdx + 1, top := top2 }, ?_, ?_, ?_, ?_, ?_, ?_⟩
          · show dktRun (dktFuel s) s [.ins k1 k2 v] = _
            rw [hF]
            simp only [dktRun, hcore]
            rw [if_pos (show 2 * sA.topLen > sA.top.length from by
              rw [hlenA]
              show 2 * (s.topLen + 1) > s.top.length
              exact htrig)]
            rw [if_neg (show ¬ sA.topSizes.length ≤ sA.topIdx + 1 from by
              show ¬ s.topSizes.length ≤ s.topIdx + 1
              omega)]
            rw [hrun]
            rw [dktRun_nil _ _ (by
              show 1 ≤ F1 - (2 * sA.totLen + sA.topLen)
              have h2 : 2 * sA.totLen + sA.topLen = 2 * (s.totLen + 1) + (s.topLen + 1) := rfl
              omega)]
          · show tripleStored { sA with topIdx := sA.topIdx + 1, top := top2 } k1 k2 v
            have hmemp : (k1, k2, v) ∈ dktPairsL sA.top :=
              (mem_dktPairsL sA.top k1 k2 v).mpr ⟨(k1, b1), mem_fm_of_getD _ q _ hgetA, rfl, hmemb1⟩
            have hmemp2 : (k1, k2, v) ∈ dktPairsL top2 := hpairs2.mem_iff.mpr hmemp
            obtain ⟨p, hp, hk, hm⟩ := (mem_dktPairsL top2 k1 k2 v).mp hmemp2
            exact ⟨p, hp, hk, hm⟩
          · rw [if_neg hpf]
          · rw [if_neg hk1f]
          · intro hc
            exfalso
            have : 2 * (s.topLen + 1) ≤ s.top.length := hc
            omega
          · intro _
            refine ⟨rfl, ?_, ?_⟩
            · intro _
              refine ⟨hlen2, ?_⟩
              rw [hlen2, hlen]
              show s.topSizes.getD s.topIdx 0 < s.topSizes.getD (s.topIdx + 1) 0
              omega
            · intro hex
              omega
        · -- the threshold is crossed but the sequence is exhausted: index bump only
          right
          refine ⟨{ sA with topIdx := sA.topIdx + 1 }, ?_, ?_, ?_, ?_, ?_, ?_⟩
          · show dktRun (dktFuel s) s [.ins k1 k2 v] = _
            rw [hF]
            simp only [dktRun, hcore]
            rw [if_pos (show 2 * sA.topLen > sA.top.length from by
              rw [hlenA]
              show 2 * (s.topLen + 1) > s.top.length
              exact htrig)]
            rw [if_pos (show sA.topSizes.length ≤ sA.topIdx + 1 from by
              show s.topSizes.length ≤ s.topIdx + 1
              omega)]
            exact dktRun_nil F1 _ (by omega)
          · obtain ⟨p, hp, hk, hm⟩ := htriA
            exact ⟨p, hp, hk, hm⟩
          · rw [if_neg hpf]
          · rw [if_neg hk1f]
          · intro hc
            exfalso
            have : 2 * (s.topLen + 1) ≤ s.top.length := hc
            omega
          · intro _
            refine ⟨rfl, ?_, ?_⟩
            · intro hr
              exact absurd hr hroom
            · intro _
              exact hlenA
      · -- no rehash
        right
        refine ⟨sA, ?_, htriA, ?_, ?_, ?_, ?_⟩
        · show dktRun (dktFuel s) s [.ins k1 k2 v] = _
          rw [hF]
          simp only [dktRun, hcore]
          rw [if_neg (show ¬ 2 * sA.topLen > sA.top.length from by
            rw [hlenA]
            show ¬ 2 * (s.topLen + 1) > s.top.length
            exact htrig)]
          exact dktRun_nil F1 sA (by omega)
        · rw [if_neg hpf]
        · rw [if_neg hk1f]
        · intro _
          exact ⟨rfl, hlenA⟩
        · intro hc
          exfalso
          have : 2 * (s.topLen + 1) > s.top.length := hc
          exact htrig this
    | true =>
      rcases findSlot_char s.top k1 s.top.length (hash1 s k1) q true hfs with
        ⟨hf, -⟩ | ⟨-, b, hgetq⟩
      · exact Bool.noConfusion hf
      obtain ⟨hwfq, hreq⟩ := hslots q hqlt (k1, b) (by rw [hgetq]; rfl)
      obtain ⟨hbsz, hbhp, hbcnt, hbinv⟩ := hwfq
      have hk1t : k1Stored s k1 := ⟨(k1, b), mem_fm_of_getD _ _ _ hgetq, rfl⟩
      have hszb : sizesOk b.sizes := by rw [hbsz]; exact hszI
      have hps_iff : pairStored s k1 k2 ↔ ∃ v0, (k2, v0) ∈ b.arr.filterMap id := by
        constructor
        · intro ⟨p, hp, hk, q2, hq2, hk2⟩
          have hpe : p = (k1, b) :=
            nodup_key_eq _ p (k1, b) hnodup hp (mem_fm_of_getD _ _ _ hgetq) (by rw [hk])
          rw [hpe] at hq2
          have hq2e : (q2.1, q2.2) ∈ b.arr.filterMap id := by simpa using hq2
          rw [hk2] at hq2e
          exact ⟨q2.2, hq2e⟩
        · intro ⟨v0, hv0⟩
          exact ⟨(k1, b), mem_fm_of_getD _ _ _ hgetq, rfl, (k2, v0), hv0, rfl⟩
      -- the trigger can only fire when growth is exhausted
      have htrignoroom : 2 * s.topLen > s.top.length → s.topSizes.length ≤ s.topIdx + 1 := by
        intro hc
        rcases hload with hl | hr
        · omega
        · exact hr
      by_cases hps : pairStored s k1 k2
      · -- stored pair: in-place overwrite
        obtain ⟨v0, hv0⟩ := hps_iff.mp hps
        obtain ⟨j, hjlt, hj⟩ := getD_of_mem_fm b.arr (k2, v0) hv0
        obtain ⟨b2, hcore, hsz2, hhp2, hc2, hinv2, harr2⟩ :=
          dktSetCore_overwrite s k1 k2 v v0 q j b hszb hgetq hfs hbhp hbinv hj
        set sB : DKTState := { s with top := s.top.set q (some (k1, b2)) } with hsB
        have hlenB : sB.top.length = s.top.length := by simp [hsB, List.length_set]
        have hgetB : sB.top.getD q none = some (k1, b2) := by
          simp only [hsB]
          exact getD_set_self s.top q _ none hqlt
        have htriB : tripleStored sB k1 k2 v := by
          refine ⟨(k1, b2), mem_fm_of_getD _ q _ hgetB, rfl, ?_⟩
          rw [harr2]
          exact mem_fm_of_getD _ j _ (getD_set_self b.arr j _ none hjlt)
        by_cases htrig : 2 * s.topLen > s.top.length
        · have hex := htrignoroom htrig
          right
          refine ⟨{ sB with topIdx := sB.topIdx + 1 }, ?_, ?_, ?_, ?_, ?_, ?_⟩
          · show dktRun (dktFuel s) s [.ins k1 k2 v] = _
            rw [hF]
            simp only [dktRun, hcore]
            rw [if_pos (show 2 * sB.topLen > sB.top.length from by
              rw [hlenB]
              show 2 * s.topLen > s.top.length
              exact htrig)]
            rw [if_pos (show sB.topSizes.length ≤ sB.topIdx + 1 from hex)]
            exact dktRun_nil F1 _ (by omega)
          · obtain ⟨p, hp, hk, hm⟩ := htriB
            exact ⟨p, hp, hk, hm⟩
          · rw [if_pos hps]
            rfl
          · rw [if_pos hk1t]
            rfl
          · intro hc
            exfalso
            have : 2 * s.topLen ≤ s.top.length := hc
            omega
          · intro _
            refine ⟨rfl, ?_, ?_⟩
            · intro hr
              omega
            · intro _
              exact hlenB
        · right
          refine ⟨sB, ?_, htriB, ?_, ?_, ?_, ?_⟩
          · show dktRun (dktFuel s) s [.ins k1 k2 v] = _
            rw [hF]
            simp only [dktRun, hcore]
            rw [if_neg (show ¬ 2 * sB.topLen > sB.top.length from by
              rw [hlenB]
              show ¬ 2 * s.topLen > s.top.length
              exact htrig)]
            exact dktRun_nil F1 sB (by omega)
          · rw [if_pos hps]
            rfl
          · rw [if_pos hk1t]
            rfl
          · intro _
            exact ⟨rfl, hlenB⟩
          · intro hc
            exact absurd hc htrig
      · -- new second key under a stored first key
        have hno : ∀ r ∈ b.arr.filterMap id, r.1 ≠ k2 := by
          intro r hr hcon
          refine hps (hps_iff.mpr ⟨r.2, ?_⟩)
          have hre : (r.1, r.2) ∈ b.arr.filterMap id := by simpa using hr
          rw [hcon] at hre
          exact hre
        have hcle : b.count ≤ b.arr.length := by
          rw [hbinv.2.2.1]
          have := List.length_filterMap_le id b.arr
          simpa using this
        have hcappos : 0 < b.arr.length := cap_pos b hszb hbinv
        by_cases hfull : b.count = b.arr.length
        · -- full bucket: FullError, untouched
          left
          have hall : ∀ j2, j2 < b.arr.length → b.arr.getD j2 none ≠ none := by
            apply fm_all_some_of_length
            rw [← hbinv.2.2.1, hfull]
          have hcore := dktSetCore_inner_full s k1 k2 v q b hgetq hfs hbhp hcappos hall hno
          show dktRun (dktFuel s) s [.ins k1 k2 v] = (some .fullErr, s)
          rw [hF]
          simp only [dktRun, hcore]
        · -- room in the bucket: the pair is added
          have hroomS : b.count + 1 ≤ b.sizes.getD (b.sizes.length - 1) 0 := by
            have hcap := cap_le_last b hszb hbinv
            omega
          obtain ⟨b2, hcore, hsz2, hhp2, hc2, hinv2, hperm2⟩ :=
            dktSetCore_addpair s k1 k2 v q b hszb hgetq hfs hbhp hbinv hbcnt hno hroomS
          set sB : DKTState := { s with top := s.top.set q (some (k1, b2)),
                                        totLen := s.totLen + 1 } with hsB
          have hlenB : sB.top.length = s.top.length := by simp [hsB, List.length_set]
          have hgetB : sB.top.getD q none = some (k1, b2) := by
            simp only [hsB]
            exact getD_set_self s.top q _ none hqlt
          have htriB : tripleStored sB k1 k2 v := by
            refine ⟨(k1, b2), mem_fm_of_getD _ q _ hgetB, rfl, ?_⟩
            exact hperm2.mem_iff.mpr (by simp)
          by_cases htrig : 2 * s.topLen > s.top.length
          · have hex := htrignoroom htrig
            right
            refine ⟨{ sB with topIdx := sB.topIdx + 1 }, ?_, ?_, ?_, ?_, ?_, ?_⟩
            · show dktRun (dktFuel s) s [.ins k1 k2 v] = _
              rw [hF]
              simp only [dktRun, hcore]
              rw [if_pos (show 2 * sB.topLen > sB.top.length from by
                rw [hlenB]
                show 2 * s.topLen > s.top.length
                exact htrig)]
              rw [if_pos (show sB.topSizes.length ≤ sB.topIdx + 1 from hex)]
              exact dktRun_nil F1 _ (by omega)
            · obtain ⟨p, hp, hk, hm⟩ := htriB
              exact ⟨p, hp, hk, hm⟩
            · rw [if_neg hps]
            · rw [if_pos hk1t]
              rfl
            · intro hc
              exfalso
              have : 2 * s.topLen ≤ s.top.length := hc
              omega
            · intro _
              refine ⟨rfl, ?_, ?_⟩
              · intro hr
                omega
              · intro _
                exact hlenB
          · right
            refine ⟨sB, ?_, htriB, ?_, ?_, ?_, ?_⟩
            · show dktRun (dktFuel s) s [.ins k1 k2 v] = _
              rw [hF]
              simp only [dktRun, hcore]
              rw [if_neg (show ¬ 2 * sB.topLen > sB.top.length from by
                rw [hlenB]
                show ¬ 2 * s.topLen > s.top.length
                exact htrig)]
              exact dktRun_nil F1 sB (by omega)
            · rw [if_neg hps]
            · rw [if_pos hk1t]
              rfl
            · intro _
              exact ⟨rfl, hlenB⟩
            · intro hc
              exact absurd hc htrig

end DKT

namespace DKT

/-- C6: insert atomicity for `DoubleKeyTable` on a well-formed state --
whenever `set(k1,k2,v)` fails, the returned state is exactly the state
before the call (no partial mutation is visible), and a successful `set`
fully completes: the triple is stored, `length` and `top_length` are bumped
exactly when the pair / first key is new, and the outer size index advances
exactly when the occupancy threshold was crossed. -/
theorem c6_set_atomicity (s : DKTState) (k1 k2 : Key) (v : Nat) (h : dktWF s) :
    (∀ e s1, dktSet s k1 k2 v = (some e, s1) → s1 = s) ∧
    (∀ s1, dktSet s k1 k2 v = (none, s1) →
      tripleStored s1 k1 k2 v ∧
      s1.totLen = s.totLen + (if pairStored s k1 k2 then 0 else 1) ∧
      s1.topLen = s.topLen + (if k1Stored s k1 then 0 else 1) ∧
      (2 * s1.topLen ≤ s.top.length → s1.topIdx = s.topIdx) ∧
      (2 * s1.topLen > s.top.length → s1.topIdx = s.topIdx + 1)) := by
  rcases dktSet_master s k1 k2 v h with hfail | ⟨s2, hok2, htri, htot, htop, hle, hgt⟩
  · constructor
    · intro e s1 he
      rw [hfail] at he
      injection he with h1 h2
      exact h2.symm
    · intro s1 hnone
      rw [hfail] at hnone
      injection hnone with h1 _
      exact Option.noConfusion h1
  · constructor
    · intro e s1 he
      rw [hok2] at he
      injection he with h1 _
      exact Option.noConfusion h1
    · intro s1 hnone
      rw [hok2] at hnone
      injection hnone with _ h2
      subst h2
      exact ⟨htri, htot, htop, fun h2 => (hle h2).1, fun h2 => (hgt h2).1⟩

/-- C8: on a well-formed state a successful `set(k1,k2,v)` increments
`top_length` exactly when the first key was not yet stored (the target
inner bucket did not exist before the write), increments `length` exactly
when the `(k1,k2)` pair was new, and when the occupancy threshold is
crossed the rehash runs in the same call, advancing the size index and --
if the sequence has room -- strictly increasing the outer capacity. -/
theorem c8_set_counters_and_rehash (s : DKTState) (k1 k2 : Key) (v : Nat)
    (s1 : DKTState) (h : dktWF s) (hok : dktSet s k1 k2 v = (none, s1)) :
    (s1.topLen = s.topLen + 1 ↔ ¬ k1Stored s k1) ∧
    (s1.totLen = s.totLen + 1 ↔ ¬ pairStored s k1 k2) ∧
    (2 * s1.topLen > s.top.length →
      s1.topIdx = s.topIdx + 1 ∧
      (s.topIdx + 1 < s.topSizes.length → s.top.length < s1.top.length)) ∧
    (2 * s1.topLen ≤ s.top.length → s1.topIdx = s.topIdx ∧ s1.top.length = s.top.length) := by
  rcases dktSet_master s k1 k2 v h with hfail | ⟨s2, hok2, htri, htot, htop, hle, hgt⟩
  · rw [hfail] at hok
    injection hok with h1 _
    exact Option.noConfusion h1
  · rw [hok2] at hok
    injection hok with _ h2
    subst h2
    refine ⟨?_, ?_, ?_, hle⟩
    · by_cases hk : k1Stored s k1
      · rw [if_pos hk] at htop
        constructor
        · intro he
          exfalso
          omega
        · intro hn
          exact absurd hk hn
      · rw [if_neg hk] at htop
        exact ⟨fun _ => hk, fun _ => htop⟩
    · by_cases hp : pairStored s k1 k2
      · rw [if_pos hp] at htot
        constructor
        · intro he
          exfalso
          omega
        · intro hn
          exact absurd hp hn
      · rw [if_neg hp] at htot
        exact ⟨fun _ => hp, fun _ => htot⟩
    · intro h2
      obtain ⟨hidx2, hroomimp, _⟩ := hgt h2
      exact ⟨hidx2, fun hr => (hroomimp hr).2⟩

/-- Witness for C6 at the default table and a concrete insert. -/
theorem c6_set_atomicity_witness :
    dktWF dktDefault ∧
    ((∀ e s1, dktSet dktDefault [97] [120] 1 = (some e, s1) → s1 = dktDefault) ∧
    (∀ s1, dktSet dktDefault [97] [120] 1 = (none, s1) →
      tripleStored s1 [97] [120] 1 ∧
      s1.totLen = dktDefault.totLen + (if pairStored dktDefault [97] [120] then 0 else 1) ∧
      s1.topLen = dktDefault.topLen + (if k1Stored dktDefault [97] then 0 else 1) ∧
      (2 * s1.topLen ≤ dktDefault.top.length → s1.topIdx = dktDefault.topIdx) ∧
      (2 * s1.topLen > dktDefault.top.length → s1.topIdx = dktDefault.topIdx + 1))) :=
  ⟨by decide, c6_set_atomicity dktDefault [97] [120] 1 (by decide)⟩

/-- Witness for C8 at the default table and a concrete insert. -/
theorem c8_set_counters_and_rehash_witness :
    (dktWF dktDefault ∧
      dktSet dktDefault [97] [120] 1 = (none, (dktSet dktDefault [97] [120] 1).2)) ∧
    (((dktSet dktDefault [97] [120] 1).2.topLen = dktDefault.topLen + 1
        ↔ ¬ k1Stored dktDefault [97]) ∧
    ((dktSet dktDefault [97] [120] 1).2.totLen = dktDefault.totLen + 1
        ↔ ¬ pairStored dktDefault [97] [120]) ∧
    (2 * (dktSet dktDefault [97] [120] 1).2.topLen > dktDefault.top.length →
      (dktSet dktDefault [97] [120] 1).2.topIdx = dktDefault.topIdx + 1 ∧
      (dktDefault.topIdx + 1 < dktDefault.topSizes.length →
        dktDefault.top.length < (dktSet dktDefault [97] [120] 1).2.top.length)) ∧
    (2 * (dktSet dktDefault [97] [120] 1).2.topLen ≤ dktDefault.top.length →
      (dktSet dktDefault [97] [120] 1).2.topIdx = dktDefault.topIdx ∧
      (dktSet dktDefault [97] [120] 1).2.top.length = dktDefault.top.length)) :=
  ⟨⟨by decide, by rfl⟩,
    c8_set_counters_and_rehash dktDefault [97] [120] 1
      (dktSet dktDefault [97] [120] 1).2 (by decide) (by rfl)⟩

end DKT
